import Mathlib

/-!
# Bare-metal AArch64 console: shallow embedding and verification

The C functions of the repository are embedded as Lean functions.

* Bytes (`char`, `u8`) are natural numbers; a pointer into a buffer is an index
  (`none` is `NULL`), a pointer into the machine memory is an address.
* Machine integers carry an explicit reduction modulo `2 ^ 64` or `2 ^ 32` where
  the source arithmetic can wrap.
* A loop of the source is a recursive function on a step bound whose body is
  the loop body; running out of steps is reported as `none` (or `Err.fuel`)
  and never as a result. Where the source bounds the loop itself the embedding
  supplies the bound.
* Memory read by the device-tree code is partial: reading an unreadable
  address is a fault, reported with the address.
-/

namespace BareMetal

/-! ## `step-07/uart1.c`: transport and line reader -/

/-- The mini UART as the program sees it: `rx k` is the value delivered by the
`k`-th read of the data register (the status polls before each access are
waits and carry no data), `pos` counts the reads done so far, `tx` collects the
bytes stored to the data register, oldest first. -/
structure Uart where
  rx : Nat → Nat
  pos : Nat
  tx : List Nat

/-- The function `uart1_putc(c)`. -/
def uart1_putc (c : Nat) (u : Uart) : Uart :=
  { u with tx := u.tx ++ [c] }

/-- The function `uart1_getc()` of step 07: read, fold `'\r'` to `'\n'`, echo. -/
def uart1_getc (u : Uart) : Nat × Uart :=
  let c := u.rx u.pos % 256
  let c := if c = 13 then 10 else c
  (c, uart1_putc c { u with pos := u.pos + 1 })

/-- The line buffer `lineptr`: `mem i` is `lineptr[i]`, `writes` lists the
indices stored to, in program order. -/
structure LineBuf where
  mem : Nat → Nat
  writes : List Nat

/-- The store `lineptr[i] = c`. -/
def LineBuf.store (b : LineBuf) (i c : Nat) : LineBuf :=
  { mem := Function.update b.mem i c, writes := b.writes ++ [i] }

/-- The `while(nb_read < n - 1)` loop of `uart1_getline`; `lim` is `n - 1`. -/
def uart1_getline_loop (lim : Nat) : Nat → Nat → LineBuf → Uart → Option (Nat × LineBuf × Uart)
  | 0, _, _, _ => none
  | fuel + 1, nb_read, b, u =>
    if nb_read < lim then
      let (c, u1) := uart1_getc u
      let b1 := b.store nb_read c
      let nb_read1 := (nb_read + 1) % 2 ^ 64
      if c = 10 then some (nb_read1, b1, u1)
      else uart1_getline_loop lim fuel nb_read1 b1 u1
    else some (nb_read, b, u)

/-- The value of `n - 1` at type `size_t`: it wraps for `n = 0`. -/
def size_pred (n : Nat) : Nat := (n + 2 ^ 64 - 1) % 2 ^ 64

/-- The statements of `uart1_getline` after its loop: `lineptr[nb_read] = 0`
and `return nb_read`. -/
def uart1_getline_end : Option (Nat × LineBuf × Uart) → Option (Nat × LineBuf × Uart)
  | none => none
  | some (nb_read, b, u1) => some (nb_read, b.store nb_read 0, u1)

/-- The function `uart1_getline(lineptr, n)`. The loop body runs at most
`n - 1` times, which bounds the loop. -/
def uart1_getline (u : Uart) (lineptr : Nat → Nat) (n : Nat) : Option (Nat × LineBuf × Uart) :=
  uart1_getline_end (uart1_getline_loop (size_pred n) (size_pred n + 1) 0 ⟨lineptr, []⟩ u)

/-! ## `step-07/uart1.c`: `uart1_puts` and `uart1_printf` -/

/-- The function `uart1_puts(s)`, for the string whose bytes are `s` (the
terminator is the end of the list or its first 0 byte). -/
def uart1_puts : List Nat → Uart → Uart
  | [], u => u
  | c :: cs, u =>
    if c = 0 then u
    else uart1_puts cs (uart1_putc c (if c = 10 then uart1_putc 13 u else u))

/-- An argument of the variadic `uart1_printf`: a pointer to a NUL-terminated
string, given by the bytes of that string, or an integer register value. -/
inductive VArg where
  | str (s : List Nat)
  | num (v : Nat)

/-- The `for(i = ..; i >= 0; i -= 4)` loops of the directives `%b`, `%w` and
`%h`: `k` nibbles are left to print, the next one at bit `4 * (k - 1)`. -/
def print_hex (v : Nat) : Nat → Uart → Uart
  | 0, u => u
  | k + 1, u =>
    let d := (v >>> (4 * k)) &&& 0xf
    print_hex v k (if d ≤ 0x9 then uart1_putc (48 + d) u else uart1_putc (97 + (d - 10)) u)

/-- The value of a C `int` held in the low 32 bits of a register. -/
def toInt32 (v : Nat) : Int :=
  if v % 2 ^ 32 < 2 ^ 31 then (v % 2 ^ 32 : Nat) else (v % 2 ^ 32 : Nat) - 2 ^ 32

/-- Reduction of an integer to the range of `int` (two's complement wrap). -/
def wrapInt32 (x : Int) : Int := toInt32 (x % 2 ^ 32).toNat

/-- The macro `ABS(x)` of `macros.h` at type `int`. -/
def ABS (x : Int) : Int := if x < 0 then wrapInt32 (-x) else x

/-- The `do ... while(q != 0 || r != 0)` loop of the directive `%i`; `buf` is
the part of the buffer filled so far (from `pos + 1` on), `room` the number of
slots left below it. -/
def print_int_loop : Nat → Int → Int → List Nat → Option (List Nat)
  | 0, _, _, _ => none
  | room + 1, q, r, buf =>
    let buf1 := (48 + r).toNat % 256 :: buf
    let r1 := Int.tmod q 10
    let q1 := Int.tdiv q 10
    if q1 ≠ 0 ∨ r1 ≠ 0 then print_int_loop room q1 r1 buf1 else some buf1

/-- The directive switch of `uart1_printf`, entered after a `%`, and the
outer `while(*s)` loop. `none` stands for a `va_arg` without a matching
argument, or for running out of the 20 bytes of `buf`. -/
def uart1_printf : List Nat → List VArg → Uart → Option Uart
  | [], _, u => some u
  | c :: s, ap, u =>
    if c = 0 then some u
    else if c = 10 then uart1_printf s ap (uart1_putc 10 (uart1_putc 13 u))
    else if c = 37 then
      match s with
      | [] => some (uart1_puts [60, 77, 73, 83, 83, 73, 78, 71, 32, 77, 65, 82, 75, 69, 82, 62] u)
      | m :: s1 =>
        if m = 0 then
          some (uart1_puts [60, 77, 73, 83, 83, 73, 78, 71, 32, 77, 65, 82, 75, 69, 82, 62] u)
        else if m = 37 then uart1_printf s1 ap (uart1_putc m u)
        else if m = 115 then
          match ap with
          | VArg.str a :: ap1 => uart1_printf s1 ap1 (uart1_puts a u)
          | _ => none
        else if m = 99 then
          match ap with
          | VArg.num v :: ap1 => uart1_printf s1 ap1 (uart1_putc (v % 256) u)
          | _ => none
        else if m = 98 then
          match ap with
          | VArg.num v :: ap1 => uart1_printf s1 ap1 (print_hex (v % 256) 2 u)
          | _ => none
        else if m = 119 then
          match ap with
          | VArg.num v :: ap1 => uart1_printf s1 ap1 (print_hex (v % 2 ^ 64) 16 u)
          | _ => none
        else if m = 104 then
          match ap with
          | VArg.num v :: ap1 => uart1_printf s1 ap1 (print_hex (v % 2 ^ 32) 8 u)
          | _ => none
        else if m = 105 then
          match ap with
          | VArg.num v :: ap1 =>
            let i := toInt32 v
            let u1 := if i < 0 then uart1_putc 45 u else u
            let q := ABS (Int.tdiv i 10)
            let r := ABS (Int.tmod i 10)
            match print_int_loop 19 q r [] with
            | some buf => uart1_printf s1 ap1 (uart1_puts buf u1)
            | none => none
          | _ => none
        else
          uart1_printf s1 ap
            (uart1_puts [34, 62] (uart1_putc m
              (uart1_puts [60, 66, 65, 68, 32, 77, 65, 82, 75, 69, 82, 32, 34] u)))
    else uart1_printf s ap (uart1_putc c u)

/-! ## `step-06/string.c`: `strtok_r`, `strtok`, `strcmp` -/

def charAt (s : List Nat) (i : Nat) : Nat := s.getD i 0

/-- The inner `for` loop of `strtok_r`: whether `c` equals one of the bytes
of the NUL-terminated string `delim`. -/
def is_delim (c : Nat) : List Nat → Bool
  | [] => false
  | d :: ds => if d = 0 then false else if c = d then true else is_delim c ds

/-- First `while(1)` loop of `strtok_r` (skipping leading delimiters):
`some none` is the `return NULL` at the terminator, `some (some cur)` is the
`break` with the cursor on the first byte of the token. -/
def strtok_skip (delim mem : List Nat) : Nat → Nat → Option (Option Nat)
  | 0, _ => none
  | fuel + 1, cur =>
    if charAt mem cur = 0 then some none
    else if !(is_delim (charAt mem cur) delim) then some (some cur)
    else strtok_skip delim mem fuel (cur + 1)

/-- Second `while(1)` loop of `strtok_r` (finding the end of the token): the
cursor where it stops, and whether it stopped on the terminator (`true`) or on
a delimiter (`false`). -/
def strtok_scan (delim mem : List Nat) : Nat → Nat → Option (Nat × Bool)
  | 0, _ => none
  | fuel + 1, cur =>
    if charAt mem cur = 0 then some (cur, true)
    else if is_delim (charAt mem cur) delim then some (cur, false)
    else strtok_scan delim mem fuel (cur + 1)

/-- The memory `strtok` works on: the bytes of the buffer holding the string
(pointers are indices into it, `none` is `NULL`) and the global `saveptr`. -/
structure TokState where
  mem : List Nat
  saveptr : Option Nat

/-- The function `strtok_r(str, delim, saveptr)`, with `*saveptr` read from and
written to the state. Both loops stop at the latest on the terminator, so
`mem.length + 1` steps are enough for each. -/
def strtok_r (str : Option Nat) (delim : List Nat) (st : TokState) :
    Option (Option Nat × TokState) :=
  let cur := match str with
    | some p => some p
    | none => st.saveptr
  match cur with
  | none => some (none, st)
  | some cur =>
    match strtok_skip delim st.mem (st.mem.length + 1) cur with
    | none => none
    | some none => some (none, st)
    | some (some tok) =>
      match strtok_scan delim st.mem (st.mem.length + 1) tok with
      | none => none
      | some (_, true) => some (some tok, { st with saveptr := none })
      | some (cur, false) => some (some tok, { mem := st.mem.set cur 0, saveptr := some (cur + 1) })

/-- The function `strtok(str, delim)`: `strtok_r` on the global `saveptr`. -/
def strtok (str : Option Nat) (delim : List Nat) (st : TokState) :
    Option (Option Nat × TokState) :=
  strtok_r str delim st

/-- Ways in which a run of the device-tree code fails to produce a result. -/
inductive Err where
  /-- a load from an address that is not readable -/
  | fault (addr : Nat)
  /-- use of the uninitialised variable `current_node`, or a missing `va_arg` -/
  | undef
  /-- the step bound given to the run was too small -/
  | fuel
deriving DecidableEq, Repr

/-- The body of `strcmp(s1, s2)` of `string.c`, on strings given by their byte
accessors; `i` is the common offset of the two cursors. At each offset the
source reads `*s1`, then `*s2`. -/
def strcmp_loop (s1 s2 : Nat → Except Err Nat) : Nat → Nat → Except Err Int
  | 0, _ => Except.error Err.fuel
  | fuel + 1, i => do
    let c1 ← s1 i
    let c2 ← s2 i
    if c1 ≠ 0 ∧ c2 ≠ 0 then
      let res : Int := (c2 : Int) - (c1 : Int)
      if res ≠ 0 then pure res else strcmp_loop s1 s2 fuel (i + 1)
    else if c1 = c2 then pure 0
    else if c1 = 0 then pure (-1)
    else pure 1

/-- The function `strcmp(s1, s2)`; `n` bounds the number of offsets compared. -/
def strcmp (s1 s2 : Nat → Except Err Nat) (n : Nat) : Except Err Int :=
  strcmp_loop s1 s2 n 0

/-- A string literal of the program, as a byte accessor. -/
def litString (s : List Nat) : Nat → Except Err Nat :=
  fun i => Except.ok (s.getD i 0)

/-! ## `step-07/shell.c`: `to_argv` -/

/-- The array `argv`: `slot i` is the pointer `argv[i]`, `writes` lists the
indices stored to, in program order. -/
structure Argv where
  slot : Nat → Nat
  writes : List Nat

/-- The store `argv[i] = p`. -/
def Argv.store (a : Argv) (i p : Nat) : Argv :=
  { slot := Function.update a.slot i p, writes := a.writes ++ [i] }

/-- The `while(cur)` loop of `to_argv`. -/
def to_argv_loop (delim : List Nat) (max_argc : Nat) :
    Nat → Option Nat → Nat → Argv → TokState → Option (Nat × Argv × TokState)
  | 0, _, _, _, _ => none
  | _ + 1, none, argc, av, st => some (argc, av, st)
  | fuel + 1, some cur, argc, av, st =>
    let av1 := if argc < max_argc then av.store argc cur else av
    let argc1 := (argc + 1) % 2 ^ 64
    match strtok none delim st with
    | none => none
    | some (cur1, st1) => to_argv_loop delim max_argc fuel cur1 argc1 av1 st1

/-- The body of `to_argv(cmd, argv, max_argc)` for a delimiter string `delim`;
`cmd` is the start (index 0) of the buffer `st.mem`. Every iteration consumes
at least one byte of the buffer, which bounds the loop. -/
def to_argv_delim (delim : List Nat) (st : TokState) (argv : Nat → Nat) (max_argc : Nat) :
    Option (Nat × Argv × TokState) :=
  match strtok (some 0) delim st with
  | none => none
  | some (cur, st1) => to_argv_loop delim max_argc (st.mem.length + 2) cur 0 ⟨argv, []⟩ st1

/-- The function `to_argv`, whose delimiter string is `" \t\r\n"`. -/
def to_argv (st : TokState) (argv : Nat → Nat) (max_argc : Nat) :
    Option (Nat × Argv × TokState) :=
  to_argv_delim [32, 9, 13, 10] st argv max_argc

/-! ## `step-08/util.c`: `strtou64` -/

/-- Outcome of `strtou64`: the returned value and the pointer stored in
`*endptr`, where `none` is `NULL` and `some k` is `nptr + k`. -/
structure ParseResult where
  value : Nat
  endptr : Option Nat
deriving DecidableEq, Repr

/-- The digit classification of the loop body of `strtou64`
(`'0'..'9'`, `'a'..'z'`, and the range `'A'..'A'` of the source);
`none` is the final `else` branch. -/
def strtou64_digit (next : Nat) : Option Nat :=
  if 48 ≤ next ∧ next ≤ 57 then some (next - 48)
  else if 97 ≤ next ∧ next ≤ 122 then some (10 + next - 97)
  else if 65 ≤ next ∧ next ≤ 65 then some (10 + next - 65)
  else none

/-- The `while(1)` loop of `strtou64`, with `cur` and `res` as loop state. -/
def strtou64_loop (nptr : List Nat) (base : Nat) : Nat → Nat → Nat → Option ParseResult
  | 0, _, _ => none
  | fuel + 1, cur, res =>
    let next := charAt nptr cur
    match strtou64_digit next with
    | none =>
      if cur = 0 then some ⟨0, some 0⟩
      else some ⟨res, if next = 0 then none else some cur⟩
    | some digit =>
      if digit ≥ base then
        if cur = 0 then some ⟨0, some 0⟩ else some ⟨res, some cur⟩
      else strtou64_loop nptr base fuel (cur + 1) ((res * base + digit) % 2 ^ 64)

/-- The function `strtou64(nptr, endptr, base)`; `base` is a C `int`. The loop
reads at most `nptr.length + 1` characters, which is the fuel supplied. -/
def strtou64 (nptr : List Nat) (base : Int) : Option ParseResult :=
  if base < 2 ∨ base > 36 then some ⟨0, some 0⟩
  else strtou64_loop nptr base.toNat (nptr.length + 1) 0 0

/-! ## `step-09/dtb.c`: the device-tree walk -/

/-- Byte-addressed memory: `none` marks an address that cannot be read. -/
abbrev Mem := Nat → Option Nat

/-- Pointer arithmetic `p + k` on 64-bit addresses. -/
def padd (p k : Nat) : Nat := (p + k) % 2 ^ 64

/-- A load of one `u8`. -/
def load (mem : Mem) (a : Nat) : Except Err Nat :=
  match mem a with
  | some v => Except.ok (v % 256)
  | none => Except.error (Err.fault a)

/-- The function `read_be(p)`. -/
def read_be (mem : Mem) (p : Nat) : Except Err Nat := do
  let b0 ← load mem p
  let b1 ← load mem (padd p 1)
  let b2 ← load mem (padd p 2)
  let b3 ← load mem (padd p 3)
  pure ((b0 <<< 24 + b1 <<< 16 + b2 <<< 8 + b3) % 2 ^ 32)

/-- The token `FDT_BEGIN_NODE`. -/
abbrev FDT_BEGIN_NODE : Nat := 0x00000001

/-- The token `FDT_END_NODE`. -/
abbrev FDT_END_NODE : Nat := 0x00000002

/-- The token `FDT_PROP`. -/
abbrev FDT_PROP : Nat := 0x00000003

/-- The token `FDT_NOP`, which no `case` of the source names. -/
abbrev FDT_NOP : Nat := 0x00000004

/-- The token `FDT_END`. -/
abbrev FDT_END : Nat := 0x00000009

/-- The macro `FDT_ALIGN(x)`, that is `(((u64)x) + 3) & (~3)`. -/
def FDT_ALIGN (x : Nat) : Nat := ((x + 3) % 2 ^ 64) &&& (2 ^ 64 - 4)

/-- The function `fdt_read_str(fdt, nameoff)`; `fdt_off_dt_strings` is the
header field at byte offset 12. -/
def fdt_read_str (mem : Mem) (fdt nameoff : Nat) : Except Err Nat := do
  let off ← read_be mem (padd fdt 12)
  pure (padd (padd fdt off) nameoff)

/-- The C type `fdt_structure_piece`; the pointer `next` is `NULL` when 0. -/
structure fdt_structure_piece where
  current : Nat
  token : Nat
  next : Nat
deriving DecidableEq, Repr

/-- The loop `while (*ps != 0) ps++` of `fdt_read_piece`. -/
def skip_name (mem : Mem) : Nat → Nat → Except Err Nat
  | 0, _ => Except.error Err.fuel
  | fuel + 1, ps => do
    let c ← load mem ps
    if c ≠ 0 then skip_name mem fuel (padd ps 1) else pure ps

/-- The function `fdt_read_piece(p)`; `n` bounds the scan of a node name. -/
def fdt_read_piece (mem : Mem) (n : Nat) (p : Nat) : Except Err fdt_structure_piece := do
  let token ← read_be mem p
  if token = FDT_BEGIN_NODE then
    let ps ← skip_name mem n (padd p 4)
    pure ⟨p, token, FDT_ALIGN (padd ps 1)⟩
  else if token = FDT_END_NODE then
    pure ⟨p, token, FDT_ALIGN (padd p 4)⟩
  else if token = FDT_PROP then
    let _ ← read_be mem p
    let len ← read_be mem (padd p 4)
    let _ ← read_be mem (padd p 8)
    pure ⟨p, token, FDT_ALIGN (padd (padd p 12) len)⟩
  else if token = FDT_END then
    pure ⟨p, token, 0⟩
  else
    pure ⟨p, token, 0⟩

/-- A string in memory at address `p`, as a byte accessor. -/
def memString (mem : Mem) (p : Nat) : Nat → Except Err Nat :=
  fun i => load mem (padd p i)

/-- The bytes of the NUL-terminated string at address `p`, as `uart1_puts`
reads them. -/
def read_cstr (mem : Mem) : Nat → Nat → Except Err (List Nat)
  | 0, _ => Except.error Err.fuel
  | fuel + 1, p => do
    let c ← load mem p
    if c ≠ 0 then
      let cs ← read_cstr mem fuel (padd p 1)
      pure (c :: cs)
    else pure []

/-- The string literal `"chosen"`. -/
def str_chosen : List Nat := [99, 104, 111, 115, 101, 110]

/-- The string literal `"bootargs"`. -/
def str_bootargs : List Nat := [98, 111, 111, 116, 97, 114, 103, 115]

/-- The format string `"cmdline = '%s'\n"`. -/
def fmt_cmdline : List Nat :=
  [99, 109, 100, 108, 105, 110, 101, 32, 61, 32, 39, 37, 115, 39, 10]

/-- The `while (p)` loop of `dtb_print_bootargs`: `n` bounds the inner string
loops, the first numeric argument bounds the iterations of this loop. -/
def dtb_walk (mem : Mem) (dtb n : Nat) : Nat → Nat → Option Nat → Uart → Except Err Uart
  | 0, _, _, _ => Except.error Err.fuel
  | fuel + 1, p, current_node, u =>
    if p = 0 then pure u
    else do
      let piece ← fdt_read_piece mem n p
      if piece.token = FDT_BEGIN_NODE then
        dtb_walk mem dtb n fuel piece.next (some (padd p 4)) u
      else if piece.token = FDT_END_NODE then
        dtb_walk mem dtb n fuel piece.next current_node u
      else if piece.token = FDT_PROP then
        let nameoff ← read_be mem (padd p 8)
        let name ← fdt_read_str mem dtb nameoff
        match current_node with
        | none => Except.error Err.undef
        | some node =>
          let r1 ← strcmp (memString mem node) (litString str_chosen) n
          if r1 = 0 then
            let r2 ← strcmp (memString mem name) (litString str_bootargs) n
            if r2 = 0 then
              let bootargs ← read_cstr mem n (padd p 12)
              match uart1_printf fmt_cmdline [VArg.str bootargs] u with
              | some u1 => pure u1
              | none => Except.error Err.undef
            else dtb_walk mem dtb n fuel piece.next current_node u
          else dtb_walk mem dtb n fuel piece.next current_node u
      else if piece.token = FDT_END then pure u
      else pure u

/-- The function `dtb_print_bootargs(dtb)`, run for at most `fuel` pieces;
`fdt_off_dt_struct` is the header field at byte offset 8. -/
def dtb_print_bootargs (mem : Mem) (dtb : Nat) (fuel : Nat) (u : Uart) : Except Err Uart := do
  let off ← read_be mem (padd dtb 8)
  dtb_walk mem dtb fuel fuel (padd dtb off) none u

/-! ## Specification vocabulary

The definitions below are not code of the repository: they are the notions the
statements are written in. -/

/-- The byte `uart1_getc` hands over for a received value: its low 8 bits,
with `'\r'` replaced by `'\n'`. -/
def foldCR (v : Nat) : Nat := if v % 256 = 13 then 10 else v % 256

/-- The bytes the transport sends for a string: `'\n'` becomes `'\r' '\n'`. -/
def crlf : List Nat → List Nat
  | [] => []
  | c :: cs => (if c = 10 then [13, 10] else [c]) ++ crlf cs

/-- The NUL-terminated string found at index `p` of a buffer. -/
def cstr (mem : List Nat) (p : Nat) : List Nat := (mem.drop p).takeWhile (· ≠ 0)

/-- Membership in a delimiter set, as a Boolean test. -/
def inSet (delims : List Nat) (c : Nat) : Bool := decide (c ∈ delims)

/-- The tokens of a line: the maximal non-empty runs of bytes outside `delims`,
in left-to-right order. -/
def tokensOf (delims : List Nat) (line : List Nat) : List (List Nat) :=
  (line.splitOnP (inSet delims)).filter (fun t => decide (t ≠ []))

/-- The effective start cursor of `strtok_r`: `str ? str : *saveptr`. -/
def startCursor (str sp : Option Nat) : Option Nat :=
  match str with
  | some p => some p
  | none => sp

/-- The stores the loop of `to_argv` performs for the token pointers `ps`,
the first of which is token number `k`. -/
def storeAll (max_argc : Nat) : Argv → Nat → List Nat → Argv
  | av, _, [] => av
  | av, k, p :: ps => storeAll max_argc (if k < max_argc then av.store k p else av) (k + 1) ps

/-- A character that is a digit of base `b` written with `'0'..'9'` or lowercase `'a'..'z'`. -/
def IsLowerDigit (b c : Nat) : Prop :=
  (48 ≤ c ∧ c ≤ 57 ∧ c - 48 < b) ∨ (97 ≤ c ∧ c ≤ 122 ∧ c - 87 < b)

instance (b c : Nat) : Decidable (IsLowerDigit b c) := by
  unfold IsLowerDigit; infer_instance

/-- Value of a digit character (`'0'..'9'` are 0..9, `'a'..'z'` are 10..35). -/
def digitValue (c : Nat) : Nat := if c ≤ 57 then c - 48 else c - 87

/-- Positional value in base `b` of a digit string, starting from accumulator `acc`. -/
def valueFrom (b : Nat) (acc : Nat) (s : List Nat) : Nat :=
  s.foldl (fun a c => a * b + digitValue c) acc

/-- Positional value in base `b` of a digit string. -/
def valueIn (b : Nat) (s : List Nat) : Nat := valueFrom b 0 s

/-- Big-endian bytes of a 32-bit value. -/
def be32 (v : Nat) : List Nat := [v / 2 ^ 24 % 256, v / 2 ^ 16 % 256, v / 2 ^ 8 % 256, v % 256]

/-- Number of padding bytes after `k` bytes, to reach a multiple of 4. -/
def pad4 (k : Nat) : Nat := (4 - k % 4) % 4

/-- A token of the structure block. -/
inductive Tok where
  | beginNode (name : List Nat)
  | endNode
  | prop (nameoff : Nat) (data : List Nat)
  | nop
deriving DecidableEq, Repr

/-- The bytes of a token in the structure block. -/
def Tok.encode : Tok → List Nat
  | Tok.beginNode name => be32 1 ++ name ++ 0 :: List.replicate (pad4 (name.length + 1)) 0
  | Tok.endNode => be32 2
  | Tok.prop nameoff data =>
    be32 3 ++ be32 data.length ++ be32 nameoff ++ data ++ List.replicate (pad4 data.length) 0
  | Tok.nop => be32 4

/-- The bytes of a sequence of tokens. -/
def encodeToks : List Tok → List Nat
  | [] => []
  | t :: ts => t.encode ++ encodeToks ts

/-- The bytes of a structure block: the tokens, then `FDT_END`. -/
def encodeStruct (toks : List Tok) : List Nat := encodeToks toks ++ be32 9

/-- The memory that holds the bytes `blob` from address `base` on and nothing else. -/
def blobMem (base : Nat) (blob : List Nat) : Mem :=
  fun a => if base ≤ a ∧ a < base + blob.length then some (blob.getD (a - base) 0) else none

/-- The memory `mem` with every address outside `keep` made unreadable. -/
def restrictMem (mem : Mem) (keep : Nat → Bool) : Mem :=
  fun a => if keep a then mem a else none

/-- The bytes `bytes` are readable in `mem` from address `a` on. -/
def Holds (mem : Mem) (a : Nat) (bytes : List Nat) : Prop :=
  ∀ i (h : i < bytes.length), mem (a + i) = some bytes[i]

instance (mem : Mem) (a : Nat) (bytes : List Nat) : Decidable (Holds mem a bytes) := by
  unfold Holds; infer_instance

/-- A string of non-NUL bytes. -/
def IsText (s : List Nat) : Prop := ∀ c ∈ s, 0 < c ∧ c < 256

instance (s : List Nat) : Decidable (IsText s) := by
  unfold IsText; infer_instance

/-- Whether a token is well formed: names are text, lengths and offsets are
32-bit values, data are bytes. -/
def Tok.Valid : Tok → Prop
  | Tok.beginNode name => IsText name
  | Tok.prop nameoff data => nameoff < 2 ^ 32 ∧ data.length < 2 ^ 32 ∧ ∀ c ∈ data, c < 256
  | _ => True

instance (t : Tok) : Decidable t.Valid := by
  cases t <;> unfold Tok.Valid <;> infer_instance

/-- The node in whose property section the walk is after a token, given the
one before it: a `BEGIN_NODE` opens the property section of its node, an
`END_NODE` leaves the position outside any property section. -/
def holderStep (h : Option (List Nat)) : Tok → Option (List Nat)
  | Tok.beginNode name => some name
  | Tok.endNode => none
  | Tok.prop _ _ => h
  | Tok.nop => h

/-- The node that directly holds a property placed right after `toks`. -/
def holder (h : Option (List Nat)) (toks : List Tok) : Option (List Nat) :=
  toks.foldl holderStep h

/-- Every `PROP` token lies in the property section of a node. -/
def propsHeld : Option (List Nat) → List Tok → Bool
  | _, [] => true
  | h, t :: ts =>
    (match t with
      | Tok.prop _ _ => h.isSome
      | _ => true) && propsHeld (holderStep h t) ts

/-- The name at offset `off` of the strings block `strs`, when it is terminated
inside the block. -/
def nameAt (strs : List Nat) (off : Nat) : Option (List Nat) :=
  if 0 ∈ strs.drop off then some ((strs.drop off).takeWhile (fun c => decide (c ≠ 0))) else none

/-- No property of the tokens is both directly held by a node named `"chosen"`
and named `"bootargs"`; the names of the properties of `"chosen"` nodes resolve
in the strings block. -/
def noEarlier (strs : List Nat) : Option (List Nat) → List Tok → Bool
  | _, [] => true
  | h, t :: ts =>
    (match t with
      | Tok.prop nameoff _ =>
        if h = some str_chosen then
          match nameAt strs nameoff with
          | some s => decide (s ≠ str_bootargs)
          | none => false
        else true
      | _ => true) && noEarlier strs (holderStep h t) ts

/-- Addresses of the structure block of declared length `size`. -/
def inStructBlock (dtb offStruct size : Nat) (a : Nat) : Bool :=
  decide (dtb + offStruct ≤ a ∧ a < dtb + offStruct + size)

/-- Addresses of the header fields `fdt_off_dt_struct` and `fdt_off_dt_strings`. -/
def inOffsetFields (dtb : Nat) (a : Nat) : Bool :=
  decide (dtb + 8 ≤ a ∧ a < dtb + 16)

/-- A sample header: magic, total size, the two block offsets, and the
declared size of the structure block at byte offset 36. -/
def sampleHeader (offStruct offStrings sizeStruct : Nat) : List Nat :=
  be32 0xd00dfeed ++ be32 0 ++ be32 offStruct ++ be32 offStrings ++ be32 0 ++ be32 17 ++ be32 16
    ++ be32 0 ++ be32 11 ++ be32 sizeStruct

/-- The strings block of the samples: `"bootargs"` at offset 0, `"x"` at offset 9. -/
def sampleStrings : List Nat := [98, 111, 111, 116, 97, 114, 103, 115, 0, 120, 0]

/-- A sample structure block without a `"chosen"` node: `/`, `/cpus` with one property. -/
def sampleToksPlain : List Tok :=
  [Tok.beginNode [], Tok.beginNode [99, 112, 117, 115], Tok.prop 9 [1, 2, 3], Tok.endNode,
   Tok.endNode]

/-- The blob of `sampleToksPlain`. -/
def sampleBlobPlain : List Nat :=
  sampleHeader 40 (40 + (encodeStruct sampleToksPlain).length) (encodeStruct sampleToksPlain).length
    ++ encodeStruct sampleToksPlain ++ sampleStrings

/-- The bytes of `"console=ttyS0"`. -/
def sampleValue : List Nat := [99, 111, 110, 115, 111, 108, 101, 61, 116, 116, 121, 83, 48]

/-- The tokens of the second sample before its `bootargs` property: `/`,
`/cpus` with one property, `/chosen` with a first property named `"x"`. -/
def sampleFront : List Tok :=
  [Tok.beginNode [], Tok.beginNode [99, 112, 117, 115], Tok.prop 9 [1, 2, 3], Tok.endNode,
   Tok.beginNode str_chosen, Tok.prop 9 [0, 0, 0, 1]]

/-- The blob of the second sample, whose `/chosen` node holds
`bootargs = "console=ttyS0"`. -/
def sampleBlobChosen : List Nat :=
  sampleHeader 40
      (40 + (encodeStruct (sampleFront
        ++ Tok.prop 0 (sampleValue ++ 0 :: []) :: [Tok.endNode, Tok.endNode])).length)
      (encodeStruct (sampleFront
        ++ Tok.prop 0 (sampleValue ++ 0 :: []) :: [Tok.endNode, Tok.endNode])).length
    ++ encodeStruct (sampleFront ++ Tok.prop 0 (sampleValue ++ 0 :: []) :: [Tok.endNode, Tok.endNode])
    ++ sampleStrings

/-! ## Specification vocabulary for the formatter -/

/-- The character of a hexadecimal digit `d < 16`, in lowercase. -/
def hexChar (d : Nat) : Nat := if d ≤ 9 then 48 + d else 97 + (d - 10)

/-- The `k` low hexadecimal digits of `v` as characters, most significant first. -/
def hexDigits (v : Nat) : Nat → List Nat
  | 0 => []
  | k + 1 => hexChar (v / 16 ^ k % 16) :: hexDigits v k

/-- A character in `'0'..'9'` or `'a'..'f'`. -/
def IsHexChar (c : Nat) : Prop := (48 ≤ c ∧ c ≤ 57) ∨ (97 ≤ c ∧ c ≤ 102)

instance (c : Nat) : Decidable (IsHexChar c) := by
  unfold IsHexChar; infer_instance

/-- The decimal representation of a natural number, as characters: its
digits without leading zeros, `"0"` for zero. -/
def decimalOf (n : Nat) : List Nat :=
  if n = 0 then [48] else (Nat.digits 10 n).reverse.map (fun d => 48 + d)

/-- The text `<BAD MARKER "`. -/
def str_bad_marker : List Nat := [60, 66, 65, 68, 32, 77, 65, 82, 75, 69, 82, 32, 34]

/-- The text `<MISSING MARKER>`. -/
def str_missing_marker : List Nat :=
  [60, 77, 73, 83, 83, 73, 78, 71, 32, 77, 65, 82, 75, 69, 82, 62]

/-- Whether every `%` of a format string is followed by its directive
character, so that the scan of the string ends between two items. -/
def directivesComplete : List Nat → Bool
  | [] => true
  | [c] => decide (c ≠ 37)
  | c :: m :: s => if c = 37 then directivesComplete s else directivesComplete (m :: s)

/-! ## `step-07/shell.c`, `step-07/commands.c`: dispatch and commands -/

/-- The type of a command function, `int (*func)(size_t, char **)`: it is given
`argc` and `argv` (the strings `argv[0]`, `argv[1]`, ...), writes to the UART
and returns its status. -/
abbrev CmdFunc := Nat → List (List Nat) → Uart → Except Err (Int × Uart)

/-- The C type `cmd_descr`; each field is a pointer, `none` when `NULL`. -/
structure cmd_descr where
  name : Option (List Nat)
  doc : Option (List Nat)
  func : Option CmdFunc

/-- A call of `uart1_printf` from a command: a `va_arg` without a matching
argument is undefined behaviour. -/
def printf_call (format : List Nat) (ap : List VArg) (u : Uart) : Except Err Uart :=
  match uart1_printf format ap u with
  | some u1 => Except.ok u1
  | none => Except.error Err.undef

/-- The format string `"Error: \"%s\" does not expect arguments.\n"`. -/
def fmt_no_arguments : List Nat :=
  [69, 114, 114, 111, 114, 58, 32, 34, 37, 115, 34, 32, 100, 111, 101, 115, 32, 110, 111, 116, 32,
   101, 120, 112, 101, 99, 116, 32, 97, 114, 103, 117, 109, 101, 110, 116, 115, 46, 10]

/-- The format string `"List of available commands:\n"`. -/
def fmt_list_header : List Nat :=
  [76, 105, 115, 116, 32, 111, 102, 32, 97, 118, 97, 105, 108, 97, 98, 108, 101, 32, 99, 111, 109,
   109, 97, 110, 100, 115, 58, 10]

/-- The format string `"- \"%s\": %s.\n"`. -/
def fmt_list_entry : List Nat := [45, 32, 34, 37, 115, 34, 58, 32, 37, 115, 46, 10]

/-- The loop `while(next_cmd->name)` of `help`, over the `name` and `doc`
columns of the table; reading past the end of the table, or printing a `NULL`
`doc`, is undefined behaviour. -/
def help_loop : List (Option (List Nat) × Option (List Nat)) → Uart → Except Err Uart
  | [], _ => Except.error Err.undef
  | (none, _) :: _, u => Except.ok u
  | (some name, some doc) :: next_cmd, u => do
    let u1 ← printf_call fmt_list_entry [VArg.str name, VArg.str doc] u
    help_loop next_cmd u1
  | (some _, none) :: _, _ => Except.error Err.undef

/-- The function `help(argc, argv)`, reading the `name` and `doc` columns of
the table `cmds`. -/
def help (table : List (Option (List Nat) × Option (List Nat))) : CmdFunc :=
  fun argc argv u =>
    if argc > 1 then
      match argv with
      | [] => Except.error Err.undef
      | argv0 :: _ => do
        let u1 ← printf_call fmt_no_arguments [VArg.str argv0] u
        pure (1, u1)
    else do
      let u1 ← printf_call fmt_list_header [] u
      let u2 ← help_loop table u1
      pure (0, u2)

/-- The format string `"%s\n"`. -/
def fmt_echo : List Nat := [37, 115, 10]

/-- The loop `for(size_t i = 1; i < argc; i++)` of `echo`. -/
def echo_loop (argc : Nat) (argv : List (List Nat)) : Nat → Nat → Uart → Except Err Uart
  | 0, _, _ => Except.error Err.fuel
  | fuel + 1, i, u =>
    if i < argc then
      match argv.get? i with
      | none => Except.error Err.undef
      | some a => do
        let u1 ← printf_call fmt_echo [VArg.str a] u
        echo_loop argc argv fuel ((i + 1) % 2 ^ 64) u1
    else Except.ok u

/-- The function `echo(argc, argv)`. -/
def echo : CmdFunc :=
  fun argc argv u => do
    let u1 ← echo_loop argc argv (argc + 1) 1 u
    pure (0, u1)

/-- The format string `"Error: \"s\" expects two integer arguments.\n"`. -/
def fmt_hexdump_usage : List Nat :=
  [69, 114, 114, 111, 114, 58, 32, 34, 115, 34, 32, 101, 120, 112, 101, 99, 116, 115, 32, 116,
   119, 111, 32, 105, 110, 116, 101, 103, 101, 114, 32, 97, 114, 103, 117, 109, 101, 110, 116,
   115, 46, 10]

/-- The format string `"Error: ARG1 should be a decimal or hex address.\n"`. -/
def fmt_hexdump_arg1 : List Nat :=
  [69, 114, 114, 111, 114, 58, 32, 65, 82, 71, 49, 32, 115, 104, 111, 117, 108, 100, 32, 98, 101,
   32, 97, 32, 100, 101, 99, 105, 109, 97, 108, 32, 111, 114, 32, 104, 101, 120, 32, 97, 100, 100,
   114, 101, 115, 115, 46, 10]

/-- The format string `"Error: ARG2 should be a base 10 size.\n"`. -/
def fmt_hexdump_arg2 : List Nat :=
  [69, 114, 114, 111, 114, 58, 32, 65, 82, 71, 50, 32, 115, 104, 111, 117, 108, 100, 32, 98, 101,
   32, 97, 32, 98, 97, 115, 101, 32, 49, 48, 32, 115, 105, 122, 101, 46, 10]

/-- The loop `for(col = 0; col < 16; col += 2)` of `hexdump`: the hex area of
one row. -/
def hexdump_pairs (mem : Mem) (addr size line : Nat) : Nat → Nat → Uart → Except Err Uart
  | 0, _, _ => Except.error Err.fuel
  | fuel + 1, col, u =>
    if col < 16 then do
      let b := (addr + (line * 16) % 2 ^ 64 + col) % 2 ^ 64
      let u1 ←
        if ((line * 16) % 2 ^ 64 + col) % 2 ^ 64 < size then do
          let b0 ← load mem b
          let b1 ← load mem (padd b 1)
          printf_call [37, 98, 37, 98, 32] [VArg.num b0, VArg.num b1] u
        else printf_call [32, 32, 32, 32, 32] [] u
      hexdump_pairs mem addr size line fuel ((col + 2) % 2 ^ 64) u1
    else Except.ok u

/-- The loop `for(col = 0; col < 16; col++)` of `hexdump`, which leaves at the
`break`: the ASCII gutter of one row. -/
def hexdump_gutter (mem : Mem) (addr size line : Nat) : Nat → Nat → Uart → Except Err Uart
  | 0, _, _ => Except.error Err.fuel
  | fuel + 1, col, u =>
    if col < 16 then
      if ((line * 16) % 2 ^ 64 + col) % 2 ^ 64 ≥ size then Except.ok u
      else do
        let b := (addr + (line * 16) % 2 ^ 64 + col) % 2 ^ 64
        let c ← load mem b
        let c1 := if c < 32 ∨ c > 126 then 46 else c
        let u1 ← printf_call [37, 99] [VArg.num c1] u
        hexdump_gutter mem addr size line fuel ((col + 1) % 2 ^ 64) u1
    else Except.ok u

/-- The loop `for(line = 0; line < nb_lines; line++)` of `hexdump`. -/
def hexdump_lines (mem : Mem) (addr size nb_lines : Nat) : Nat → Nat → Uart → Except Err Uart
  | 0, _, _ => Except.error Err.fuel
  | fuel + 1, line, u =>
    if line < nb_lines then do
      let u1 ← printf_call [37, 119, 58, 32] [VArg.num ((addr + (line * 16) % 2 ^ 64) % 2 ^ 64)] u
      let u2 ← hexdump_pairs mem addr size line 9 0 u1
      let u3 ← printf_call [32] [] u2
      let u4 ← hexdump_gutter mem addr size line 17 0 u3
      let u5 ← printf_call [10] [] u4
      hexdump_lines mem addr size nb_lines fuel ((line + 1) % 2 ^ 64) u5
    else Except.ok u

/-- A call of `strtou64` from a command. -/
def strtou64_call (nptr : List Nat) (base : Int) : Except Err ParseResult :=
  match strtou64 nptr base with
  | some r => Except.ok r
  | none => Except.error Err.fuel

/-- The part of `hexdump` after the arguments are parsed (from
`u64 nb_lines = ...` to `return 0`). -/
def hexdump_output (mem : Mem) (addr size : Nat) (u : Uart) : Except Err (Int × Uart) := do
  let nb_lines := (size / 16 + (if size % 16 ≠ 0 then 1 else 0)) % 2 ^ 64
  let u1 ← hexdump_lines mem addr size nb_lines (nb_lines + 1) 0 u
  pure (0, u1)

/-- The function `hexdump(argc, argv)`, reading the memory `mem`. -/
def hexdump (mem : Mem) : CmdFunc :=
  fun argc argv u =>
    if argc ≠ 3 then
      match argv with
      | [] => Except.error Err.undef
      | argv0 :: _ => do
        let u1 ← printf_call fmt_hexdump_usage [VArg.str argv0] u
        pure (1, u1)
    else
      match argv with
      | _ :: argv1 :: argv2 :: _ => do
        let r1 ←
          if charAt argv1 0 = 48 ∧ charAt argv1 1 = 120 then strtou64_call (argv1.drop 2) 16
          else strtou64_call argv1 10
        let addr := r1.value
        if r1.endptr ≠ none then do
          let u1 ← printf_call fmt_hexdump_arg1 [] u
          pure (1, u1)
        else do
          let r2 ← strtou64_call argv2 10
          let size := r2.value
          if r2.endptr ≠ none then do
            let u1 ← printf_call fmt_hexdump_arg2 [] u
            pure (1, u1)
          else hexdump_output mem addr size u
      | _ => Except.error Err.undef

/-- The `name` and `doc` columns of the table `cmds` of step 07. -/
def cmds_listing : List (Option (List Nat) × Option (List Nat)) :=
  [(some [104, 101, 108, 112],
      some [108, 105, 115, 116, 32, 116, 104, 101, 32, 97, 118, 97, 105, 108, 97, 98, 108, 101,
        32, 99, 111, 109, 109, 97, 110, 100, 115]),
   (some [101, 99, 104, 111],
      some [112, 114, 105, 110, 116, 32, 101, 97, 99, 104, 32, 111, 102, 32, 105, 116, 115, 32,
        97, 114, 103, 117, 109, 101, 110, 116, 115]),
   (some [104, 101, 120, 100, 117, 109, 112],
      some [100, 117, 109, 112, 32, 109, 101, 109, 111, 114, 121, 32, 115, 116, 97, 114, 116,
        105, 110, 103, 32, 97, 116, 32, 65, 82, 71, 49, 32, 102, 111, 114, 32, 65, 82, 71, 50, 32,
        98, 121, 116, 101, 115]),
   (none, none)]

/-- The table `cmds` of step 07: `help`, `echo`, `hexdump` and the terminator. -/
def cmds (mem : Mem) : List cmd_descr :=
  List.zipWith (fun (p : Option (List Nat) × Option (List Nat)) f => ⟨p.1, p.2, f⟩) cmds_listing
    [some (help cmds_listing), some echo, some (hexdump mem), none]

/-- The lookup loop `while(d->name != NULL)` of `shell_main`: the descriptor
`d` points to when the loop is left. Running past the end of the table is
undefined behaviour. -/
def find_cmd (argv0 : List Nat) : List cmd_descr → Except Err cmd_descr
  | [] => Except.error Err.undef
  | d :: next =>
    match d.name with
    | none => Except.ok d
    | some name => do
      let r ← strcmp (litString argv0) (litString name) (argv0.length + 1)
      if r = 0 then Except.ok d else find_cmd argv0 next

/-- The format string `"Error: unknown command \"%s\".\n"`. -/
def fmt_unknown : List Nat :=
  [69, 114, 114, 111, 114, 58, 32, 117, 110, 107, 110, 111, 119, 110, 32, 99, 111, 109, 109, 97,
   110, 100, 32, 34, 37, 115, 34, 46, 10]

/-- The format string `"Use command \"help\" to get a list of commands.\n"`. -/
def fmt_use_help : List Nat :=
  [85, 115, 101, 32, 99, 111, 109, 109, 97, 110, 100, 32, 34, 104, 101, 108, 112, 34, 32, 116,
   111, 32, 103, 101, 116, 32, 97, 32, 108, 105, 115, 116, 32, 111, 102, 32, 99, 111, 109, 109,
   97, 110, 100, 115, 46, 10]

/-- The format string `"**Command exited with status %i.**\n"`. -/
def fmt_status : List Nat :=
  [42, 42, 67, 111, 109, 109, 97, 110, 100, 32, 101, 120, 105, 116, 101, 100, 32, 119, 105, 116,
   104, 32, 115, 116, 97, 116, 117, 115, 32, 37, 105, 46, 42, 42, 10]

/-- The end of an iteration of `shell_main`, after the command returned `res`. -/
def report_status (res : Int) (u : Uart) : Except Err Uart :=
  if res ≠ 0 then printf_call fmt_status [VArg.num (res % 2 ^ 32).toNat] u
  else Except.ok u

/-- The lookup and dispatch part of an iteration of `shell_main` (from
`cmd_descr *d = cmds` to the end of the loop body), for the table `table`; the
result is the state in which the next iteration starts. -/
def shell_dispatch (table : List cmd_descr) (argc : Nat) (argv : List (List Nat)) (u : Uart) :
    Except Err Uart :=
  match argv with
  | [] => Except.error Err.undef
  | argv0 :: _ => do
    let d ← find_cmd argv0 table
    match d.name with
    | none => do
      let u1 ← printf_call fmt_unknown [VArg.str argv0] u
      printf_call fmt_use_help [] u1
    | some _ =>
      match d.func with
      | none => Except.error Err.undef
      | some func => do
        let r ← func argc argv u
        report_status r.1 r.2

/-! ## Specification vocabulary for the shell commands -/

/-- The lines `help` prints for the entries of a table: `- "name": doc.` each. -/
def helpLines : List (List Nat × List Nat) → List Nat
  | [] => []
  | p :: ps => [45, 32, 34] ++ crlf p.1 ++ [34, 58, 32] ++ crlf p.2 ++ [46, 13, 10] ++ helpLines ps

/-- The bytes sent for `"Error: \"<argv0>\" does not expect arguments.\n"`. -/
def msgNoArguments (argv0 : List Nat) : List Nat :=
  [69, 114, 114, 111, 114, 58, 32, 34] ++ crlf argv0
    ++ [34, 32, 100, 111, 101, 115, 32, 110, 111, 116, 32, 101, 120, 112, 101, 99, 116, 32, 97,
      114, 103, 117, 109, 101, 110, 116, 115, 46, 13, 10]

/-- The bytes sent for `"List of available commands:\n"`. -/
def msgListHeader : List Nat :=
  [76, 105, 115, 116, 32, 111, 102, 32, 97, 118, 97, 105, 108, 97, 98, 108, 101, 32, 99, 111, 109,
   109, 97, 110, 100, 115, 58, 13, 10]

/-- The bytes sent for the two lines of the unknown-command message. -/
def msgUnknown (argv0 : List Nat) : List Nat :=
  [69, 114, 114, 111, 114, 58, 32, 117, 110, 107, 110, 111, 119, 110, 32, 99, 111, 109, 109, 97,
   110, 100, 32, 34] ++ crlf argv0 ++ [34, 46, 13, 10]
    ++ [85, 115, 101, 32, 99, 111, 109, 109, 97, 110, 100, 32, 34, 104, 101, 108, 112, 34, 32,
      116, 111, 32, 103, 101, 116, 32, 97, 32, 108, 105, 115, 116, 32, 111, 102, 32, 99, 111, 109,
      109, 97, 110, 100, 115, 46, 13, 10]

/-! ## Specification vocabulary for the cursor of the device-tree walk -/

/-- The least multiple of 4 that is at least `x`. -/
def roundup4 (x : Nat) : Nat := (x + 3) / 4 * 4

/-- A sample structure block with a `NOP` token before the `/chosen` node. -/
def sampleToksNop : List Tok :=
  [Tok.beginNode [], Tok.nop, Tok.beginNode str_chosen, Tok.prop 0 (sampleValue ++ 0 :: []),
   Tok.endNode, Tok.endNode]

/-- A sample structure block whose `/chosen` node holds `bootargs = "a\nb"`. -/
def sampleToksNewline : List Tok :=
  [Tok.beginNode [], Tok.beginNode str_chosen, Tok.prop 0 ([97, 10, 98] ++ 0 :: []),
   Tok.endNode, Tok.endNode]

/-- The blob whose structure block is the encoding of `toks`. -/
def sampleBlobOf (toks : List Tok) : List Nat :=
  sampleHeader 40 (40 + (encodeStruct toks).length) (encodeStruct toks).length
    ++ encodeStruct toks ++ sampleStrings

/-! ## Specification vocabulary for the memory dump -/

/-- The character shown in the ASCII gutter of `hexdump` for the byte `c`. -/
def gutterChar (c : Nat) : Nat := if c < 32 ∨ c > 126 then 46 else c

/-- The ASCII gutter of row `k` of a dump of `size` bytes from `addr`, over
the memory contents `byteAt`. -/
def gutterOf (byteAt : Nat → Nat) (addr size k : Nat) : List Nat :=
  (List.range (min 16 (size - k * 16))).map
    (fun j => gutterChar (byteAt ((addr + k * 16 + j) % 2 ^ 64)))

/-- The group in columns `2 * i` and `2 * i + 1` of the hex area of row `k`, as
the source prints it: both bytes when the first is below `size`. -/
def hexGroupOf (byteAt : Nat → Nat) (addr size k i : Nat) : List Nat :=
  if k * 16 + 2 * i < size then
    hexDigits (byteAt ((addr + k * 16 + 2 * i) % 2 ^ 64)) 2
      ++ hexDigits (byteAt ((addr + k * 16 + 2 * i + 1) % 2 ^ 64)) 2 ++ [32]
  else [32, 32, 32, 32, 32]

/-- Row `k` of a dump: the address, `": "`, the eight groups of the hex area, a
space, the gutter, and the line end. -/
def dumpRow (byteAt : Nat → Nat) (addr size k : Nat) : List Nat :=
  hexDigits ((addr + k * 16) % 2 ^ 64) 16 ++ [58, 32]
    ++ (List.range 8).flatMap (hexGroupOf byteAt addr size k) ++ [32]
    ++ gutterOf byteAt addr size k ++ [13, 10]

/-- The pieces `f k`, `f (k + 1)`, ... (`n` of them), one after the other. -/
def concatFrom (f : Nat → List Nat) : Nat → Nat → List Nat
  | 0, _ => []
  | n + 1, k => f k ++ concatFrom f n (k + 1)

/-! ## `step-07/shell.c`: an iteration of `shell_main` -/

/-- The constant `CMD_BUF_SIZE` of `kernel/shell.h`. -/
def CMD_BUF_SIZE : Nat := 80

/-- The constant `ARGV_SIZE` of `kernel/shell.h`. -/
def ARGV_SIZE : Nat := 10

/-- The string `PROMPT` of `kernel/shell.h`, `"> "`. -/
def PROMPT : List Nat := [62, 32]

/-- The format string `"Error: command line formed of %i characters.\n"`. -/
def fmt_too_long : List Nat :=
  [69, 114, 114, 111, 114, 58, 32, 99, 111, 109, 109, 97, 110, 100, 32, 108, 105, 110, 101, 32,
   102, 111, 114, 109, 101, 100, 32, 111, 102, 32, 37, 105, 32, 99, 104, 97, 114, 97, 99, 116,
   101, 114, 115, 46, 10]

/-- The format string `"You cannot use more than %i.\n"`. -/
def fmt_limit : List Nat :=
  [89, 111, 117, 32, 99, 97, 110, 110, 111, 116, 32, 117, 115, 101, 32, 109, 111, 114, 101, 32,
   116, 104, 97, 110, 32, 37, 105, 46, 10]

/-- The format string `"Error: command formed of %i tokens.\n"`. -/
def fmt_too_many : List Nat :=
  [69, 114, 114, 111, 114, 58, 32, 99, 111, 109, 109, 97, 110, 100, 32, 102, 111, 114, 109, 101,
   100, 32, 111, 102, 32, 37, 105, 32, 116, 111, 107, 101, 110, 115, 46, 10]

/-- The loop `do { len = uart1_getline(cmd, CMD_BUF_SIZE); total += len; }
while(cmd[len - 1] != '\n')` of `shell_main`; the result is `total`, the buffer
and the UART. Reading `cmd[len - 1]` with `len = 0` is out of bounds. -/
def shell_overlong_loop : Nat → (Nat → Nat) → Nat → Uart → Except Err (Nat × (Nat → Nat) × Uart)
  | 0, _, _, _ => Except.error Err.fuel
  | fuel + 1, cmd, total, u =>
    match uart1_getline u cmd CMD_BUF_SIZE with
    | none => Except.error Err.fuel
    | some (len, b, u1) =>
      if len = 0 then Except.error Err.undef
      else if b.mem (len - 1) ≠ 10 then shell_overlong_loop fuel b.mem ((total + len) % 2 ^ 64) u1
      else Except.ok ((total + len) % 2 ^ 64, b.mem, u1)

/-- The part of an iteration of `shell_main` after the length check: `to_argv`
on the 80 bytes of `cmd`, the checks of `argc`, and the dispatch over `table`.
The array `argv` is uninitialised at entry; `strtok` is first called with
`cmd`, so the value of `saveptr` at entry is not read. -/
def shell_run_line (table : List cmd_descr) (cmd argv : Nat → Nat) (u : Uart) : Except Err Uart :=
  match to_argv ⟨(List.range CMD_BUF_SIZE).map cmd, none⟩ argv ARGV_SIZE with
  | none => Except.error Err.fuel
  | some (argc, av, st) =>
    if argc = 0 then Except.ok u
    else if argc > ARGV_SIZE then do
      let u1 ← printf_call fmt_too_many [VArg.num argc] u
      printf_call fmt_limit [VArg.num ARGV_SIZE] u1
    else
      shell_dispatch table argc ((List.range argc).map (fun i => cstr st.mem (av.slot i))) u

/-- The statements of an iteration of `shell_main` that follow the first
`uart1_getline`, whose result is the argument. -/
def shell_after_getline (table : List cmd_descr) (fuel : Nat) (argv : Nat → Nat) :
    Option (Nat × LineBuf × Uart) → Except Err Uart
  | none => Except.error Err.fuel
  | some (len, b, u2) =>
    if len = 0 then Except.error Err.undef
    else if b.mem (len - 1) ≠ 10 then do
      let r ← shell_overlong_loop fuel b.mem len u2
      let u3 ← printf_call fmt_too_long [VArg.num ((r.1 + 2 ^ 64 - 1) % 2 ^ 64)] r.2.2
      printf_call fmt_limit [VArg.num (CMD_BUF_SIZE - 2)] u3
    else shell_run_line table b.mem argv u2

/-- One iteration of the `while(1)` loop of `shell_main` over the command table
`table`; `cmd` and `argv` are the contents of the two arrays at entry, `fuel`
bounds the number of chunks read for an overlong line. The result is the state
in which the next iteration starts. -/
def shell_iteration (table : List cmd_descr) (fuel : Nat) (cmd argv : Nat → Nat) (u : Uart) :
    Except Err Uart := do
  let u1 ← printf_call PROMPT [] u
  shell_after_getline table fuel argv (uart1_getline u1 cmd CMD_BUF_SIZE)

/-! ## Specification vocabulary for the shell loop -/

/-- The decimal text of an integer, with a `'-'` when it is negative. -/
def intText (i : Int) : List Nat := (if i < 0 then [45] else []) ++ decimalOf i.natAbs

/-- The bytes sent for the two lines of the overlong-line message, `count`
being the text of the number of characters. -/
def msgTooLong (count : List Nat) : List Nat :=
  [69, 114, 114, 111, 114, 58, 32, 99, 111, 109, 109, 97, 110, 100, 32, 108, 105, 110, 101, 32,
   102, 111, 114, 109, 101, 100, 32, 111, 102, 32] ++ count
    ++ [32, 99, 104, 97, 114, 97, 99, 116, 101, 114, 115, 46, 13, 10]
    ++ [89, 111, 117, 32, 99, 97, 110, 110, 111, 116, 32, 117, 115, 101, 32, 109, 111, 114, 101,
      32, 116, 104, 97, 110, 32, 55, 56, 46, 13, 10]

/-- The bytes `uart1_getc` hands over (and echoes) for the `n` values received
from position `pos` on. -/
def received (rx : Nat → Nat) (pos n : Nat) : List Nat :=
  (List.range n).map (fun i => foldCR (rx (pos + i)))

/-! ## Lemmas: loads, alignment and strings in memory -/

theorem holds_append_left {mem : Mem} {a : Nat} {A B : List Nat} (h : Holds mem a (A ++ B)) :
    Holds mem a A := by
  intro i hi
  have := h i (by simp only [List.length_append]; omega)
  rw [this, List.getElem_append_left]

theorem holds_append_right {mem : Mem} {a : Nat} {A B : List Nat} (h : Holds mem a (A ++ B)) :
    Holds mem (a + A.length) B := by
  intro i hi
  have := h (A.length + i) (by simp only [List.length_append]; omega)
  rw [Nat.add_assoc, this, List.getElem_append_right (by omega)]
  simp

theorem holds_load {mem : Mem} {p : Nat} {L : List Nat} (h : Holds mem p L) (i : Nat)
    (hi : i < L.length) (hb : L[i] < 256) (hw : p + i < 2 ^ 64) :
    load mem (padd p i) = Except.ok L[i] := by
  unfold load padd
  rw [Nat.mod_eq_of_lt hw, h i hi]
  simp only [Nat.mod_eq_of_lt hb]

theorem holds_load_zero {mem : Mem} {p : Nat} {L : List Nat} (h : Holds mem p L)
    (hi : 0 < L.length) (hb : L[0] < 256) :
    load mem p = Except.ok L[0] := by
  unfold load
  have := h 0 hi
  rw [Nat.add_zero] at this
  rw [this]
  simp only [Nat.mod_eq_of_lt hb]

theorem be32_value (v : Nat) (hv : v < 2 ^ 32) :
    ((v / 2 ^ 24 % 256) <<< 24 + (v / 2 ^ 16 % 256) <<< 16 + (v / 2 ^ 8 % 256) <<< 8 + v % 256)
      % 2 ^ 32 = v := by
  simp only [Nat.shiftLeft_eq]
  norm_num at hv ⊢
  omega

theorem read_be_holds {mem : Mem} {p v : Nat} {rest : List Nat}
    (h : Holds mem p (be32 v ++ rest)) (hv : v < 2 ^ 32) (hw : p + 3 < 2 ^ 64) :
    read_be mem p = Except.ok v := by
  have hh := holds_append_left h
  have b0 : v / 2 ^ 24 % 256 < 256 := Nat.mod_lt _ (by norm_num)
  have b1 : v / 2 ^ 16 % 256 < 256 := Nat.mod_lt _ (by norm_num)
  have b2 : v / 2 ^ 8 % 256 < 256 := Nat.mod_lt _ (by norm_num)
  have b3 : v % 256 < 256 := Nat.mod_lt _ (by norm_num)
  have l0 : load mem p = Except.ok (v / 2 ^ 24 % 256) :=
    holds_load_zero hh (by simp [be32]) b0
  have l1 : load mem (padd p 1) = Except.ok (v / 2 ^ 16 % 256) :=
    holds_load hh 1 (by simp [be32]) b1 (by omega)
  have l2 : load mem (padd p 2) = Except.ok (v / 2 ^ 8 % 256) :=
    holds_load hh 2 (by simp [be32]) b2 (by omega)
  have l3 : load mem (padd p 3) = Except.ok (v % 256) :=
    holds_load hh 3 (by simp [be32]) b3 (by omega)
  simp only [read_be, l0, l1, l2, l3, bind, Except.bind, pure, Except.pure]
  rw [be32_value v hv]

theorem FDT_ALIGN_eq (x : Nat) (hx : x + 3 < 2 ^ 64) : FDT_ALIGN x = (x + 3) / 4 * 4 := by
  unfold FDT_ALIGN
  rw [Nat.mod_eq_of_lt hx]
  apply Nat.eq_of_testBit_eq
  intro i
  have e1 : (2 : Nat) ^ 64 - 4 = (2 ^ 62 - 1) <<< 2 := by norm_num [Nat.shiftLeft_eq]
  have e2 : (x + 3) / 4 * 4 = ((x + 3) >>> 2) <<< 2 := by
    simp [Nat.shiftLeft_eq, Nat.shiftRight_eq_div_pow]
  rw [e1, e2, Nat.testBit_and, Nat.testBit_shiftLeft, Nat.testBit_shiftLeft,
    Nat.testBit_two_pow_sub_one, Nat.testBit_shiftRight]
  by_cases h2 : i ≥ 2
  · have e3 : 2 + (i - 2) = i := by omega
    simp only [h2, decide_True, Bool.true_and, e3]
    by_cases h64 : i < 64
    · have : i - 2 < 62 := by omega
      simp [this]
    · have hlt : x + 3 < 2 ^ i :=
        lt_of_lt_of_le hx (Nat.pow_le_pow_right (by norm_num) (by omega))
      simp [Nat.testBit_lt_two_pow hlt]
  · simp [h2]

theorem FDT_ALIGN_pad (p k : Nat) (hp : p % 4 = 0) (hx : p + k + 3 < 2 ^ 64) :
    FDT_ALIGN (p + k) = p + k + pad4 k := by
  rw [FDT_ALIGN_eq _ hx]
  unfold pad4
  omega

theorem uart1_puts_text (s : List Nat) (hs : ∀ c ∈ s, c ≠ 0) : ∀ u : Uart,
    uart1_puts s u = ⟨u.rx, u.pos, u.tx ++ crlf s⟩ := by
  induction s with
  | nil => intro u; simp [uart1_puts, crlf]
  | cons c cs ih =>
    intro u
    have hc : c ≠ 0 := hs c (by simp)
    rw [uart1_puts, ih (fun x hx => hs x (by simp [hx]))]
    by_cases h10 : c = 10
    · simp [h10, uart1_putc, crlf]
    · simp [hc, h10, uart1_putc, crlf]

theorem uart1_printf_cmdline (v : List Nat) (hv : ∀ c ∈ v, c ≠ 0) (u : Uart) :
    uart1_printf fmt_cmdline [VArg.str v] u
      = some ⟨u.rx, u.pos, u.tx ++ [99, 109, 100, 108, 105, 110, 101, 32, 61, 32, 39]
          ++ crlf v ++ [39, 13, 10]⟩ := by
  simp [fmt_cmdline, uart1_printf, uart1_putc, uart1_puts_text v hv]

theorem holds_cons_tail {mem : Mem} {a c : Nat} {cs : List Nat} (h : Holds mem a (c :: cs)) :
    Holds mem (a + 1) cs := by
  have := holds_append_right (A := [c]) (B := cs) (by simpa using h)
  simpa using this

theorem holds_head {mem : Mem} {a c : Nat} {cs : List Nat} (h : Holds mem a (c :: cs))
    (hc : c < 256) : load mem a = Except.ok c :=
  holds_load_zero h (by simp) (by simpa using hc)

theorem padd_eq (p k : Nat) (h : p + k < 2 ^ 64) : padd p k = p + k :=
  Nat.mod_eq_of_lt h

theorem skip_name_holds {mem : Mem} (name rest : List Nat) (ht : IsText name) :
    ∀ (ps n : Nat), Holds mem ps (name ++ 0 :: rest) → ps + name.length < 2 ^ 64 →
      name.length < n → skip_name mem n ps = Except.ok (ps + name.length) := by
  induction name with
  | nil =>
    intro ps n h _ hn
    obtain ⟨m, rfl⟩ : ∃ m, n = m + 1 := ⟨n - 1, by simp at hn; omega⟩
    have := holds_head (by simpa using h : Holds mem ps (0 :: rest)) (by norm_num)
    simp [skip_name, this, bind, Except.bind, pure, Except.pure]
  | cons c cs ih =>
    intro ps n h hw hn
    simp only [List.length_cons] at hw hn
    obtain ⟨m, rfl⟩ : ∃ m, n = m + 1 := ⟨n - 1, by omega⟩
    have hc := ht c (by simp)
    have h1 := holds_head (by simpa using h : Holds mem ps (c :: (cs ++ 0 :: rest))) hc.2
    have h2 := holds_cons_tail (by simpa using h : Holds mem ps (c :: (cs ++ 0 :: rest)))
    have hc0 : c ≠ 0 := by omega
    have := ih (fun x hx => ht x (by simp [hx])) (ps + 1) m h2 (by omega) (by omega)
    simp only [skip_name, h1, bind, Except.bind, hc0, ne_eq, not_false_eq_true, if_true,
      padd_eq ps 1 (by omega), this, List.length_cons]
    congr 1
    omega

theorem read_cstr_holds {mem : Mem} (name rest : List Nat) (ht : IsText name) :
    ∀ (ps n : Nat), Holds mem ps (name ++ 0 :: rest) → ps + name.length < 2 ^ 64 →
      name.length < n → read_cstr mem n ps = Except.ok name := by
  induction name with
  | nil =>
    intro ps n h _ hn
    obtain ⟨m, rfl⟩ : ∃ m, n = m + 1 := ⟨n - 1, by simp at hn; omega⟩
    have := holds_head (by simpa using h : Holds mem ps (0 :: rest)) (by norm_num)
    simp [read_cstr, this, bind, Except.bind, pure, Except.pure]
  | cons c cs ih =>
    intro ps n h hw hn
    simp only [List.length_cons] at hw hn
    obtain ⟨m, rfl⟩ : ∃ m, n = m + 1 := ⟨n - 1, by omega⟩
    have hc := ht c (by simp)
    have h1 := holds_head (by simpa using h : Holds mem ps (c :: (cs ++ 0 :: rest))) hc.2
    have h2 := holds_cons_tail (by simpa using h : Holds mem ps (c :: (cs ++ 0 :: rest)))
    have hc0 : c ≠ 0 := by omega
    have := ih (fun x hx => ht x (by simp [hx])) (ps + 1) m h2 (by omega) (by omega)
    simp only [read_cstr, h1, bind, Except.bind, hc0, ne_eq, not_false_eq_true, if_true,
      padd_eq ps 1 (by omega), this, pure, Except.pure]

theorem strcmp_loop_spec (s1 s2 : Nat → Except Err Nat) (a : List Nat) :
    ∀ (b : List Nat) (i n : Nat), (∀ c ∈ a, c ≠ 0) → (∀ c ∈ b, c ≠ 0) →
      (∀ j, j ≤ a.length → s1 (i + j) = Except.ok (a.getD j 0)) →
      (∀ j, j ≤ b.length → s2 (i + j) = Except.ok (b.getD j 0)) →
      min a.length b.length < n →
      ∃ r, strcmp_loop s1 s2 n i = Except.ok r ∧ (r = 0 ↔ a = b) := by
  induction a with
  | nil =>
    intro b i n _ hb h1 h2 hn
    obtain ⟨m, rfl⟩ : ∃ m, n = m + 1 := ⟨n - 1, by omega⟩
    have e1 := h1 0 (by simp)
    have e2 := h2 0 (by simp)
    simp only [Nat.add_zero, List.getD_nil] at e1 e2
    cases b with
    | nil =>
      refine ⟨0, ?_, by simp⟩
      simp at e2
      simp [strcmp_loop, e1, e2, bind, Except.bind, pure, Except.pure]
    | cons y ys =>
      have hy : y ≠ 0 := hb y (by simp)
      refine ⟨-1, ?_, by simp⟩
      simp at e2
      simp [strcmp_loop, e1, e2, bind, Except.bind, pure, Except.pure, hy, Ne.symm hy]
  | cons x xs ih =>
    intro b i n ha hb h1 h2 hn
    obtain ⟨m, rfl⟩ : ∃ m, n = m + 1 := ⟨n - 1, by omega⟩
    have hx : x ≠ 0 := ha x (by simp)
    have e1 := h1 0 (by simp)
    have e2 := h2 0 (by simp)
    simp only [Nat.add_zero] at e1 e2
    simp at e1
    cases b with
    | nil =>
      refine ⟨1, ?_, by simp⟩
      simp at e2
      simp [strcmp_loop, e1, e2, bind, Except.bind, pure, Except.pure, hx]
    | cons y ys =>
      have hy : y ≠ 0 := hb y (by simp)
      simp at e2
      by_cases hxy : x = y
      · subst hxy
        obtain ⟨r, hr, hiff⟩ := ih ys (i + 1) m (fun c hc => ha c (by simp [hc]))
          (fun c hc => hb c (by simp [hc]))
          (fun j hj => by
            have := h1 (j + 1) (by simp; omega)
            simpa [Nat.add_assoc, Nat.add_comm 1 j] using this)
          (fun j hj => by
            have := h2 (j + 1) (by simp; omega)
            simpa [Nat.add_assoc, Nat.add_comm 1 j] using this)
          (by simp at hn; omega)
        refine ⟨r, ?_, by simpa using hiff⟩
        simp [strcmp_loop, e1, e2, bind, Except.bind, hx, hr]
      · refine ⟨(y : Int) - (x : Int), ?_, ?_⟩
        · have hne : (y : Int) - (x : Int) ≠ 0 := by omega
          simp [strcmp_loop, e1, e2, bind, Except.bind, pure, Except.pure, hx, hy, hne]
        · constructor
          · intro h; omega
          · intro h; simp at h; exact absurd h.1 hxy

theorem memString_holds {mem : Mem} {q : Nat} {nm rest : List Nat}
    (h : Holds mem q (nm ++ 0 :: rest)) (ht : IsText nm) (hw : q + nm.length < 2 ^ 64) :
    ∀ j, j ≤ nm.length → memString mem q (0 + j) = Except.ok (nm.getD j 0) := by
  intro j hj
  rw [Nat.zero_add]
  unfold memString
  have hlen : j < (nm ++ 0 :: rest).length := by simp; omega
  by_cases hlt : j < nm.length
  · have e : (nm ++ 0 :: rest)[j] = nm[j] := List.getElem_append_left hlt
    have hb : (nm ++ 0 :: rest)[j] < 256 := by
      rw [e]; exact (ht _ (List.getElem_mem _)).2
    rw [holds_load h j hlen hb (by omega), e]
    simp [List.getD_eq_getElem?_getD, hlt]
  · have hj2 : j = nm.length := by omega
    subst hj2
    have e : (nm ++ 0 :: rest)[nm.length] = 0 := by
      rw [List.getElem_append_right (Nat.le_refl _)]
      simp
    have hb : (nm ++ 0 :: rest)[nm.length] < 256 := by
      rw [e]
      exact Nat.zero_lt_succ _
    rw [holds_load h nm.length hlen hb hw, e]
    simp [List.getD_eq_getElem?_getD]

/-- Comparing a string in memory with a literal. -/
theorem strcmp_mem_lit {mem : Mem} {q : Nat} {nm rest : List Nat} (lit : List Nat)
    (h : Holds mem q (nm ++ 0 :: rest)) (ht : IsText nm) (hw : q + nm.length < 2 ^ 64)
    (hl : ∀ c ∈ lit, c ≠ 0) (n : Nat) (hn : lit.length < n) :
    ∃ r, strcmp (memString mem q) (litString lit) n = Except.ok r ∧ (r = 0 ↔ nm = lit) :=
  strcmp_loop_spec (memString mem q) (litString lit) nm lit 0 n
    (fun c hc => by have := ht c hc; omega) hl (memString_holds h ht hw)
    (fun j _ => by simp [litString]) (by omega)

theorem encode_beginNode_length (name : List Nat) :
    (Tok.encode (Tok.beginNode name)).length = 4 + name.length + 1 + pad4 (name.length + 1) := by
  simp [Tok.encode, be32]
  omega

theorem encode_prop_length (nameoff : Nat) (data : List Nat) :
    (Tok.encode (Tok.prop nameoff data)).length = 12 + data.length + pad4 data.length := by
  simp [Tok.encode, be32]
  omega

theorem pad4_add4 (k : Nat) : pad4 (4 + k) = pad4 k := by
  unfold pad4; omega

theorem fdt_read_piece_begin {mem : Mem} {p n : Nat} {name tail : List Nat}
    (h : Holds mem p (Tok.encode (Tok.beginNode name) ++ tail)) (hv : IsText name)
    (hal : p % 4 = 0) (hw : p + (Tok.encode (Tok.beginNode name)).length + 3 < 2 ^ 64)
    (hn : name.length < n) :
    fdt_read_piece mem n p
      = Except.ok ⟨p, 1, p + (Tok.encode (Tok.beginNode name)).length⟩ := by
  rw [encode_beginNode_length] at hw ⊢
  have h1 : Holds mem p (be32 1 ++ (name ++ 0 :: (List.replicate (pad4 (name.length + 1)) 0
      ++ tail))) := by
    simpa [Tok.encode] using h
  have r1 := read_be_holds h1 (by norm_num) (by omega)
  have h2 := holds_append_right h1
  have e4 : (be32 1).length = 4 := by simp [be32]
  rw [e4] at h2
  have r2 := skip_name_holds name _ hv (p + 4) n h2 (by omega) hn
  have e5 : padd (p + 4 + name.length) 1 = p + (4 + name.length + 1) := by
    rw [padd_eq _ _ (by omega)]
    omega
  have e6 := FDT_ALIGN_pad p (4 + name.length + 1) hal (by omega)
  have e7 : pad4 (4 + name.length + 1) = pad4 (name.length + 1) := by
    rw [Nat.add_assoc, pad4_add4]
  simp only [fdt_read_piece, r1, bind, Except.bind, if_true, padd_eq p 4 (by omega), r2, e5, e6,
    e7, pure, Except.pure]
  congr 2
  omega

theorem fdt_read_piece_end {mem : Mem} {p n : Nat} {tail : List Nat}
    (h : Holds mem p (Tok.encode Tok.endNode ++ tail))
    (hal : p % 4 = 0) (hw : p + 4 + 3 < 2 ^ 64) :
    fdt_read_piece mem n p = Except.ok ⟨p, 2, p + 4⟩ := by
  have h1 : Holds mem p (be32 2 ++ tail) := by simpa [Tok.encode] using h
  have r1 := read_be_holds h1 (by norm_num) (by omega)
  have e6 := FDT_ALIGN_pad p 4 hal (by omega)
  have e7 : pad4 4 = 0 := by decide
  simp only [fdt_read_piece, r1, bind, Except.bind, padd_eq p 4 (by omega), e6, e7, pure,
    Except.pure]
  simp

theorem fdt_read_piece_prop {mem : Mem} {p n nameoff : Nat} {data tail : List Nat}
    (h : Holds mem p (Tok.encode (Tok.prop nameoff data) ++ tail))
    (hv : (Tok.prop nameoff data).Valid)
    (hal : p % 4 = 0) (hw : p + (Tok.encode (Tok.prop nameoff data)).length + 3 < 2 ^ 64) :
    fdt_read_piece mem n p
        = Except.ok ⟨p, 3, p + (Tok.encode (Tok.prop nameoff data)).length⟩
      ∧ read_be mem (padd p 8) = Except.ok nameoff := by
  rw [encode_prop_length] at hw ⊢
  obtain ⟨hv1, hv2, _⟩ := hv
  have h1 : Holds mem p (be32 3 ++ (be32 data.length ++ (be32 nameoff ++ (data
      ++ (List.replicate (pad4 data.length) 0 ++ tail))))) := by
    simpa [Tok.encode] using h
  have r1 := read_be_holds h1 (by norm_num) (by omega)
  have h2 := holds_append_right h1
  have e4 : ∀ v, (be32 v).length = 4 := by intro v; simp [be32]
  rw [e4] at h2
  have r2 := read_be_holds h2 hv2 (by omega)
  have h3 := holds_append_right h2
  rw [e4, Nat.add_assoc] at h3
  have r3 := read_be_holds h3 hv1 (by omega)
  have e5 : padd (padd p 12) data.length = p + (12 + data.length) := by
    rw [padd_eq p 12 (by omega), padd_eq _ _ (by omega), Nat.add_assoc]
  have e6 := FDT_ALIGN_pad p (12 + data.length) hal (by omega)
  have e7 : pad4 (12 + data.length) = pad4 data.length := by
    unfold pad4; omega
  have e8 : padd p 8 = p + (4 + 4) := padd_eq p 8 (by omega)
  refine ⟨?_, by rw [e8]; exact r3⟩
  simp only [fdt_read_piece, r1, bind, Except.bind, padd_eq p 4 (by omega), r2, e8, r3, e5, e6,
    e7, pure, Except.pure]
  simp
  omega

theorem fdt_read_piece_other {mem : Mem} {p n v : Nat} {tail : List Nat}
    (h : Holds mem p (be32 v ++ tail)) (hv : v < 2 ^ 32) (h1 : v ≠ 1) (h2 : v ≠ 2) (h3 : v ≠ 3)
    (hw : p + 3 < 2 ^ 64) :
    fdt_read_piece mem n p = Except.ok ⟨p, v, 0⟩ := by
  have r1 := read_be_holds h hv hw
  simp only [fdt_read_piece, r1, bind, Except.bind, h1, h2, h3, if_false, pure, Except.pure,
    ite_self]

theorem encodeStruct_cons (t : Tok) (ts : List Tok) :
    encodeStruct (t :: ts) = t.encode ++ encodeStruct ts := by
  simp [encodeStruct, encodeToks]

theorem encodeStruct_length_ge (ts : List Tok) : 4 ≤ (encodeStruct ts).length := by
  simp [encodeStruct, be32]

theorem encode_length_mod4 (t : Tok) : t.encode.length % 4 = 0 ∧ 4 ≤ t.encode.length := by
  cases t with
  | beginNode name => rw [encode_beginNode_length]; unfold pad4; omega
  | endNode => simp [Tok.encode, be32]
  | prop nameoff data => rw [encode_prop_length]; unfold pad4; omega
  | nop => simp [Tok.encode, be32]

theorem fdt_read_str_holds {mem : Mem} {dtb offStrings : Nat}
    (hstr : Holds mem (dtb + 12) (be32 offStrings)) (hos : offStrings < 2 ^ 32)
    (hd : dtb + 15 < 2 ^ 64) (nameoff : Nat) :
    fdt_read_str mem dtb nameoff = Except.ok (padd (padd dtb offStrings) nameoff) := by
  have h1 : Holds mem (dtb + 12) (be32 offStrings ++ []) := by simpa using hstr
  have r1 := read_be_holds h1 hos (by omega)
  simp only [fdt_read_str, padd_eq dtb 12 (by omega), r1, bind, Except.bind, pure, Except.pure]

/-- The walk over a structure block without a node named `"chosen"`. -/
theorem dtb_walk_no_chosen {mem : Mem} {dtb offStrings n : Nat}
    (hstr : Holds mem (dtb + 12) (be32 offStrings)) (hos : offStrings < 2 ^ 32)
    (hd : dtb + 15 < 2 ^ 64) :
    ∀ (toks : List Tok) (p fuel : Nat) (h : Option (List Nat)) (cn : Option Nat) (u : Uart),
      Holds mem p (encodeStruct toks) → (∀ t ∈ toks, t.Valid) → propsHeld h toks = true →
      (∀ t ∈ toks, t ≠ Tok.beginNode str_chosen) →
      p % 4 = 0 → p ≠ 0 → p + (encodeStruct toks).length < 2 ^ 64 →
      (encodeStruct toks).length + 7 ≤ n → toks.length < fuel →
      (∀ nm, h = some nm → nm ≠ str_chosen ∧ ∃ q r, cn = some q ∧ Holds mem q (nm ++ 0 :: r)
        ∧ IsText nm ∧ q + nm.length < 2 ^ 64) →
      dtb_walk mem dtb n fuel p cn u = Except.ok u := by
  intro toks
  induction toks with
  | nil =>
    intro p fuel h cn u hm _ _ _ hal hp hw hn hf _
    obtain ⟨f, rfl⟩ : ∃ f, fuel = f + 1 := ⟨fuel - 1, by simp at hf; omega⟩
    have hm1 : Holds mem p (be32 9 ++ []) := by simpa [encodeStruct, encodeToks] using hm
    have hlen : (encodeStruct []).length = 4 := by simp [encodeStruct, encodeToks, be32]
    have r := fdt_read_piece_other (n := n) hm1 (by norm_num) (by decide) (by decide) (by decide)
      (by omega)
    simp [dtb_walk, hp, r, bind, Except.bind, pure, Except.pure]
  | cons t ts ih =>
    intro p fuel h cn u hm hv hheld hno hal hp hw hn hf hinv
    obtain ⟨f, rfl⟩ : ∃ f, fuel = f + 1 := ⟨fuel - 1, by simp at hf; omega⟩
    rw [encodeStruct_cons] at hm hw hn
    simp only [List.length_append] at hw hn
    have hm2 := holds_append_right hm
    have hvt := hv t (by simp)
    have hvts : ∀ x ∈ ts, x.Valid := fun x hx => hv x (by simp [hx])
    have hnots : ∀ x ∈ ts, x ≠ Tok.beginNode str_chosen := fun x hx => hno x (by simp [hx])
    have hfts : ts.length < f := by simp at hf; omega
    have h4 : ∀ v, (be32 v).length = 4 := by intro v; simp [be32]
    have hes := encodeStruct_length_ge ts
    have hl4 := encode_length_mod4 t
    cases t with
    | beginNode name =>
      have hlen := encode_beginNode_length name
      have r := fdt_read_piece_begin (n := n) hm hvt hal (by omega) (by omega)
      have hheld2 : propsHeld (some name) ts = true := by
        simpa [propsHeld, holderStep] using hheld
      have hmn : Holds mem (p + 4) (name ++ 0 :: (List.replicate (pad4 (name.length + 1)) 0)) := by
        have := holds_append_right (A := be32 1) (holds_append_left hm)
        simpa [Tok.encode, h4] using this
      have hrec := ih (p + (Tok.encode (Tok.beginNode name)).length) f (some name)
        (some (padd p 4)) u hm2 hvts hheld2 hnots (by omega) (by omega) (by omega) (by omega) hfts
        (by
          intro nm hnm
          cases hnm
          refine ⟨fun hc => hno (Tok.beginNode name) (by simp) (by rw [hc]), p + 4, _, ?_, hmn,
            hvt, by omega⟩
          rw [padd_eq p 4 (by omega)])
      simp only [dtb_walk, hp, if_false, r, bind, Except.bind, if_true, hrec]
    | endNode =>
      have hlen : (Tok.encode Tok.endNode).length = 4 := by simp [Tok.encode, be32]
      have r := fdt_read_piece_end (n := n) hm hal (by omega)
      have hheld2 : propsHeld none ts = true := by
        simpa [propsHeld, holderStep] using hheld
      rw [hlen] at hm2
      have hrec := ih (p + 4) f none cn u hm2 hvts hheld2 hnots (by omega) (by omega)
        (by omega) (by omega) hfts (by intro nm hnm; cases hnm)
      simp [dtb_walk, hp, r, bind, Except.bind, hrec]
    | prop nameoff data =>
      have hlen := encode_prop_length nameoff data
      obtain ⟨r, rn⟩ := fdt_read_piece_prop (n := n) hm hvt hal (by omega)
      have hheld2 : h.isSome = true ∧ propsHeld h ts = true := by
        simpa [propsHeld, holderStep] using hheld
      obtain ⟨nm, rfl⟩ := Option.isSome_iff_exists.1 hheld2.1
      obtain ⟨hne, q, rr, rfl, hq, hnm, hqw⟩ := hinv nm rfl
      obtain ⟨r1, hr1, hiff⟩ := strcmp_mem_lit str_chosen hq hnm hqw (by decide) n
        (by simp [str_chosen]; omega)
      have hr0 : r1 ≠ 0 := fun h0 => hne (hiff.1 h0)
      have hrec := ih (p + (Tok.encode (Tok.prop nameoff data)).length) f (some nm) (some q) u
        hm2 hvts hheld2.2 hnots (by omega) (by omega) (by omega) (by omega) hfts hinv
      simp only [dtb_walk, hp, if_false, r, bind, Except.bind, rn,
        fdt_read_str_holds hstr hos hd, hr1, hr0, hrec]
      simp
    | nop =>
      have hm1 : Holds mem p (be32 4 ++ encodeStruct ts) := by simpa [Tok.encode] using hm
      have r := fdt_read_piece_other (n := n) hm1 (by norm_num) (by decide) (by decide) (by decide)
        (by omega)
      simp [dtb_walk, hp, r, bind, Except.bind, pure, Except.pure]

theorem split_at_nul (l : List Nat) (h : 0 ∈ l) :
    ∃ r, l = l.takeWhile (fun c => decide (c ≠ 0)) ++ 0 :: r := by
  induction l with
  | nil => simp at h
  | cons c cs ih =>
    by_cases hc : c = 0
    · subst hc
      exact ⟨cs, by simp⟩
    · have h1 : 0 ∈ cs := by
        rcases List.mem_cons.1 h with h | h
        · exact absurd h.symm hc
        · exact h
      obtain ⟨r, hr⟩ := ih h1
      refine ⟨r, ?_⟩
      simp only [List.takeWhile_cons, hc, ne_eq, not_false_eq_true, decide_True, if_true,
        List.cons_append]
      rw [← hr]

theorem nameAt_holds {mem : Mem} {base : Nat} {strs s : List Nat} {off : Nat}
    (hm : Holds mem base strs) (hb : ∀ c ∈ strs, c < 256) (hn : nameAt strs off = some s) :
    ∃ r, Holds mem (base + off) (s ++ 0 :: r) ∧ IsText s ∧ off + s.length < strs.length := by
  unfold nameAt at hn
  by_cases h0 : 0 ∈ strs.drop off
  · simp only [h0, if_true, Option.some.injEq] at hn
    obtain ⟨r, hr⟩ := split_at_nul _ h0
    rw [hn] at hr
    have hlt : off < strs.length := by
      by_contra hge
      rw [List.drop_of_length_le (by omega)] at h0
      simp at h0
    have e1 : strs = strs.take off ++ (s ++ 0 :: r) := by
      rw [← hr, List.take_append_drop]
    have e2 : (strs.take off).length = off := by
      rw [List.length_take]; omega
    refine ⟨r, ?_, ?_, ?_⟩
    · have := holds_append_right (A := strs.take off) (B := s ++ 0 :: r) (by rw [← e1]; exact hm)
      rwa [e2] at this
    · intro c hc
      have hc1 : c ∈ strs := by
        rw [e1]; simp [hc]
      have hc2 : c ≠ 0 := by
        rw [← hn] at hc
        have := List.mem_takeWhile_imp hc
        simpa using this
      exact ⟨by omega, hb c hc1⟩
    · have := congrArg List.length e1
      simp only [List.length_append, List.length_cons, e2] at this
      omega
  · simp [h0] at hn

/-- The walk up to and including the first `"bootargs"` property of a
`"chosen"` node. -/
theorem dtb_walk_found {mem : Mem} {dtb offStrings n : Nat}
    (hstr : Holds mem (dtb + 12) (be32 offStrings)) (hos : offStrings < 2 ^ 32)
    (hd : dtb + 15 < 2 ^ 64) (strs : List Nat) (hstrs : Holds mem (dtb + offStrings) strs)
    (hsb : ∀ c ∈ strs, c < 256) (hsw : dtb + offStrings + strs.length < 2 ^ 64)
    (nameoff : Nat) (value dtail tail : List Nat) (hval : IsText value)
    (hname : nameAt strs nameoff = some str_bootargs)
    (hpv : (Tok.prop nameoff (value ++ 0 :: dtail)).Valid) :
    ∀ (front : List Tok) (p fuel : Nat) (h : Option (List Nat)) (cn : Option Nat) (u : Uart),
      Holds mem p (encodeToks front ++ ((Tok.prop nameoff (value ++ 0 :: dtail)).encode ++ tail)) →
      (∀ t ∈ front, t.Valid ∧ t ≠ Tok.nop) → propsHeld h front = true →
      noEarlier strs h front = true → holder h front = some str_chosen →
      p % 4 = 0 → p ≠ 0 →
      p + (encodeToks front).length + (Tok.prop nameoff (value ++ 0 :: dtail)).encode.length + 3
        < 2 ^ 64 →
      (encodeToks front).length + (Tok.prop nameoff (value ++ 0 :: dtail)).encode.length + 9 ≤ n →
      front.length < fuel →
      (∀ nm, h = some nm → ∃ q r, cn = some q ∧ Holds mem q (nm ++ 0 :: r)
        ∧ IsText nm ∧ q + nm.length < 2 ^ 64) →
      dtb_walk mem dtb n fuel p cn u
        = Except.ok ⟨u.rx, u.pos, u.tx ++ [99, 109, 100, 108, 105, 110, 101, 32, 61, 32, 39]
            ++ crlf value ++ [39, 13, 10]⟩ := by
  intro front
  induction front with
  | nil =>
    intro p fuel h cn u hm _ _ _ hh hal hp hw hn hf hinv
    obtain ⟨f, rfl⟩ : ∃ f, fuel = f + 1 := ⟨fuel - 1, by simp at hf; omega⟩
    simp only [encodeToks, List.nil_append, List.length_nil, Nat.add_zero, Nat.zero_add] at hm hw hn
    have hlen := encode_prop_length nameoff (value ++ 0 :: dtail)
    simp only [List.length_append, List.length_cons] at hlen
    obtain ⟨r, rn⟩ := fdt_read_piece_prop (n := n) hm hpv hal hw
    simp only [holder, List.foldl_nil] at hh
    obtain ⟨q, rr, rfl, hq, hnm, hqw⟩ := hinv str_chosen hh
    obtain ⟨r1, hr1, hiff⟩ := strcmp_mem_lit str_chosen hq hnm hqw (by decide) n
      (by simp [str_chosen]; omega)
    have hr0 : r1 = 0 := hiff.2 rfl
    obtain ⟨sr, hs1, hs2, hs3⟩ := nameAt_holds hstrs hsb hname
    have hptr : padd (padd dtb offStrings) nameoff = dtb + offStrings + nameoff := by
      rw [padd_eq dtb offStrings (by omega), padd_eq _ _ (by omega)]
    obtain ⟨r2, hr2, hiff2⟩ := strcmp_mem_lit str_bootargs hs1 hs2 (by omega) (by decide) n
      (by simp [str_bootargs]; omega)
    have hr20 : r2 = 0 := hiff2.2 rfl
    have h4 : ∀ v, (be32 v).length = 4 := by intro v; simp [be32]
    have hdat : Holds mem (p + 12)
        (value ++ 0 :: (dtail ++ (List.replicate (pad4 (value ++ 0 :: dtail).length) 0 ++ tail))) := by
      have h1 : Holds mem p ((be32 3 ++ be32 (value ++ 0 :: dtail).length ++ be32 nameoff)
          ++ (value ++ 0 :: (dtail ++ (List.replicate (pad4 (value ++ 0 :: dtail).length) 0
            ++ tail)))) := by
        simpa [Tok.encode] using hm
      have := holds_append_right h1
      simpa [h4] using this
    have hrc := read_cstr_holds value _ hval (p + 12) n hdat (by omega) (by omega)
    have hne0 : ∀ c ∈ value, c ≠ 0 := fun c hc => by have := hval c hc; omega
    simp only [dtb_walk, hp, if_false, r, bind, Except.bind, rn,
      fdt_read_str_holds hstr hos hd, hr1, hr0, hptr, hr2, hr20, padd_eq p 12 (by omega), hrc,
      uart1_printf_cmdline value hne0 u]
    simp [pure, Except.pure]
  | cons t ts ih =>
    intro p fuel h cn u hm hv hheld hno hh hal hp hw hn hf hinv
    obtain ⟨f, rfl⟩ : ∃ f, fuel = f + 1 := ⟨fuel - 1, by simp at hf; omega⟩
    simp only [encodeToks, List.append_assoc, List.length_append] at hm hw hn
    have hm2 := holds_append_right hm
    have hvt := (hv t (by simp)).1
    have hnop := (hv t (by simp)).2
    have hvts : ∀ x ∈ ts, x.Valid ∧ x ≠ Tok.nop := fun x hx => hv x (by simp [hx])
    have hfts : ts.length < f := by simp at hf; omega
    have h4 : ∀ v, (be32 v).length = 4 := by intro v; simp [be32]
    have hl4 := encode_length_mod4 t
    have hlp := encode_length_mod4 (Tok.prop nameoff (value ++ 0 :: dtail))
    have hh2 : holder (holderStep h t) ts = some str_chosen := by
      simpa [holder] using hh
    cases t with
    | beginNode name =>
      have hlen := encode_beginNode_length name
      have r := fdt_read_piece_begin (n := n) hm hvt hal (by omega) (by omega)
      have hheld2 : propsHeld (some name) ts = true := by
        simpa [propsHeld, holderStep] using hheld
      have hno2 : noEarlier strs (some name) ts = true := by
        simpa [noEarlier, holderStep] using hno
      have hmn : Holds mem (p + 4) (name ++ 0 :: (List.replicate (pad4 (name.length + 1)) 0)) := by
        have := holds_append_right (A := be32 1) (holds_append_left hm)
        simpa [Tok.encode, h4] using this
      have hrec := ih (p + (Tok.encode (Tok.beginNode name)).length) f (some name)
        (some (padd p 4)) u hm2 hvts hheld2 hno2 hh2 (by omega) (by omega) (by omega) (by omega)
        hfts
        (by
          intro nm hnm
          cases hnm
          refine ⟨p + 4, _, ?_, hmn, hvt, by omega⟩
          rw [padd_eq p 4 (by omega)])
      simp only [dtb_walk, hp, if_false, r, bind, Except.bind, if_true, hrec]
    | endNode =>
      have hlen : (Tok.encode Tok.endNode).length = 4 := by simp [Tok.encode, be32]
      have r := fdt_read_piece_end (n := n) hm hal (by omega)
      have hheld2 : propsHeld none ts = true := by
        simpa [propsHeld, holderStep] using hheld
      have hno2 : noEarlier strs none ts = true := by
        simpa [noEarlier, holderStep] using hno
      rw [hlen] at hm2
      have hrec := ih (p + 4) f none cn u hm2 hvts hheld2 hno2 hh2 (by omega) (by omega)
        (by omega) (by omega) hfts (by intro nm hnm; cases hnm)
      simp [dtb_walk, hp, r, bind, Except.bind, hrec]
    | prop no data =>
      have hlen := encode_prop_length no data
      obtain ⟨r, rn⟩ := fdt_read_piece_prop (n := n) hm hvt hal (by omega)
      have hheld2 : h.isSome = true ∧ propsHeld h ts = true := by
        simpa [propsHeld, holderStep] using hheld
      obtain ⟨nm, rfl⟩ := Option.isSome_iff_exists.1 hheld2.1
      have hno2 : noEarlier strs (some nm) ts = true := by
        have := hno
        simp only [noEarlier, holderStep, Bool.and_eq_true] at this
        exact this.2
      obtain ⟨q, rr, rfl, hq, hnm, hqw⟩ := hinv nm rfl
      obtain ⟨r1, hr1, hiff⟩ := strcmp_mem_lit str_chosen hq hnm hqw (by decide) n
        (by simp [str_chosen]; omega)
      have hrec := ih (p + (Tok.encode (Tok.prop no data)).length) f (some nm) (some q) u
        hm2 hvts hheld2.2 hno2 hh2 (by omega) (by omega) (by omega) (by omega) hfts hinv
      by_cases hch : nm = str_chosen
      · have hr0 : r1 = 0 := hiff.2 hch
        have hno1 := hno
        simp only [noEarlier, Bool.and_eq_true, hch, if_true] at hno1
        cases hna : nameAt strs no with
        | none => rw [hna] at hno1; simp at hno1
        | some s =>
          rw [hna] at hno1
          have hsne : s ≠ str_bootargs := by simpa using hno1.1
          obtain ⟨sr, hs1, hs2, hs3⟩ := nameAt_holds hstrs hsb hna
          have hptr : padd (padd dtb offStrings) no = dtb + offStrings + no := by
            rw [padd_eq dtb offStrings (by omega), padd_eq _ _ (by omega)]
          obtain ⟨r2, hr2, hiff2⟩ := strcmp_mem_lit str_bootargs hs1 hs2 (by omega) (by decide) n
            (by simp [str_bootargs]; omega)
          have hr20 : r2 ≠ 0 := fun h0 => hsne (hiff2.1 h0)
          simp only [dtb_walk, hp, if_false, r, bind, Except.bind, rn,
            fdt_read_str_holds hstr hos hd, hr1, hr0, hptr, hr2, hr20, hrec]
          simp
      · have hr0 : r1 ≠ 0 := fun h0 => hch (hiff.1 h0)
        simp only [dtb_walk, hp, if_false, r, bind, Except.bind, rn,
          fdt_read_str_holds hstr hos hd, hr1, hr0, hrec]
        simp
    | nop => exact absurd rfl hnop

theorem holds_restrict {mem : Mem} {a : Nat} {L : List Nat} {keep : Nat → Bool}
    (h : Holds mem a L) (hk : ∀ i, i < L.length → keep (a + i) = true) :
    Holds (restrictMem mem keep) a L := by
  intro i hi
  simp only [restrictMem, hk i hi, if_true]
  exact h i hi

/-- A blob without a `"chosen"` node: nothing is printed, in any memory that
holds the two offset fields and the structure block. -/
theorem dtb_print_bootargs_absent (mem : Mem) (dtb offStruct offStrings : Nat) (toks : List Tok)
    (fuel : Nat) (u : Uart)
    (hnn : 0 < dtb) (hal : dtb % 4 = 0) (hoal : offStruct % 4 = 0) (h40 : 40 ≤ offStruct)
    (hos1 : offStruct < 2 ^ 32) (hos2 : offStrings < 2 ^ 32)
    (hh8 : Holds mem (dtb + 8) (be32 offStruct)) (hh12 : Holds mem (dtb + 12) (be32 offStrings))
    (hs : Holds mem (dtb + offStruct) (encodeStruct toks))
    (hw : dtb + offStruct + (encodeStruct toks).length < 2 ^ 64)
    (hv : ∀ t ∈ toks, t.Valid) (hheld : propsHeld none toks = true)
    (hno : ∀ t ∈ toks, t ≠ Tok.beginNode str_chosen)
    (hfuel : (encodeStruct toks).length + 7 ≤ fuel) :
    dtb_print_bootargs mem dtb fuel u = Except.ok u := by
  have h1 : Holds mem (dtb + 8) (be32 offStruct ++ []) := by simpa using hh8
  have r1 := read_be_holds h1 hos1 (by omega)
  have hlen : toks.length < fuel := by
    have : ∀ ts : List Tok, ts.length ≤ (encodeToks ts).length := by
      intro ts
      induction ts with
      | nil => simp
      | cons t ts ih =>
        have := (encode_length_mod4 t).2
        simp only [encodeToks, List.length_append, List.length_cons]
        omega
    have := this toks
    simp only [encodeStruct, List.length_append] at hfuel
    omega
  have := dtb_walk_no_chosen (n := fuel) hh12 hos2 (by omega) toks (dtb + offStruct) fuel none none
    u hs hv hheld hno (by omega) (by omega) hw hfuel hlen (by intro nm hnm; cases hnm)
  simp only [dtb_print_bootargs, padd_eq dtb 8 (by omega), r1, bind, Except.bind,
    padd_eq dtb offStruct (by omega), this]

theorem encodeToks_append (a b : List Tok) : encodeToks (a ++ b) = encodeToks a ++ encodeToks b := by
  induction a with
  | nil => simp [encodeToks]
  | cons t ts ih => simp [encodeToks, ih]

theorem length_le_encodeToks (ts : List Tok) : ts.length ≤ (encodeToks ts).length := by
  induction ts with
  | nil => simp
  | cons t ts ih =>
    have := (encode_length_mod4 t).2
    simp only [encodeToks, List.length_append, List.length_cons]
    omega

/-! ## The device-tree walk finds the boot arguments -/

section DeviceTree

set_option maxRecDepth 100000

/-- Claim C1 as stated fails: in the blob of `sampleToksNewline` the node
`chosen` directly holds the property `bootargs` with the data `"a\nb"`, and
`dtb_print_bootargs` sends `cmdline = 'a`, `'\r'`, `'\n'`, `b'` and the line
end: the value sent has a `'\r'` that the data of the property do not have. -/
theorem dtb_print_bootargs_newline_counterexample :
    Holds (blobMem 64 (sampleBlobOf sampleToksNewline)) (64 + 40)
        (encodeStruct sampleToksNewline)
      ∧ Holds (blobMem 64 (sampleBlobOf sampleToksNewline)) (64 + 8) (be32 40)
      ∧ nameAt sampleStrings 0 = some str_bootargs
      ∧ (dtb_print_bootargs (blobMem 64 (sampleBlobOf sampleToksNewline)) 64 200
          ⟨fun _ => 0, 0, []⟩).map (fun u => u.tx)
        = Except.ok ([99, 109, 100, 108, 105, 110, 101, 32, 61, 32, 39]
            ++ [97, 13, 10, 98] ++ [39, 13, 10])
      ∧ [97, 13, 10, 98] ≠ [97, 10, 98] :=
  ⟨by decide, by decide, by decide, rfl, by decide⟩

/-- Claim C1, amended. A well-formed blob is loaded at a 4-byte aligned,
non-null address `dtb`; its structure block, at the aligned offset `offStruct`
behind the 40-byte header, is the encoding of `front`, a property token and
`rest`, followed by `FDT_END`, and `strs` is its strings block. The tokens of
`front` are `BEGIN_NODE`, `END_NODE` and `PROP` tokens, every property lies in
the property section of a node, and the node that directly holds the property
after `front` is named `"chosen"`. The name of that property in the strings
block is `"bootargs"`, no earlier property directly held by a `"chosen"` node
has that name, and its data are the text `value`, a NUL, and possibly more
bytes. Then `dtb_print_bootargs`, given enough steps, returns after sending
exactly `cmdline = '`, the bytes of `value` in order with each `'\n'` written
as `'\r' '\n'` and every other byte unchanged (`crlf value`), `'` and the line
end `'\r' '\n'`. -/
theorem dtb_print_bootargs_found (mem : Mem) (dtb offStruct offStrings : Nat)
    (strs : List Nat) (front : List Tok) (nameoff : Nat) (value dtail : List Nat)
    (rest : List Tok) (fuel : Nat) (u : Uart)
    (hnn : 0 < dtb) (hal : dtb % 4 = 0) (hoal : offStruct % 4 = 0) (h40 : 40 ≤ offStruct)
    (hos1 : offStruct < 2 ^ 32) (hos2 : offStrings < 2 ^ 32)
    (hh8 : Holds mem (dtb + 8) (be32 offStruct)) (hh12 : Holds mem (dtb + 12) (be32 offStrings))
    (hs : Holds mem (dtb + offStruct)
      (encodeStruct (front ++ Tok.prop nameoff (value ++ 0 :: dtail) :: rest)))
    (hw : dtb + offStruct
      + (encodeStruct (front ++ Tok.prop nameoff (value ++ 0 :: dtail) :: rest)).length < 2 ^ 64)
    (hstrs : Holds mem (dtb + offStrings) strs) (hsb : ∀ c ∈ strs, c < 256)
    (hsw : dtb + offStrings + strs.length < 2 ^ 64)
    (hv : ∀ t ∈ front, t.Valid ∧ t ≠ Tok.nop)
    (hpv : (Tok.prop nameoff (value ++ 0 :: dtail)).Valid) (hval : IsText value)
    (hheld : propsHeld none front = true)
    (hholder : holder none front = some str_chosen)
    (hname : nameAt strs nameoff = some str_bootargs)
    (hno : noEarlier strs none front = true)
    (hfuel : (encodeStruct (front ++ Tok.prop nameoff (value ++ 0 :: dtail) :: rest)).length + 9
      ≤ fuel) :
    dtb_print_bootargs mem dtb fuel u
      = Except.ok ⟨u.rx, u.pos, u.tx ++ [99, 109, 100, 108, 105, 110, 101, 32, 61, 32, 39]
          ++ crlf value ++ [39, 13, 10]⟩ := by
  have h1 : Holds mem (dtb + 8) (be32 offStruct ++ []) := by simpa using hh8
  have r1 := read_be_holds h1 hos1 (by omega)
  have e : encodeStruct (front ++ Tok.prop nameoff (value ++ 0 :: dtail) :: rest)
      = encodeToks front ++ ((Tok.prop nameoff (value ++ 0 :: dtail)).encode
          ++ (encodeToks rest ++ be32 9)) := by
    simp [encodeStruct, encodeToks_append, encodeToks]
  rw [e] at hs hw hfuel
  simp only [List.length_append] at hw hfuel
  have h4 : (be32 9).length = 4 := by simp [be32]
  have hfl := length_le_encodeToks front
  have := dtb_walk_found (n := fuel) hh12 hos2 (by omega) strs hstrs hsb hsw nameoff value dtail
    (encodeToks rest ++ be32 9) hval hname hpv front (dtb + offStruct) fuel none none u hs hv
    hheld hno hholder (by omega) (by omega) (by omega) (by omega) (by omega)
    (by intro nm hnm; cases hnm)
  simp only [dtb_print_bootargs, padd_eq dtb 8 (by omega), r1, bind, Except.bind,
    padd_eq dtb offStruct (by omega), this]

/-- The blob `sampleBlobChosen`, whose `/chosen` node holds
`bootargs = "console=ttyS0"` after another property: the report is exactly
`cmdline = 'console=ttyS0'` and the line end. -/
theorem dtb_print_bootargs_found_witness :
    dtb_print_bootargs (blobMem 64 sampleBlobChosen) 64 200 ⟨fun _ => 0, 0, [62]⟩
      = Except.ok ⟨fun _ => 0, 0, [62] ++ [99, 109, 100, 108, 105, 110, 101, 32, 61, 32, 39]
          ++ [99, 111, 110, 115, 111, 108, 101, 61, 116, 116, 121, 83, 48] ++ [39, 13, 10]⟩ :=
  dtb_print_bootargs_found (blobMem 64 sampleBlobChosen) 64 40
    (40 + (encodeStruct (sampleFront
      ++ Tok.prop 0 (sampleValue ++ 0 :: []) :: [Tok.endNode, Tok.endNode])).length)
    sampleStrings sampleFront 0 sampleValue [] [Tok.endNode, Tok.endNode] 200
    ⟨fun _ => 0, 0, [62]⟩
    (by decide) (by decide) (by decide) (by decide) (by decide) (by decide) (by decide)
    (by decide) (by decide) (by decide) (by decide) (by decide) (by decide) (by decide)
    (by decide) (by decide) (by decide) (by decide) (by decide) (by decide) (by decide)

/-- Claim C2 as stated fails: `sampleBlobPlain` is a blob whose structure block
(at offset 40, of the declared length) has no node named `"chosen"`, and when
the structure block is the only readable memory `dtb_print_bootargs` stops on a
fault at address 72, that is `dtb + 8`, the header field `fdt_off_dt_struct`,
which lies outside the structure block: the function reads bytes that are not
in the structure block. -/
theorem dtb_reads_header_counterexample :
    (Holds (blobMem 64 sampleBlobPlain) (64 + 40) (encodeStruct sampleToksPlain)
        ∧ Holds (blobMem 64 sampleBlobPlain) (64 + 36) (be32 (encodeStruct sampleToksPlain).length)
        ∧ Holds (blobMem 64 sampleBlobPlain) (64 + 8) (be32 40)
        ∧ ∀ t ∈ sampleToksPlain, t ≠ Tok.beginNode str_chosen)
      ∧ dtb_print_bootargs (restrictMem (blobMem 64 sampleBlobPlain)
          (inStructBlock 64 40 (encodeStruct sampleToksPlain).length)) 64 100 ⟨fun _ => 0, 0, []⟩
        = Except.error (Err.fault 72)
      ∧ inStructBlock 64 40 (encodeStruct sampleToksPlain).length 72 = false :=
  ⟨by decide, rfl, by decide⟩

/-- Claim C2, amended. A well-formed blob is loaded at a 4-byte aligned,
non-null address `dtb`; its structure block, at the aligned offset `offStruct`
behind the 40-byte header and of the declared length `size`, is the encoding of
`toks` followed by `FDT_END`; every property lies in the property section of a
node and no node is named `"chosen"`. Then `dtb_print_bootargs`, given enough
steps, returns without sending anything, and it does so as well when every
address outside the header fields `fdt_off_dt_struct` and `fdt_off_dt_strings`
(bytes 8 to 15 of the blob) and outside the structure block is unreadable:
every byte it reads lies in one of these two header fields or inside the
declared structure block, so it never reads past the declared length. -/
theorem dtb_print_bootargs_no_chosen (mem : Mem) (dtb offStruct offStrings size : Nat)
    (toks : List Tok) (fuel : Nat) (u : Uart)
    (hnn : 0 < dtb) (hal : dtb % 4 = 0) (hoal : offStruct % 4 = 0) (h40 : 40 ≤ offStruct)
    (hos1 : offStruct < 2 ^ 32) (hos2 : offStrings < 2 ^ 32)
    (hh8 : Holds mem (dtb + 8) (be32 offStruct)) (hh12 : Holds mem (dtb + 12) (be32 offStrings))
    (hdecl : Holds mem (dtb + 36) (be32 size)) (hsize : size = (encodeStruct toks).length)
    (hs : Holds mem (dtb + offStruct) (encodeStruct toks))
    (hw : dtb + offStruct + size < 2 ^ 64)
    (hv : ∀ t ∈ toks, t.Valid) (hheld : propsHeld none toks = true)
    (hno : ∀ t ∈ toks, t ≠ Tok.beginNode str_chosen)
    (hfuel : size + 7 ≤ fuel) :
    dtb_print_bootargs mem dtb fuel u = Except.ok u
      ∧ dtb_print_bootargs
          (restrictMem mem (fun a => inOffsetFields dtb a || inStructBlock dtb offStruct size a))
          dtb fuel u = Except.ok u := by
  subst hsize
  have _ := hdecl
  have h4 : ∀ v, (be32 v).length = 4 := by intro v; simp [be32]
  refine ⟨dtb_print_bootargs_absent mem dtb offStruct offStrings toks fuel u hnn hal hoal h40
    hos1 hos2 hh8 hh12 hs hw hv hheld hno hfuel, ?_⟩
  refine dtb_print_bootargs_absent _ dtb offStruct offStrings toks fuel u hnn hal hoal h40
    hos1 hos2 (holds_restrict hh8 ?_) (holds_restrict hh12 ?_) (holds_restrict hs ?_) hw hv hheld
    hno hfuel
  · intro i hi
    rw [h4] at hi
    simp only [inOffsetFields, inStructBlock, Bool.or_eq_true, decide_eq_true_eq]
    left; omega
  · intro i hi
    rw [h4] at hi
    simp only [inOffsetFields, inStructBlock, Bool.or_eq_true, decide_eq_true_eq]
    left; omega
  · intro i hi
    simp only [inOffsetFields, inStructBlock, Bool.or_eq_true, decide_eq_true_eq]
    right; omega

/-- The blob `sampleBlobPlain`, which has the nodes `/` and `/cpus` only. -/
theorem dtb_print_bootargs_no_chosen_witness :
    dtb_print_bootargs (blobMem 64 sampleBlobPlain) 64 100 ⟨fun _ => 0, 0, []⟩
        = Except.ok ⟨fun _ => 0, 0, []⟩
      ∧ dtb_print_bootargs
          (restrictMem (blobMem 64 sampleBlobPlain)
            (fun a => inOffsetFields 64 a
              || inStructBlock 64 40 (encodeStruct sampleToksPlain).length a))
          64 100 ⟨fun _ => 0, 0, []⟩ = Except.ok ⟨fun _ => 0, 0, []⟩ :=
  dtb_print_bootargs_no_chosen (blobMem 64 sampleBlobPlain) 64 40
    (40 + (encodeStruct sampleToksPlain).length) (encodeStruct sampleToksPlain).length
    sampleToksPlain 100 ⟨fun _ => 0, 0, []⟩
    (by decide) (by decide) (by decide) (by decide) (by decide) (by decide) (by decide)
    (by decide) (by decide) (by decide) (by decide) (by decide) (by decide) (by decide)
    (by decide) (by decide)

end DeviceTree

/-! ## The line reader -/

theorem uart1_getline_loop_spec (lim : Nat) (hlim : lim < 2 ^ 64) :
    ∀ (fuel k : Nat) (b : LineBuf) (u : Uart), k ≤ lim → lim - k < fuel →
      ∃ r b1 u1, uart1_getline_loop lim fuel k b u = some (r, b1, u1)
        ∧ k ≤ r ∧ r ≤ lim
        ∧ u1.rx = u.rx ∧ u1.pos = u.pos + (r - k)
        ∧ b1.writes = b.writes ++ List.range' k (r - k)
        ∧ (∀ i, i < k ∨ r ≤ i → b1.mem i = b.mem i)
        ∧ (∀ i, k ≤ i → i < r → b1.mem i = foldCR (u.rx (u.pos + (i - k))))
        ∧ (∀ i, k ≤ i → i + 1 < r → b1.mem i ≠ 10)
        ∧ (r = lim ∨ (k < r ∧ b1.mem (r - 1) = 10)) := by
  intro fuel
  induction fuel with
  | zero => intro k b u _ h; omega
  | succ fuel ih =>
    intro k b u hk hf
    rw [uart1_getline_loop]
    by_cases hlt : k < lim
    · simp only [hlt, if_true, uart1_getc, uart1_putc]
      have hmod : (k + 1) % 2 ^ 64 = k + 1 := Nat.mod_eq_of_lt (by omega)
      rw [hmod]
      have hc : (if u.rx u.pos % 256 = 13 then 10 else u.rx u.pos % 256) = foldCR (u.rx u.pos) := rfl
      rw [hc]
      by_cases h10 : foldCR (u.rx u.pos) = 10
      · simp only [h10, if_true]
        refine ⟨k + 1, _, _, rfl, by omega, by omega, rfl, by simp, ?_, ?_, ?_, ?_, ?_⟩
        · simp [LineBuf.store]
        · intro i hi
          simp only [LineBuf.store]
          rw [Function.update_noteq (by omega)]
        · intro i h1 h2
          have : i = k := by omega
          subst this
          simp [LineBuf.store, h10]
        · intro i h1 h2; omega
        · right
          refine ⟨by omega, ?_⟩
          simp [LineBuf.store]
      · simp only [h10, if_false]
        obtain ⟨r, b1, u1, he, h1, h2, h3, h4, h5, h6, h7, h8, h9⟩ :=
          ih (k + 1) (b.store k (foldCR (u.rx u.pos)))
            { rx := u.rx, pos := u.pos + 1, tx := u.tx ++ [foldCR (u.rx u.pos)] }
            (by omega) (by omega)
        refine ⟨r, b1, u1, he, by omega, h2, h3, ?_, ?_, ?_, ?_, ?_, ?_⟩
        · rw [h4]; simp only; omega
        · rw [h5]
          simp only [LineBuf.store, List.append_assoc, List.append_cancel_left_eq]
          have : r - k = (r - (k + 1)) + 1 := by omega
          rw [this, List.range'_succ]
          simp
        · intro i hi
          rw [h6 i (by omega)]
          simp only [LineBuf.store]
          rw [Function.update_noteq (by omega)]
        · intro i hi1 hi2
          by_cases hik : i = k
          · subst hik
            rw [h6 i (by omega)]
            simp [LineBuf.store]
          · rw [h7 i (by omega) hi2]
            simp only
            congr 2
            omega
        · intro i hi1 hi2
          by_cases hik : i = k
          · subst hik
            rw [h6 i (by omega)]
            simpa [LineBuf.store] using h10
          · exact h8 i (by omega) hi2
        · rcases h9 with h9 | ⟨h9, h10⟩
          · left; exact h9
          · right; exact ⟨by omega, h10⟩
    · simp only [hlt, if_false]
      have : k = lim := by omega
      subst this
      refine ⟨k, b, u, rfl, le_refl _, le_refl _, rfl, by simp, by simp, ?_, ?_, ?_, ?_⟩
      · intro i _; rfl
      · intro i h1 h2; omega
      · intro i h1 h2; omega
      · left; rfl

theorem size_pred_eq (n : Nat) (h1 : 1 ≤ n) (hn : n < 2 ^ 64) : size_pred n = n - 1 := by
  unfold size_pred
  omega

/-- Claim C3. For every capacity `n` with `2 ≤ n` (a `size_t`), every state of
the UART and every input stream, `uart1_getline(buf, n)` returns; every index
it stores to is below `n`, it performs at most `n` stores, the bytes of `buf`
from index `n` on are unchanged, the returned length `r` is at most `n - 1`,
and `buf[r]` is the NUL terminator. -/
theorem uart1_getline_bounded (n : Nat) (h2 : 2 ≤ n) (hn : n < 2 ^ 64)
    (u : Uart) (lineptr : Nat → Nat) :
    ∃ r b u1, uart1_getline u lineptr n = some (r, b, u1)
      ∧ (∀ i ∈ b.writes, i < n) ∧ b.writes.length ≤ n
      ∧ (∀ i, n ≤ i → b.mem i = lineptr i)
      ∧ r ≤ n - 1 ∧ b.mem r = 0 := by
  have hl : size_pred n = n - 1 := size_pred_eq n (by omega) hn
  obtain ⟨r, b1, u1, he, h1, h2', h3, h4, h5, h6, h7, h8, h9⟩ :=
    uart1_getline_loop_spec (size_pred n) (by rw [hl]; omega) (size_pred n + 1) 0 ⟨lineptr, []⟩ u
      (Nat.zero_le _) (by omega)
  rw [hl] at h2' h9
  refine ⟨r, b1.store r 0, u1, ?_, ?_, ?_, ?_, h2', ?_⟩
  · show uart1_getline_end
        (uart1_getline_loop (size_pred n) (size_pred n + 1) 0 ⟨lineptr, []⟩ u) = _
    rw [he]
    rfl
  · intro i hi
    simp only [LineBuf.store, h5, List.nil_append, List.mem_append, List.mem_range',
      List.mem_singleton] at hi
    rcases hi with ⟨j, hj, rfl⟩ | rfl <;> omega
  · simp only [LineBuf.store, h5, List.nil_append, List.length_append, List.length_range',
      List.length_singleton]
    omega
  · intro i hi
    simp only [LineBuf.store]
    rw [Function.update_noteq (by omega), h6 i (by omega)]
  · simp [LineBuf.store]

/-- Capacity 4 on the input `a`, `'\r'`. -/
theorem uart1_getline_bounded_witness :
    ∃ r b u1, uart1_getline ⟨fun k => [97, 13].getD k 0, 0, []⟩ (fun _ => 7) 4 = some (r, b, u1)
      ∧ (∀ i ∈ b.writes, i < 4) ∧ b.writes.length ≤ 4
      ∧ (∀ i, 4 ≤ i → b.mem i = (fun _ => 7) i)
      ∧ r ≤ 4 - 1 ∧ b.mem r = 0 :=
  uart1_getline_bounded 4 (by decide) (by decide) ⟨fun k => [97, 13].getD k 0, 0, []⟩ (fun _ => 7)

/-- Claim C4. For every capacity `n` with `2 ≤ n` and every input stream,
`uart1_getline` consumes exactly `r` input bytes, where `r` is the returned
length and `1 ≤ r ≤ n - 1`; `buf[0..r)` holds those bytes with `'\r'` replaced
by `'\n'`; no `'\n'` occurs in `buf[0..r-1)`; and either `r = n - 1` or
`buf[r-1]` is the `'\n'` that stopped the loop. -/
theorem uart1_getline_contents (n : Nat) (h2 : 2 ≤ n) (hn : n < 2 ^ 64)
    (u : Uart) (lineptr : Nat → Nat) :
    ∃ r b u1, uart1_getline u lineptr n = some (r, b, u1)
      ∧ u1.pos = u.pos + r ∧ 1 ≤ r ∧ r ≤ n - 1
      ∧ (∀ i, i < r → b.mem i = foldCR (u.rx (u.pos + i)))
      ∧ (∀ i, i + 1 < r → b.mem i ≠ 10)
      ∧ (r = n - 1 ∨ b.mem (r - 1) = 10) := by
  have hl : size_pred n = n - 1 := size_pred_eq n (by omega) hn
  obtain ⟨r, b1, u1, he, h1, h2', h3, h4, h5, h6, h7, h8, h9⟩ :=
    uart1_getline_loop_spec (size_pred n) (by rw [hl]; omega) (size_pred n + 1) 0 ⟨lineptr, []⟩ u
      (Nat.zero_le _) (by omega)
  rw [hl] at h2' h9
  have hr : 1 ≤ r := by
    rcases h9 with h9 | ⟨h9, _⟩ <;> omega
  refine ⟨r, b1.store r 0, u1, ?_, ?_, hr, h2', ?_, ?_, ?_⟩
  · show uart1_getline_end
        (uart1_getline_loop (size_pred n) (size_pred n + 1) 0 ⟨lineptr, []⟩ u) = _
    rw [he]
    rfl
  · simpa using h4
  · intro i hi
    simp only [LineBuf.store]
    rw [Function.update_noteq (by omega), h7 i (by omega) hi]
    simp
  · intro i hi
    simp only [LineBuf.store]
    rw [Function.update_noteq (by omega)]
    exact h8 i (by omega) hi
  · rcases h9 with h9 | ⟨_, h9⟩
    · left; exact h9
    · right
      simp only [LineBuf.store]
      rw [Function.update_noteq (by omega)]
      exact h9

/-- Capacity 80 on the input `h`, `i`, `'\r'`, `x`. -/
theorem uart1_getline_contents_witness :
    ∃ r b u1, uart1_getline ⟨fun k => [104, 105, 13, 120].getD k 0, 0, []⟩ (fun _ => 7) 80
        = some (r, b, u1)
      ∧ u1.pos = 0 + r ∧ 1 ≤ r ∧ r ≤ 80 - 1
      ∧ (∀ i, i < r → b.mem i = foldCR ([104, 105, 13, 120].getD (0 + i) 0))
      ∧ (∀ i, i + 1 < r → b.mem i ≠ 10)
      ∧ (r = 80 - 1 ∨ b.mem (r - 1) = 10) :=
  uart1_getline_contents 80 (by decide) (by decide)
    ⟨fun k => [104, 105, 13, 120].getD k 0, 0, []⟩ (fun _ => 7)

/-! ## The tokenizer -/

theorem is_delim_eq_inSet (delim : List Nat) (h0 : 0 ∉ delim) (c : Nat) :
    is_delim c delim = inSet delim c := by
  induction delim with
  | nil => simp [is_delim, inSet]
  | cons d ds ih =>
    have hd : d ≠ 0 := fun h => h0 (by simp [h])
    have hds : 0 ∉ ds := fun h => h0 (by simp [h])
    simp only [is_delim, hd, if_false]
    by_cases hc : c = d
    · simp [hc, inSet]
    · simp only [hc, if_false, ih hds]
      simp [inSet, hc]

theorem tokensOf_delims (delims ds : List Nat) (hds : ∀ c ∈ ds, inSet delims c = true) :
    tokensOf delims ds = [] := by
  induction ds with
  | nil => simp [tokensOf]
  | cons d ds ih =>
    have h1 := hds d (by simp)
    have h2 := ih (fun c hc => hds c (by simp [hc]))
    simp only [tokensOf, List.splitOnP_cons, h1, if_true] at h2 ⊢
    simpa using h2

theorem tokensOf_skip (delims ds s : List Nat) (hds : ∀ c ∈ ds, inSet delims c = true) :
    tokensOf delims (ds ++ s) = tokensOf delims s := by
  induction ds with
  | nil => simp
  | cons d ds ih =>
    have h1 := hds d (by simp)
    have h2 := ih (fun c hc => hds c (by simp [hc]))
    rw [← h2]
    simp only [tokensOf, List.cons_append, List.splitOnP_cons, h1, if_true]
    simp

theorem tokensOf_last (delims t : List Nat) (hne : t ≠ [])
    (ht : ∀ c ∈ t, inSet delims c = false) :
    tokensOf delims t = [t] := by
  have := List.splitOnP_eq_single (inSet delims) t (fun x hx => by simp [ht x hx])
  simp [tokensOf, this, hne]

theorem tokensOf_run (delims t a : List Nat) (d : Nat) (hne : t ≠ [])
    (ht : ∀ c ∈ t, inSet delims c = false) (hd : inSet delims d = true) :
    tokensOf delims (t ++ d :: a) = t :: tokensOf delims a := by
  have := List.splitOnP_first (inSet delims) t (fun x hx => by simp [ht x hx]) d hd a
  simp [tokensOf, this, hne]

/-- Every string is a run of delimiters, possibly followed by a token, possibly
followed by a delimiter and a remainder. -/
theorem line_decomp (delims s : List Nat) :
    (∀ c ∈ s, inSet delims c = true)
    ∨ (∃ ds t, s = ds ++ t ∧ t ≠ [] ∧ (∀ c ∈ ds, inSet delims c = true)
        ∧ (∀ c ∈ t, inSet delims c = false))
    ∨ (∃ ds t d a, s = ds ++ t ++ d :: a ∧ t ≠ [] ∧ (∀ c ∈ ds, inSet delims c = true)
        ∧ (∀ c ∈ t, inSet delims c = false) ∧ inSet delims d = true) := by
  induction s with
  | nil => left; simp
  | cons x xs ih =>
    by_cases hx : inSet delims x = true
    · rcases ih with h | ⟨ds, t, rfl, h1, h2, h3⟩ | ⟨ds, t, d, a, rfl, h1, h2, h3, h4⟩
      · left
        intro c hc
        rcases List.mem_cons.1 hc with rfl | hc
        · exact hx
        · exact h c hc
      · right; left
        refine ⟨x :: ds, t, by simp, h1, ?_, h3⟩
        intro c hc
        rcases List.mem_cons.1 hc with rfl | hc
        · exact hx
        · exact h2 c hc
      · right; right
        refine ⟨x :: ds, t, d, a, by simp, h1, ?_, h3, h4⟩
        intro c hc
        rcases List.mem_cons.1 hc with rfl | hc
        · exact hx
        · exact h2 c hc
    · have hx' : inSet delims x = false := by simpa using hx
      rcases ih with h | ⟨ds, t, rfl, h1, h2, h3⟩ | ⟨ds, t, d, a, rfl, h1, h2, h3, h4⟩
      · cases xs with
        | nil =>
          right; left
          exact ⟨[], [x], by simp, by simp, by simp, by simpa using hx'⟩
        | cons y ys =>
          right; right
          refine ⟨[], [x], y, ys, by simp, by simp, by simp, by simpa using hx', ?_⟩
          exact h y (by simp)
      · cases ds with
        | nil =>
          right; left
          refine ⟨[], x :: t, by simp, by simp, by simp, ?_⟩
          intro c hc
          rcases List.mem_cons.1 hc with rfl | hc
          · exact hx'
          · exact h3 c hc
        | cons y ys =>
          right; right
          refine ⟨[], [x], y, ys ++ t, by simp, by simp, by simp, by simpa using hx', ?_⟩
          exact h2 y (by simp)
      · cases ds with
        | nil =>
          right; right
          refine ⟨[], x :: t, d, a, by simp, by simp, by simp, ?_, h4⟩
          intro c hc
          rcases List.mem_cons.1 hc with rfl | hc
          · exact hx'
          · exact h3 c hc
        | cons y ys =>
          right; right
          refine ⟨[], [x], y, ys ++ t ++ d :: a, by simp, by simp, by simp, by simpa using hx', ?_⟩
          exact h2 y (by simp)

theorem charAt_append_mid (pre post : List Nat) (c : Nat) :
    charAt (pre ++ c :: post) pre.length = c := by
  unfold charAt
  rw [List.getD_eq_getElem?_getD, List.getElem?_append_right (Nat.le_refl _)]
  simp

theorem inSet_ne_zero (delim : List Nat) (h0 : 0 ∉ delim) (c : Nat)
    (hc : inSet delim c = true) : c ≠ 0 := by
  intro h
  subst h
  simp [inSet] at hc
  exact h0 hc

theorem strtok_skip_run (delim : List Nat) (h0 : 0 ∉ delim) (ds tail : List Nat)
    (hds : ∀ c ∈ ds, inSet delim c = true) :
    ∀ (P : List Nat) (fuel : Nat),
      strtok_skip delim (P ++ ds ++ tail) (fuel + ds.length) P.length
        = strtok_skip delim (P ++ ds ++ tail) fuel (P.length + ds.length) := by
  induction ds with
  | nil => intro P fuel; simp
  | cons d ds ih =>
    intro P fuel
    have hd := hds d (by simp)
    have hd0 := inSet_ne_zero delim h0 d hd
    have key := ih (fun c hc => hds c (by simp [hc])) (P ++ [d]) fuel
    have e1 : P ++ [d] ++ ds ++ tail = P ++ d :: ds ++ tail := by simp
    rw [e1] at key
    have e2 : fuel + (d :: ds).length = (fuel + ds.length) + 1 := by
      simp only [List.length_cons]; omega
    have e3 : charAt (P ++ d :: ds ++ tail) P.length = d := by
      have := charAt_append_mid P (ds ++ tail) d
      simpa using this
    rw [e2, strtok_skip, e3]
    simp only [hd0, if_false, is_delim_eq_inSet delim h0, hd, Bool.not_true]
    simp only [List.length_append, List.length_singleton] at key
    rw [key]
    have e7 : P.length + 1 + ds.length = P.length + (d :: ds).length := by
      simp only [List.length_cons]; omega
    rw [e7]
    simp

theorem strtok_scan_run (delim : List Nat) (h0 : 0 ∉ delim) (t tail : List Nat)
    (ht : ∀ c ∈ t, inSet delim c = false) (ht0 : 0 ∉ t) :
    ∀ (P : List Nat) (fuel : Nat),
      strtok_scan delim (P ++ t ++ tail) (fuel + t.length) P.length
        = strtok_scan delim (P ++ t ++ tail) fuel (P.length + t.length) := by
  induction t with
  | nil => intro P fuel; simp
  | cons d ds ih =>
    intro P fuel
    have hd := ht d (by simp)
    have hd0 : d ≠ 0 := fun h => ht0 (by simp [h])
    have key := ih (fun c hc => ht c (by simp [hc])) (fun h => ht0 (by simp [h])) (P ++ [d]) fuel
    have e1 : P ++ [d] ++ ds ++ tail = P ++ d :: ds ++ tail := by simp
    rw [e1] at key
    have e2 : fuel + (d :: ds).length = (fuel + ds.length) + 1 := by
      simp only [List.length_cons]; omega
    have e3 : charAt (P ++ d :: ds ++ tail) P.length = d := by
      have := charAt_append_mid P (ds ++ tail) d
      simpa using this
    rw [e2, strtok_scan, e3]
    simp only [hd0, if_false, is_delim_eq_inSet delim h0, hd]
    simp only [List.length_append, List.length_singleton] at key
    rw [key]
    have e7 : P.length + 1 + ds.length = P.length + (d :: ds).length := by
      simp only [List.length_cons]; omega
    rw [e7]
    simp

theorem strtok_skip_nul (delim : List Nat) (h0 : 0 ∉ delim) (P ds rest mem : List Nat)
    (F : Nat) (hds : ∀ c ∈ ds, inSet delim c = true)
    (hm : mem = P ++ ds ++ 0 :: rest) (hF : ds.length < F) :
    strtok_skip delim mem F P.length = some none := by
  obtain ⟨k, rfl⟩ : ∃ k, F = (k + 1) + ds.length := ⟨F - ds.length - 1, by omega⟩
  subst hm
  rw [strtok_skip_run delim h0 ds (0 :: rest) hds P, strtok_skip]
  have e3 : charAt (P ++ ds ++ 0 :: rest) (P.length + ds.length) = 0 := by
    have := charAt_append_mid (P ++ ds) rest 0
    simpa using this
  simp only [e3, if_true]

theorem strtok_skip_tok (delim : List Nat) (h0 : 0 ∉ delim) (P ds tl mem : List Nat) (x : Nat)
    (F : Nat) (hds : ∀ c ∈ ds, inSet delim c = true) (hx0 : x ≠ 0) (hx : inSet delim x = false)
    (hm : mem = P ++ ds ++ x :: tl) (hF : ds.length < F) :
    strtok_skip delim mem F P.length = some (some (P.length + ds.length)) := by
  obtain ⟨k, rfl⟩ : ∃ k, F = (k + 1) + ds.length := ⟨F - ds.length - 1, by omega⟩
  subst hm
  rw [strtok_skip_run delim h0 ds (x :: tl) hds P, strtok_skip]
  have e3 : charAt (P ++ ds ++ x :: tl) (P.length + ds.length) = x := by
    have := charAt_append_mid (P ++ ds) tl x
    simpa using this
  simp only [e3, hx0, if_false, is_delim_eq_inSet delim h0, hx, Bool.not_false, if_true]

theorem strtok_scan_nul (delim : List Nat) (h0 : 0 ∉ delim) (Q t rest mem : List Nat)
    (F q : Nat) (ht : ∀ c ∈ t, inSet delim c = false) (ht0 : 0 ∉ t)
    (hm : mem = Q ++ t ++ 0 :: rest) (hq : q = Q.length) (hF : t.length < F) :
    strtok_scan delim mem F q = some (q + t.length, true) := by
  obtain ⟨k, rfl⟩ : ∃ k, F = (k + 1) + t.length := ⟨F - t.length - 1, by omega⟩
  subst hm hq
  rw [strtok_scan_run delim h0 t (0 :: rest) ht ht0 Q, strtok_scan]
  have e3 : charAt (Q ++ t ++ 0 :: rest) (Q.length + t.length) = 0 := by
    have := charAt_append_mid (Q ++ t) rest 0
    simpa using this
  simp only [e3, if_true]

theorem strtok_scan_delim (delim : List Nat) (h0 : 0 ∉ delim) (Q t tl mem : List Nat) (d : Nat)
    (F q : Nat) (ht : ∀ c ∈ t, inSet delim c = false) (ht0 : 0 ∉ t)
    (hd : inSet delim d = true)
    (hm : mem = Q ++ t ++ d :: tl) (hq : q = Q.length) (hF : t.length < F) :
    strtok_scan delim mem F q = some (q + t.length, false) := by
  obtain ⟨k, rfl⟩ : ∃ k, F = (k + 1) + t.length := ⟨F - t.length - 1, by omega⟩
  subst hm hq
  have hd0 := inSet_ne_zero delim h0 d hd
  rw [strtok_scan_run delim h0 t (d :: tl) ht ht0 Q, strtok_scan]
  have e3 : charAt (Q ++ t ++ d :: tl) (Q.length + t.length) = d := by
    have := charAt_append_mid (Q ++ t) tl d
    simpa using this
  simp only [e3, hd0, if_false, is_delim_eq_inSet delim h0, hd, if_true]

theorem strtok_r_null (delim mem : List Nat) :
    strtok_r none delim ⟨mem, none⟩ = some (none, ⟨mem, none⟩) := by
  simp [strtok_r]

/-- Only delimiters before the terminator: `strtok_r` returns `NULL` and changes nothing. -/
theorem strtok_r_delims (delim : List Nat) (h0 : 0 ∉ delim) (P ds rest : List Nat)
    (str sp : Option Nat) (hcur : startCursor str sp = some P.length)
    (hds : ∀ c ∈ ds, inSet delim c = true) :
    strtok_r str delim ⟨P ++ ds ++ 0 :: rest, sp⟩ = some (none, ⟨P ++ ds ++ 0 :: rest, sp⟩) := by
  unfold strtok_r
  unfold startCursor at hcur
  simp only [hcur]
  rw [strtok_skip_nul delim h0 P ds rest _ _ hds rfl
    (by simp only [List.length_append, List.length_cons]; omega)]

/-- Delimiters, then a token running up to the terminator. -/
theorem strtok_r_last (delim : List Nat) (h0 : 0 ∉ delim) (P ds t rest : List Nat)
    (str sp : Option Nat) (hcur : startCursor str sp = some P.length)
    (hds : ∀ c ∈ ds, inSet delim c = true) (hne : t ≠ [])
    (ht : ∀ c ∈ t, inSet delim c = false) (ht0 : 0 ∉ t) :
    strtok_r str delim ⟨P ++ ds ++ t ++ 0 :: rest, sp⟩
      = some (some (P.length + ds.length), ⟨P ++ ds ++ t ++ 0 :: rest, none⟩) := by
  unfold strtok_r
  unfold startCursor at hcur
  simp only [hcur]
  obtain ⟨x, xs, rfl⟩ := List.exists_cons_of_ne_nil hne
  have hx := ht x (by simp)
  have hx0 : x ≠ 0 := fun h => ht0 (by simp [h])
  rw [strtok_skip_tok delim h0 P ds (xs ++ 0 :: rest) _ x _ hds hx0 hx (by simp)
    (by simp only [List.length_append, List.length_cons]; omega)]
  simp only
  rw [strtok_scan_nul delim h0 (P ++ ds) (x :: xs) rest _ _ _ ht ht0 rfl (by simp)
    (by simp only [List.length_append, List.length_cons]; omega)]

/-- Delimiters, a token, a delimiter: the delimiter is overwritten with the
terminator and `saveptr` points right after it. -/
theorem strtok_r_run (delim : List Nat) (h0 : 0 ∉ delim) (P ds t a rest : List Nat) (d : Nat)
    (str sp : Option Nat) (hcur : startCursor str sp = some P.length)
    (hds : ∀ c ∈ ds, inSet delim c = true) (hne : t ≠ [])
    (ht : ∀ c ∈ t, inSet delim c = false) (ht0 : 0 ∉ t) (hd : inSet delim d = true) :
    strtok_r str delim ⟨P ++ ds ++ t ++ d :: a ++ 0 :: rest, sp⟩
      = some (some (P.length + ds.length),
          ⟨P ++ ds ++ t ++ 0 :: a ++ 0 :: rest, some (P.length + ds.length + t.length + 1)⟩) := by
  unfold strtok_r
  unfold startCursor at hcur
  simp only [hcur]
  obtain ⟨x, xs, rfl⟩ := List.exists_cons_of_ne_nil hne
  have hx := ht x (by simp)
  have hx0 : x ≠ 0 := fun h => ht0 (by simp [h])
  rw [strtok_skip_tok delim h0 P ds (xs ++ d :: a ++ 0 :: rest) _ x _ hds hx0 hx (by simp)
    (by simp only [List.length_append, List.length_cons]; omega)]
  simp only
  rw [strtok_scan_delim delim h0 (P ++ ds) (x :: xs) (a ++ 0 :: rest) _ d _ _ ht ht0 hd
    (by simp) (by simp)
    (by simp only [List.length_append, List.length_cons]; omega)]
  simp only
  have e9 : (P ++ ds ++ (x :: xs) ++ d :: a ++ 0 :: rest).set
      (P.length + ds.length + (x :: xs).length) 0 = P ++ ds ++ (x :: xs) ++ 0 :: a ++ 0 :: rest := by
    have h1 : P.length + ds.length + (x :: xs).length = (P ++ ds ++ (x :: xs)).length := by
      simp only [List.length_append]
    have h2 : P ++ ds ++ (x :: xs) ++ d :: a ++ 0 :: rest
        = (P ++ ds ++ (x :: xs)) ++ (d :: (a ++ 0 :: rest)) := by simp
    rw [h1, h2, List.set_append_right _ _ (Nat.le_refl _)]
    simp
  rw [e9]

/-- A call of `strtok_r` on the rest of the line followed by the loop of
`to_argv` finds each token of the rest, in order. -/
theorem to_argv_run (delim : List Nat) (h0 : 0 ∉ delim) (max_argc : Nat) :
    ∀ (n : Nat) (suffix : List Nat), suffix.length ≤ n → 0 ∉ suffix →
    ∀ (P rest : List Nat) (k : Nat) (av : Argv) (str sp : Option Nat) (fuel : Nat),
      startCursor str sp = some P.length → suffix.length + 2 ≤ fuel →
      k + (tokensOf delim suffix).length < 2 ^ 64 →
      ∃ cur1 st1, strtok_r str delim ⟨P ++ suffix ++ 0 :: rest, sp⟩ = some (cur1, st1) ∧
        ∃ ptrs st2, to_argv_loop delim max_argc fuel cur1 k av st1
            = some (k + (tokensOf delim suffix).length, storeAll max_argc av k ptrs, st2)
          ∧ (∃ tail, st2.mem = P ++ tail)
          ∧ List.Forall₂ (fun p t => (∃ A B, st2.mem = A ++ t ++ 0 :: B ∧ A.length = p ∧ 0 ∉ t)
                ∧ t ≠ [] ∧ ∀ c ∈ t, inSet delim c = false)
              ptrs (tokensOf delim suffix) := by
  intro n
  induction n with
  | zero =>
    intro suffix hlen _ P rest k av str sp fuel hcur hfuel _
    have hs : suffix = [] := List.length_eq_zero.1 (by omega)
    subst hs
    obtain ⟨f, rfl⟩ : ∃ f, fuel = f + 1 := ⟨fuel - 1, by omega⟩
    have h := strtok_r_delims delim h0 P [] rest str sp hcur (by simp)
    refine ⟨none, _, h, [], ⟨P ++ [] ++ 0 :: rest, sp⟩, ?_, ⟨0 :: rest, by simp⟩, ?_⟩
    · simp [to_argv_loop, tokensOf, storeAll]
    · simp [tokensOf]
  | succ n ih =>
    intro suffix hlen hs0 P rest k av str sp fuel hcur hfuel hk
    rcases line_decomp delim suffix with hA | ⟨ds, t, rfl, hne, hds, ht⟩
        | ⟨ds, t, d, a, rfl, hne, hds, ht, hd⟩
    · obtain ⟨f, rfl⟩ : ∃ f, fuel = f + 1 := ⟨fuel - 1, by omega⟩
      have h := strtok_r_delims delim h0 P suffix rest str sp hcur hA
      refine ⟨none, _, h, [], ⟨P ++ suffix ++ 0 :: rest, sp⟩, ?_, ⟨suffix ++ 0 :: rest, by simp⟩, ?_⟩
      · simp [to_argv_loop, tokensOf_delims delim suffix hA, storeAll]
      · simp [tokensOf_delims delim suffix hA]
    · obtain ⟨f, rfl⟩ : ∃ f, fuel = f + 2 := ⟨fuel - 2, by omega⟩
      have ht0 : 0 ∉ t := fun h => hs0 (by simp [h])
      have h := strtok_r_last delim h0 P ds t rest str sp hcur hds hne ht ht0
      have htok : tokensOf delim (ds ++ t) = [t] := by
        rw [tokensOf_skip delim ds t hds, tokensOf_last delim t hne ht]
      have hlt : 0 < t.length := List.length_pos.2 hne
      have hk1 : (k + 1) % 2 ^ 64 = k + 1 := Nat.mod_eq_of_lt (by
        rw [htok] at hk; simpa using hk)
      have e : P ++ (ds ++ t) = P ++ ds ++ t := by simp
      rw [e]
      refine ⟨some (P.length + ds.length), _, h, [P.length + ds.length],
        ⟨P ++ ds ++ t ++ 0 :: rest, none⟩, ?_, ⟨ds ++ t ++ 0 :: rest, by simp⟩, ?_⟩
      · rw [to_argv_loop]
        simp only [strtok, strtok_r_null, hk1, htok, storeAll, to_argv_loop, List.length_singleton]
      · rw [htok]
        refine List.Forall₂.cons ⟨⟨P ++ ds, rest, by simp, by simp, ht0⟩, hne, ht⟩ List.Forall₂.nil
    · obtain ⟨f, rfl⟩ : ∃ f, fuel = f + 1 := ⟨fuel - 1, by omega⟩
      have ht0 : 0 ∉ t := fun h => hs0 (by simp [h])
      have ha0 : 0 ∉ a := fun h => hs0 (by simp [h])
      have h := strtok_r_run delim h0 P ds t a rest d str sp hcur hds hne ht ht0 hd
      have htok : tokensOf delim (ds ++ t ++ d :: a) = t :: tokensOf delim a := by
        rw [List.append_assoc, tokensOf_skip delim ds _ hds, tokensOf_run delim t a d hne ht hd]
      have hlt : 0 < t.length := List.length_pos.2 hne
      simp only [List.length_append, List.length_cons] at hlen hfuel
      rw [htok, List.length_cons] at hk
      have hk1 : (k + 1) % 2 ^ 64 = k + 1 := Nat.mod_eq_of_lt (by omega)
      obtain ⟨cur2, st2, hstep, ptrs, st3, hloop, ⟨tail, htail⟩, hall⟩ :=
        ih a (by omega) ha0 (P ++ ds ++ t ++ [0]) rest (k + 1)
          (if k < max_argc then av.store k (P.length + ds.length) else av) none
          (some (P.length + ds.length + t.length + 1)) f
          (by simp only [startCursor, List.length_append, List.length_singleton])
          (by omega) (by omega)
      have emem : P ++ ds ++ t ++ [0] ++ a ++ 0 :: rest = P ++ ds ++ t ++ 0 :: a ++ 0 :: rest := by
        simp
      rw [emem] at hstep
      have e : P ++ (ds ++ t ++ d :: a) = P ++ ds ++ t ++ d :: a := by simp
      rw [e]
      refine ⟨some (P.length + ds.length), _, h, (P.length + ds.length) :: ptrs, st3,
        ?_, ⟨ds ++ t ++ 0 :: tail, by rw [htail]; simp⟩, ?_⟩
      · rw [to_argv_loop]
        simp only [strtok, hstep, hk1, hloop, htok, storeAll, List.length_cons]
        congr 2
        omega
      · rw [htok]
        refine List.Forall₂.cons ⟨⟨P ++ ds, tail, by rw [htail]; simp, by simp, ht0⟩, hne, ht⟩ hall

theorem storeAll_writes (max_argc : Nat) (ps : List Nat) : ∀ (av : Argv) (k : Nat),
    (storeAll max_argc av k ps).writes
      = av.writes ++ List.range' k (min (k + ps.length) max_argc - k) := by
  induction ps with
  | nil => intro av k; simp [storeAll]
  | cons p ps ih =>
    intro av k
    rw [storeAll, ih]
    by_cases hk : k < max_argc
    · simp only [hk, if_true, Argv.store, List.length_cons, List.append_assoc,
        List.append_cancel_left_eq]
      have : min (k + (ps.length + 1)) max_argc - k
          = (min (k + 1 + ps.length) max_argc - (k + 1)) + 1 := by omega
      rw [this, List.range'_succ]
      simp
    · simp only [hk, if_false, List.length_cons]
      have e1 : min (k + 1 + ps.length) max_argc - (k + 1) = 0 := by omega
      have e2 : min (k + (ps.length + 1)) max_argc - k = 0 := by omega
      rw [e1, e2]
      simp

theorem storeAll_slot_other (max_argc : Nat) (ps : List Nat) : ∀ (av : Argv) (k i : Nat),
    (i < k ∨ min (k + ps.length) max_argc ≤ i) →
    (storeAll max_argc av k ps).slot i = av.slot i := by
  induction ps with
  | nil => intro av k i _; simp [storeAll]
  | cons p ps ih =>
    intro av k i hi
    rw [storeAll, ih _ _ _ (by simp only [List.length_cons] at hi; omega)]
    by_cases hk : k < max_argc
    · simp only [hk, if_true, Argv.store]
      rw [Function.update_noteq]
      simp only [List.length_cons] at hi
      omega
    · simp only [hk, if_false]

theorem storeAll_slot (max_argc : Nat) (ps : List Nat) : ∀ (av : Argv) (k j : Nat)
    (hj : j < ps.length), k + j < max_argc →
    (storeAll max_argc av k ps).slot (k + j) = ps[j] := by
  induction ps with
  | nil => intro av k j hj; simp at hj
  | cons p ps ih =>
    intro av k j hj hlt
    rw [storeAll]
    cases j with
    | zero =>
      rw [storeAll_slot_other _ _ _ _ _ (Or.inl (by omega))]
      have hk : k < max_argc := by omega
      simp [hk, Argv.store]
    | succ j =>
      have := ih (if k < max_argc then av.store k p else av) (k + 1) j
        (by simpa using hj) (by omega)
      have e : k + (j + 1) = k + 1 + j := by omega
      rw [e, this]
      simp

theorem cstr_of_split (A t B : List Nat) (h0 : 0 ∉ t) :
    cstr (A ++ t ++ 0 :: B) A.length = t := by
  unfold cstr
  rw [List.append_assoc, List.drop_left, List.takeWhile_append_of_pos]
  · simp
  · intro c hc
    have : c ≠ 0 := fun h => h0 (h ▸ hc)
    simpa using this

/-- What `to_argv` does on a NUL-terminated line, for any delimiter string. -/
theorem to_argv_delim_spec (delim : List Nat) (hd0 : 0 ∉ delim) (line rest : List Nat)
    (sp : Option Nat) (argv : Nat → Nat) (max_argc : Nat) (h0 : 0 ∉ line)
    (hcount : (tokensOf delim line).length < 2 ^ 64) :
    ∃ av st, to_argv_delim delim ⟨line ++ 0 :: rest, sp⟩ argv max_argc
        = some ((tokensOf delim line).length, av, st)
      ∧ av.writes = List.range (min (tokensOf delim line).length max_argc)
      ∧ (∀ i, min (tokensOf delim line).length max_argc ≤ i → av.slot i = argv i)
      ∧ (∀ i (hi : i < (tokensOf delim line).length), i < max_argc →
          cstr st.mem (av.slot i) = (tokensOf delim line)[i])
      ∧ (∀ t ∈ tokensOf delim line, t ≠ [] ∧ ∀ c ∈ t, c ∉ delim) := by
  obtain ⟨cur1, st1, hstep, ptrs, st2, hloop, _, hall⟩ :=
    to_argv_run delim hd0 max_argc line.length line (le_refl _) h0 [] rest 0 ⟨argv, []⟩
      (some 0) sp ((line ++ 0 :: rest).length + 2) (by simp [startCursor])
      (by simp only [List.length_append, List.length_cons]; omega) (by simpa using hcount)
  simp only [List.nil_append, Nat.zero_add] at hstep hloop
  have hlen := hall.length_eq
  refine ⟨storeAll max_argc ⟨argv, []⟩ 0 ptrs, st2, ?_, ?_, ?_, ?_, ?_⟩
  · simp only [to_argv_delim, strtok, hstep, hloop]
  · rw [storeAll_writes, hlen]
    simp [List.range_eq_range']
  · intro i hi
    rw [storeAll_slot_other _ _ _ _ _ (Or.inr (by rw [hlen]; simpa using hi))]
  · intro i hi hlt
    have h1 := storeAll_slot max_argc ptrs ⟨argv, []⟩ 0 i (by omega) (by omega)
    rw [Nat.zero_add] at h1
    rw [h1]
    have h2 := List.Forall₂.get hall (by omega : i < ptrs.length) hi
    obtain ⟨⟨A, B, hm, hA, ht0⟩, _⟩ := h2
    simp only [List.get_eq_getElem] at hm hA ht0
    rw [hm, ← hA]
    exact cstr_of_split A _ B ht0
  · intro t ht
    have hgen : ∀ (ps : List Nat) (ts : List (List Nat)),
        List.Forall₂ (fun p t => (∃ A B, st2.mem = A ++ t ++ 0 :: B ∧ A.length = p ∧ 0 ∉ t)
          ∧ t ≠ [] ∧ ∀ c ∈ t, inSet delim c = false) ps ts →
        ∀ t ∈ ts, t ≠ [] ∧ ∀ c ∈ t, inSet delim c = false := by
      intro ps ts h
      induction h with
      | nil => intro t ht; simp at ht
      | cons hab _ ih =>
        intro t ht
        rcases List.mem_cons.1 ht with rfl | ht
        · exact hab.2
        · exact ih t ht
    obtain ⟨h1, h2⟩ := hgen ptrs _ hall t ht
    refine ⟨h1, fun c hc => ?_⟩
    simpa [inSet] using h2 c hc

/-- Claim C5 as stated fails on the empty string: it contains no delimiter, yet
tokenising it (delimiter set: space) yields zero tokens, not one. -/
theorem tokenize_empty_string_counterexample :
    (∀ c ∈ ([] : List Nat), c ∉ [32])
      ∧ (to_argv_delim [32] ⟨[] ++ 0 :: [], none⟩ (fun _ => 0) 4).map (fun r => r.1) = some 0
      ∧ (to_argv_delim [32] ⟨[] ++ 0 :: [], none⟩ (fun _ => 0) 4).map (fun r => r.1) ≠ some 1 := by
  decide

/-- Claim C5, amended. For every delimiter string `delim`: tokenising (calling
`strtok` until it returns `NULL`, as `to_argv` does) a non-empty string `s`
that contains no delimiter yields exactly one token, and the string at its
pointer is `s`; tokenising a string `ds` made of delimiters only yields zero
tokens and stores no pointer. -/
theorem tokenize_single_or_none (delim s ds rest : List Nat) (sp : Option Nat)
    (argv : Nat → Nat) (max_argc : Nat) (hd0 : 0 ∉ delim) (hs0 : 0 ∉ s) (hne : s ≠ [])
    (hs : ∀ c ∈ s, c ∉ delim) (hds : ∀ c ∈ ds, c ∈ delim) (hmax : 1 ≤ max_argc) :
    (∃ av st, to_argv_delim delim ⟨s ++ 0 :: rest, sp⟩ argv max_argc = some (1, av, st)
        ∧ cstr st.mem (av.slot 0) = s)
      ∧ (∃ av st, to_argv_delim delim ⟨ds ++ 0 :: rest, sp⟩ argv max_argc = some (0, av, st)
        ∧ av.writes = []) := by
  have e1 : tokensOf delim s = [s] :=
    tokensOf_last delim s hne (fun c hc => by simpa [inSet] using hs c hc)
  have e2 : tokensOf delim ds = [] :=
    tokensOf_delims delim ds (fun c hc => by simpa [inSet] using hds c hc)
  have hds0 : 0 ∉ ds := fun h => hd0 (hds 0 h)
  constructor
  · obtain ⟨av, st, h1, _, _, h4, _⟩ :=
      to_argv_delim_spec delim hd0 s rest sp argv max_argc hs0 (by rw [e1]; simp)
    rw [e1] at h1
    refine ⟨av, st, h1, ?_⟩
    have := h4 0 (by rw [e1]; simp) (by omega)
    simpa [e1] using this
  · obtain ⟨av, st, h1, h2, _⟩ :=
      to_argv_delim_spec delim hd0 ds rest sp argv max_argc hds0 (by rw [e2]; simp)
    rw [e2] at h1 h2
    exact ⟨av, st, h1, by simpa using h2⟩

/-- Delimiters space and comma, on `"ab"` and on `", "` followed by a space. -/
theorem tokenize_single_or_none_witness :
    (∃ av st, to_argv_delim [32, 44] ⟨[97, 98] ++ 0 :: [7], none⟩ (fun _ => 0) 2 = some (1, av, st)
        ∧ cstr st.mem (av.slot 0) = [97, 98])
      ∧ (∃ av st, to_argv_delim [32, 44] ⟨[44, 32, 32] ++ 0 :: [7], none⟩ (fun _ => 0) 2
          = some (0, av, st) ∧ av.writes = []) :=
  tokenize_single_or_none [32, 44] [97, 98] [44, 32, 32] [7] none (fun _ => 0) 2
    (by decide) (by decide) (by decide) (by decide) (by decide) (by decide)

/-- Claim C6. For every NUL-terminated line and every `max_argc` at least the
number of tokens, `to_argv` returns as `argc` the number of maximal non-empty
runs of non-delimiter bytes of the line (`tokensOf`, for the delimiters space,
tab, `'\r'`, `'\n'`), and for each `i < argc` the string at `argv[i]` in the
buffer is the `i`-th run in left-to-right order; no token is empty and no token
contains a delimiter. -/
theorem to_argv_tokens (line rest : List Nat) (sp : Option Nat) (argv : Nat → Nat)
    (max_argc : Nat) (h0 : 0 ∉ line)
    (hcount : (tokensOf [32, 9, 13, 10] line).length < 2 ^ 64)
    (hmax : (tokensOf [32, 9, 13, 10] line).length ≤ max_argc) :
    ∃ av st, to_argv ⟨line ++ 0 :: rest, sp⟩ argv max_argc
        = some ((tokensOf [32, 9, 13, 10] line).length, av, st)
      ∧ (∀ i (hi : i < (tokensOf [32, 9, 13, 10] line).length),
          cstr st.mem (av.slot i) = (tokensOf [32, 9, 13, 10] line)[i])
      ∧ (∀ t ∈ tokensOf [32, 9, 13, 10] line, t ≠ [] ∧ ∀ c ∈ t, c ∉ [32, 9, 13, 10]) := by
  obtain ⟨av, st, h1, _, _, h4, h5⟩ :=
    to_argv_delim_spec [32, 9, 13, 10] (by decide) line rest sp argv max_argc h0 hcount
  exact ⟨av, st, h1, fun i hi => h4 i hi (by omega), h5⟩

/-- The line `" ls\t\t/\n"` with `max_argc = 2`. -/
theorem to_argv_tokens_witness :
    ∃ av st, to_argv ⟨[32, 108, 115, 9, 9, 47, 10] ++ 0 :: [7, 7], some 3⟩ (fun _ => 0) 2
        = some ((tokensOf [32, 9, 13, 10] [32, 108, 115, 9, 9, 47, 10]).length, av, st)
      ∧ (∀ i (hi : i < (tokensOf [32, 9, 13, 10] [32, 108, 115, 9, 9, 47, 10]).length),
          cstr st.mem (av.slot i) = (tokensOf [32, 9, 13, 10] [32, 108, 115, 9, 9, 47, 10])[i])
      ∧ (∀ t ∈ tokensOf [32, 9, 13, 10] [32, 108, 115, 9, 9, 47, 10],
          t ≠ [] ∧ ∀ c ∈ t, c ∉ [32, 9, 13, 10]) :=
  to_argv_tokens [32, 108, 115, 9, 9, 47, 10] [7, 7] (some 3) (fun _ => 0) 2
    (by decide) (by decide) (by decide)

/-- Claim C7. For every line and every `max_argc`, `to_argv` returns the total
number of tokens of the line; the slots of `argv` it stores to are exactly the
slots `0 .. min(argc, max_argc) - 1`, in this order, each below `max_argc`;
slot `i` among them points to the `i`-th token; every other slot of `argv` is
unchanged. -/
theorem to_argv_overflow (line rest : List Nat) (sp : Option Nat) (argv : Nat → Nat)
    (max_argc : Nat) (h0 : 0 ∉ line)
    (hcount : (tokensOf [32, 9, 13, 10] line).length < 2 ^ 64) :
    ∃ av st, to_argv ⟨line ++ 0 :: rest, sp⟩ argv max_argc
        = some ((tokensOf [32, 9, 13, 10] line).length, av, st)
      ∧ av.writes = List.range (min (tokensOf [32, 9, 13, 10] line).length max_argc)
      ∧ (∀ i ∈ av.writes, i < max_argc)
      ∧ (∀ i (hi : i < (tokensOf [32, 9, 13, 10] line).length), i < max_argc →
          cstr st.mem (av.slot i) = (tokensOf [32, 9, 13, 10] line)[i])
      ∧ (∀ i, min (tokensOf [32, 9, 13, 10] line).length max_argc ≤ i → av.slot i = argv i) := by
  obtain ⟨av, st, h1, h2, h3, h4, _⟩ :=
    to_argv_delim_spec [32, 9, 13, 10] (by decide) line rest sp argv max_argc h0 hcount
  refine ⟨av, st, h1, h2, ?_, h4, h3⟩
  intro i hi
  rw [h2, List.mem_range] at hi
  omega

/-- The line `"a b c"` with `max_argc = 2`: three tokens, two slots stored. -/
theorem to_argv_overflow_witness :
    ∃ av st, to_argv ⟨[97, 32, 98, 32, 99] ++ 0 :: [], none⟩ (fun _ => 5) 2
        = some ((tokensOf [32, 9, 13, 10] [97, 32, 98, 32, 99]).length, av, st)
      ∧ av.writes = List.range (min (tokensOf [32, 9, 13, 10] [97, 32, 98, 32, 99]).length 2)
      ∧ (∀ i ∈ av.writes, i < 2)
      ∧ (∀ i (hi : i < (tokensOf [32, 9, 13, 10] [97, 32, 98, 32, 99]).length), i < 2 →
          cstr st.mem (av.slot i) = (tokensOf [32, 9, 13, 10] [97, 32, 98, 32, 99])[i])
      ∧ (∀ i, min (tokensOf [32, 9, 13, 10] [97, 32, 98, 32, 99]).length 2 ≤ i →
          av.slot i = (fun _ => 5) i) :=
  to_argv_overflow [97, 32, 98, 32, 99] [] none (fun _ => 5) 2 (by decide) (by decide)

/-! ## The numeric parser -/

theorem strtou64_digit_lower {b c : Nat} (h : IsLowerDigit b c) :
    strtou64_digit c = some (digitValue c) ∧ digitValue c < b := by
  unfold IsLowerDigit at h
  unfold strtou64_digit digitValue
  rcases h with ⟨h1, h2, h3⟩ | ⟨h1, h2, h3⟩
  · simp [h1, h2, h3]
  · have : ¬ (c ≤ 57) := by omega
    have h4 : ¬ (48 ≤ c ∧ c ≤ 57) := by omega
    simp [h1, h2, this]
    constructor <;> omega

theorem charAt_append_end (pre : List Nat) : charAt pre pre.length = 0 := by
  simp [charAt, List.getD]

theorem valueFrom_mod (b : Nat) (s : List Nat) : ∀ acc : Nat,
    valueFrom b (acc % 2 ^ 64) s % 2 ^ 64 = valueFrom b acc s % 2 ^ 64 := by
  induction s with
  | nil => intro acc; simp [valueFrom]
  | cons c cs ih =>
    intro acc
    have h1 := ih ((acc % 2 ^ 64) * b + digitValue c)
    have h2 := ih (acc * b + digitValue c)
    simp only [valueFrom, List.foldl_cons] at *
    rw [← h1, ← h2]
    congr 2
    simp [Nat.add_mod, Nat.mul_mod]

/-- Running the loop over a block of valid lowercase digits. -/
theorem strtou64_loop_digits (b : Nat) (digits post : List Nat)
    (hd : ∀ c ∈ digits, IsLowerDigit b c) :
    ∀ (pre : List Nat) (acc fuel : Nat),
      strtou64_loop (pre ++ digits ++ post) b (fuel + digits.length) pre.length (acc % 2 ^ 64)
        = strtou64_loop (pre ++ digits ++ post) b fuel (pre.length + digits.length)
            (valueFrom b acc digits % 2 ^ 64) := by
  induction digits with
  | nil => intro pre acc fuel; simp [valueFrom]
  | cons d ds ih =>
    intro pre acc fuel
    have hd0 := strtou64_digit_lower (hd d (by simp))
    have hds : ∀ c ∈ ds, IsLowerDigit b c := fun c hc => hd c (by simp [hc])
    have key := ih hds (pre ++ [d]) (acc * b + digitValue d) fuel
    have e1 : pre ++ [d] ++ ds ++ post = pre ++ d :: ds ++ post := by simp
    rw [e1] at key
    have e2 : fuel + (d :: ds).length = (fuel + ds.length) + 1 := by simp; omega
    rw [e2, strtou64_loop]
    have e3 : charAt (pre ++ d :: ds ++ post) pre.length = d := by
      have := charAt_append_mid pre (ds ++ post) d
      simpa using this
    simp only [e3, hd0.1]
    have e4 : ¬ (digitValue d ≥ b) := by have := hd0.2; omega
    simp only [e4, if_false]
    have e5 : (acc % 2 ^ 64 * b + digitValue d) % 2 ^ 64 = (acc * b + digitValue d) % 2 ^ 64 := by
      simp [Nat.add_mod, Nat.mul_mod]
    rw [e5]
    simp only [List.length_append, List.length_singleton] at key
    rw [key]
    have e6 : valueFrom b (acc * b + digitValue d) ds = valueFrom b acc (d :: ds) := by
      simp [valueFrom]
    rw [e6]
    have e7 : pre.length + 1 + ds.length = pre.length + (d :: ds).length := by
      simp only [List.length_cons]; omega
    rw [e7]

/-- Claim C8. For every base `b` with `2 ≤ b ≤ 36` and every non-empty string
all of whose characters are digits of base `b` written with `'0'..'9'` and
lowercase `'a'..'z'`, `strtou64` returns the base-`b` value of the string
reduced modulo `2 ^ 64` and stores `NULL` in `*endptr` (input fully consumed). -/
theorem strtou64_all_digits (b : Nat) (s : List Nat) (hb : 2 ≤ b ∧ b ≤ 36) (hne : s ≠ [])
    (hs : ∀ c ∈ s, IsLowerDigit b c) :
    strtou64 s (b : Int) = some ⟨valueIn b s % 2 ^ 64, none⟩ := by
  unfold strtou64
  have h1 : ¬ ((b : Int) < 2 ∨ (b : Int) > 36) := by omega
  simp only [h1, if_false, Int.toNat_ofNat]
  have key := strtou64_loop_digits b s [] hs [] 0 1
  simp only [List.nil_append, List.append_nil, List.length_nil, Nat.zero_mod, Nat.zero_add] at key
  rw [Nat.add_comm, key, strtou64_loop]
  have hlen : s.length ≠ 0 := by simpa using hne
  simp [charAt_append_end, strtou64_digit, hlen, valueIn]

/-- The string `"ff"` in base 16 gives 255, fully consumed. -/
theorem strtou64_all_digits_witness :
    strtou64 [102, 102] ((16 : Nat) : Int) = some ⟨255, none⟩ :=
  strtou64_all_digits 16 [102, 102] (by decide) (by decide) (by decide)

/-- Claim C9. For every base `b` with `2 ≤ b ≤ 36` and every string made of at
least one lowercase or decimal digit of base `b`, followed by a character `c` of
the string (so not the NUL) that is not a digit of base `b` (not a decimal or
lowercase digit of value below `b`, and not `'A'` when `10 < b`, where `'A'` is
the digit ten), followed by anything, `strtou64` returns the value of the digits
modulo `2 ^ 64` and stores in `*endptr` the pointer to `c`, at index
`digits.length`. -/
theorem strtou64_stops_early (b : Nat) (digits post : List Nat) (c : Nat)
    (hb : 2 ≤ b ∧ b ≤ 36) (hne : digits ≠ [])
    (hs : ∀ d ∈ digits, IsLowerDigit b d)
    (hc0 : c ≠ 0) (hc : ¬ IsLowerDigit b c) (hcA : ¬ (c = 65 ∧ 10 < b)) :
    strtou64 (digits ++ c :: post) (b : Int)
      = some ⟨valueIn b digits % 2 ^ 64, some digits.length⟩ := by
  unfold strtou64
  have h1 : ¬ ((b : Int) < 2 ∨ (b : Int) > 36) := by omega
  simp only [h1, if_false, Int.toNat_ofNat]
  have key := strtou64_loop_digits b digits (c :: post) hs [] 0 (post.length + 2)
  simp only [List.nil_append, List.length_nil, Nat.zero_mod, Nat.zero_add] at key
  have e1 : (digits ++ c :: post).length + 1 = post.length + 2 + digits.length := by
    simp only [List.length_append, List.length_cons]; omega
  rw [e1, key, strtou64_loop]
  have hlen : digits.length ≠ 0 := by simpa using hne
  have e3 := charAt_append_mid digits post c
  simp only [e3, hlen, if_false, hc0, valueIn]
  unfold IsLowerDigit at hc
  unfold strtou64_digit
  by_cases c1 : 48 ≤ c ∧ c ≤ 57
  · have : c - 48 ≥ b := by omega
    simp [c1, this]
  · by_cases c2 : 97 ≤ c ∧ c ≤ 122
    · have : 10 + c - 97 ≥ b := by omega
      simp only [c1, c2, if_false, if_true, this]
      simp
      intro h; omega
    · by_cases c3 : 65 ≤ c ∧ c ≤ 65
      · have c4 : c = 65 := by omega
        have : 10 + c - 65 ≥ b := by omega
        simp only [c1, c2, c3, if_false, if_true, this]
        simp
        intro h; omega
      · simp only [c1, c2, c3, if_false]

/-- The string `"12x"` in base 10 gives 12 and stops at index 2. -/
theorem strtou64_stops_early_witness :
    strtou64 [49, 50, 120] (10 : Nat) = some ⟨valueIn 10 [49, 50] % 2 ^ 64, some 2⟩ :=
  strtou64_stops_early 10 [49, 50] [] 120 (by decide) (by decide) (by decide) (by decide)
    (by decide) (by decide)

/-- Claim C10, the code at the failing input. In base 16 the string `"F"`,
whose first character is a valid digit of the base, gives value 0 with the end
pointer at the start of the input (no character consumed), whereas `"f"` gives
15 and `"A"` gives 10, both fully consumed: the branch for uppercase letters
tests the range `'A'..'A'` where `'A'..'Z'` is meant. -/
theorem strtou64_uppercase_digit_rejected :
    strtou64 [70] 16 = some ⟨0, some 0⟩
      ∧ strtou64 [102] 16 = some ⟨15, none⟩
      ∧ strtou64 [65] 16 = some ⟨10, none⟩ := by
  decide

/-! ## The formatter: hexadecimal directives -/

theorem nibble_eq (v k : Nat) : (v >>> (4 * k)) &&& 0xf = v / 16 ^ k % 16 := by
  have h := Nat.and_pow_two_sub_one_eq_mod (v >>> (4 * k)) 4
  have e : (2 : Nat) ^ 4 - 1 = 0xf := by norm_num
  rw [e] at h
  rw [h, Nat.shiftRight_eq_div_pow, Nat.pow_mul]

theorem print_hex_eq (v : Nat) : ∀ (k : Nat) (u : Uart),
    print_hex v k u = ⟨u.rx, u.pos, u.tx ++ hexDigits v k⟩ := by
  intro k
  induction k with
  | zero => intro u; simp [print_hex, hexDigits]
  | succ k ih =>
    intro u
    rw [print_hex]
    simp only [nibble_eq]
    by_cases hd : v / 16 ^ k % 16 ≤ 9
    · simp [hd, ih, uart1_putc, hexDigits, hexChar]
    · simp [hd, ih, uart1_putc, hexDigits, hexChar]

theorem hexChar_spec (d : Nat) (hd : d < 16) : IsHexChar (hexChar d) ∧ digitValue (hexChar d) = d := by
  unfold hexChar IsHexChar digitValue
  by_cases h : d ≤ 9
  · simp only [h, if_true]
    have : 48 + d ≤ 57 := by omega
    rw [if_pos this]
    exact ⟨Or.inl ⟨by omega, by omega⟩, by omega⟩
  · simp only [h, if_false]
    have : ¬ (97 + (d - 10) ≤ 57) := by omega
    rw [if_neg this]
    exact ⟨Or.inr ⟨by omega, by omega⟩, by omega⟩

theorem hexDigits_length (v k : Nat) : (hexDigits v k).length = k := by
  induction k with
  | zero => rfl
  | succ k ih => simp [hexDigits, ih]

theorem hexDigits_chars (v k : Nat) : ∀ c ∈ hexDigits v k, IsHexChar c := by
  induction k with
  | zero => intro c hc; simp [hexDigits] at hc
  | succ k ih =>
    intro c hc
    simp only [hexDigits, List.mem_cons] at hc
    rcases hc with rfl | hc
    · exact (hexChar_spec _ (Nat.mod_lt _ (by norm_num))).1
    · exact ih c hc

theorem hexDigits_value (v : Nat) : ∀ (k acc : Nat),
    valueFrom 16 acc (hexDigits v k) = acc * 16 ^ k + v % 16 ^ k := by
  intro k
  induction k with
  | zero => intro acc; simp [hexDigits, valueFrom, Nat.mod_one]
  | succ k ih =>
    intro acc
    have h1 := (hexChar_spec (v / 16 ^ k % 16) (Nat.mod_lt _ (by norm_num))).2
    have h2 := ih (acc * 16 + v / 16 ^ k % 16)
    simp only [valueFrom, hexDigits, List.foldl_cons, h1] at h2 ⊢
    rw [h2, Nat.mod_pow_succ, Nat.pow_succ]
    ring

theorem hexDigits_valueIn (v k : Nat) (hv : v < 16 ^ k) : valueIn 16 (hexDigits v k) = v := by
  unfold valueIn
  rw [hexDigits_value, Nat.zero_mul, Nat.zero_add, Nat.mod_eq_of_lt hv]

/-- Claim C11. For every 64-bit value `w`, `uart1_printf("%w", w)` sends
exactly 16 characters, each in `0-9a-f`, whose base-16 value read most
significant digit first is `w` (so the rendering is zero-padded); `"%h"` sends
exactly 8 such characters whose value is its 32-bit argument `h`, and `"%b"`
exactly 2 such characters whose value is the low 8 bits of its argument.
Nothing else is sent. -/
theorem uart1_printf_hex (w h b : Nat) (hw : w < 2 ^ 64) (hh : h < 2 ^ 32) (u : Uart) :
    (∃ ds, uart1_printf [37, 119] [VArg.num w] u = some ⟨u.rx, u.pos, u.tx ++ ds⟩
        ∧ ds.length = 16 ∧ (∀ c ∈ ds, IsHexChar c) ∧ valueIn 16 ds = w)
      ∧ (∃ ds, uart1_printf [37, 104] [VArg.num h] u = some ⟨u.rx, u.pos, u.tx ++ ds⟩
        ∧ ds.length = 8 ∧ (∀ c ∈ ds, IsHexChar c) ∧ valueIn 16 ds = h)
      ∧ (∃ ds, uart1_printf [37, 98] [VArg.num b] u = some ⟨u.rx, u.pos, u.tx ++ ds⟩
        ∧ ds.length = 2 ∧ (∀ c ∈ ds, IsHexChar c) ∧ valueIn 16 ds = b % 256) := by
  refine ⟨⟨hexDigits w 16, ?_, hexDigits_length _ _, hexDigits_chars _ _,
      hexDigits_valueIn _ _ (by norm_num at hw ⊢; exact hw)⟩,
    ⟨hexDigits h 8, ?_, hexDigits_length _ _, hexDigits_chars _ _,
      hexDigits_valueIn _ _ (by norm_num at hh ⊢; exact hh)⟩,
    ⟨hexDigits (b % 256) 2, ?_, hexDigits_length _ _, hexDigits_chars _ _,
      hexDigits_valueIn _ _ (by norm_num; exact Nat.mod_lt _ (by norm_num))⟩⟩
  · have e : w % 18446744073709551616 = w := Nat.mod_eq_of_lt (by norm_num at hw; exact hw)
    simp [uart1_printf, print_hex_eq, e]
  · have e : h % 4294967296 = h := Nat.mod_eq_of_lt (by norm_num at hh; exact hh)
    simp [uart1_printf, print_hex_eq, e]
  · simp [uart1_printf, print_hex_eq]

/-! ## The formatter: the decimal directive -/

theorem decimalOf_step (m : Nat) (hm : m / 10 ≠ 0) :
    decimalOf m = decimalOf (m / 10) ++ [48 + m % 10] := by
  have hm0 : m ≠ 0 := by intro h; subst h; simp at hm
  unfold decimalOf
  rw [if_neg hm0, if_neg hm, Nat.digits_def' (by norm_num) (Nat.pos_of_ne_zero hm0)]
  simp

theorem decimalOf_small (m : Nat) (hm : m / 10 = 0) : decimalOf m = [48 + m % 10] := by
  have hlt : m < 10 := by omega
  unfold decimalOf
  by_cases h0 : m = 0
  · subst h0; simp
  · rw [if_neg h0, Nat.digits_def' (by norm_num) (Nat.pos_of_ne_zero h0), hm]
    simp

theorem print_int_loop_spec : ∀ (room m : Nat) (buf : List Nat), 0 < room → m < 10 ^ room →
    print_int_loop room ((m / 10 : Nat) : Int) ((m % 10 : Nat) : Int) buf
      = some (decimalOf m ++ buf) := by
  intro room
  induction room with
  | zero => intro m buf h; omega
  | succ room ih =>
    intro m buf _ hm
    rw [print_int_loop]
    have e1 : (48 + ((m % 10 : Nat) : Int)).toNat % 256 = 48 + m % 10 := by omega
    have e2 : Int.tmod ((m / 10 : Nat) : Int) 10 = ((m / 10 % 10 : Nat) : Int) := by
      rw [Int.ofNat_tmod]; rfl
    have e3 : Int.tdiv ((m / 10 : Nat) : Int) 10 = ((m / 10 / 10 : Nat) : Int) := by
      rw [Int.ofNat_tdiv]; rfl
    simp only [e1, e2, e3]
    by_cases h : m / 10 = 0
    · have c : ¬ (((m / 10 / 10 : Nat) : Int) ≠ 0 ∨ ((m / 10 % 10 : Nat) : Int) ≠ 0) := by
        rw [h]; simp
      rw [if_neg c, decimalOf_small m h]
      rfl
    · have c : ((m / 10 / 10 : Nat) : Int) ≠ 0 ∨ ((m / 10 % 10 : Nat) : Int) ≠ 0 := by
        by_contra hc
        push_neg at hc
        omega
      have hroom : 0 < room := by
        rcases Nat.eq_zero_or_pos room with h0 | h0
        · subst h0; simp at hm; omega
        · exact h0
      have hlt : m / 10 < 10 ^ room := by
        rw [Nat.pow_succ] at hm
        omega
      rw [if_pos c, ih (m / 10) _ hroom hlt, decimalOf_step m h]
      simp

theorem toInt32_range (v : Nat) : -2 ^ 31 ≤ toInt32 v ∧ toInt32 v < 2 ^ 31 := by
  unfold toInt32
  split <;> omega

theorem wrapInt32_id (x : Int) (hlo : -2 ^ 31 ≤ x) (hhi : x < 2 ^ 31) : wrapInt32 x = x := by
  unfold wrapInt32 toInt32
  split <;> omega

theorem ABS_tdiv (i : Int) (hlo : -2 ^ 31 ≤ i) (hhi : i < 2 ^ 31) :
    ABS (Int.tdiv i 10) = ((i.natAbs / 10 : Nat) : Int)
      ∧ ABS (Int.tmod i 10) = ((i.natAbs % 10 : Nat) : Int) := by
  rcases Int.eq_nat_or_neg i with ⟨n, rfl | rfl⟩
  · have e1 : Int.tdiv (n : Int) 10 = ((n / 10 : Nat) : Int) := by rw [Int.ofNat_tdiv]; rfl
    have e2 : Int.tmod (n : Int) 10 = ((n % 10 : Nat) : Int) := by rw [Int.ofNat_tmod]; rfl
    rw [e1, e2]
    unfold ABS
    have c1 : ¬ (((n / 10 : Nat) : Int) < 0) := by omega
    have c2 : ¬ (((n % 10 : Nat) : Int) < 0) := by omega
    rw [if_neg c1, if_neg c2]
    simp
  · have e1 : Int.tdiv (-(n : Int)) 10 = -((n / 10 : Nat) : Int) := by
      rw [Int.neg_tdiv, Int.ofNat_tdiv]; rfl
    have e2 : Int.tmod (-(n : Int)) 10 = -((n % 10 : Nat) : Int) := by
      rw [Int.tmod_def, e1, Int.ofNat_tmod, Int.tmod_def, Int.ofNat_tdiv]
      push_cast
      ring
    rw [e1, e2]
    unfold ABS
    have w1 := wrapInt32_id (- -((n / 10 : Nat) : Int)) (by omega) (by omega)
    have w2 := wrapInt32_id (- -((n % 10 : Nat) : Int)) (by omega) (by omega)
    rw [w1, w2]
    simp only [Int.natAbs_neg, Int.natAbs_ofNat, neg_neg]
    constructor
    · split <;> omega
    · split <;> omega

theorem crlf_of_no_newline (s : List Nat) (h : ∀ c ∈ s, c ≠ 10) : crlf s = s := by
  induction s with
  | nil => rfl
  | cons c cs ih =>
    have hc : c ≠ 10 := h c (by simp)
    simp [crlf, hc, ih (fun x hx => h x (by simp [hx]))]

theorem decimalOf_chars (m : Nat) : ∀ c ∈ decimalOf m, 48 ≤ c ∧ c ≤ 57 := by
  intro c hc
  unfold decimalOf at hc
  by_cases h0 : m = 0
  · rw [if_pos h0] at hc
    simp at hc
    omega
  · rw [if_neg h0] at hc
    simp only [List.mem_map, List.mem_reverse] at hc
    obtain ⟨d, hd, rfl⟩ := hc
    have := Nat.digits_lt_base (by norm_num : 1 < 10) hd
    omega

theorem uart1_puts_decimal (m : Nat) (u : Uart) :
    uart1_puts (decimalOf m) u = ⟨u.rx, u.pos, u.tx ++ decimalOf m⟩ := by
  rw [uart1_puts_text _ (fun c hc => by have := decimalOf_chars m c hc; omega),
    crlf_of_no_newline _ (fun c hc => by have := decimalOf_chars m c hc; omega)]

theorem tdiv_tmod_bounds (i : Int) (hlo : -2 ^ 31 ≤ i) (hhi : i < 2 ^ 31) :
    -214748364 ≤ Int.tdiv i 10 ∧ Int.tdiv i 10 ≤ 214748364
      ∧ -9 ≤ Int.tmod i 10 ∧ Int.tmod i 10 ≤ 9 := by
  rcases Int.eq_nat_or_neg i with ⟨n, rfl | rfl⟩
  · have e1 : Int.tdiv (n : Int) 10 = ((n / 10 : Nat) : Int) := by rw [Int.ofNat_tdiv]; rfl
    have e2 : Int.tmod (n : Int) 10 = ((n % 10 : Nat) : Int) := by rw [Int.ofNat_tmod]; rfl
    rw [e1, e2]
    omega
  · have e1 : Int.tdiv (-(n : Int)) 10 = -((n / 10 : Nat) : Int) := by
      rw [Int.neg_tdiv, Int.ofNat_tdiv]; rfl
    have e2 : Int.tmod (-(n : Int)) 10 = -((n % 10 : Nat) : Int) := by
      rw [Int.tmod_def, e1, Int.ofNat_tmod, Int.tmod_def, Int.ofNat_tdiv]
      push_cast
      ring
    rw [e1, e2]
    omega

/-- Claim C12. For every 32-bit signed integer `i`, passed in a register as
its two's complement value, `uart1_printf("%i", i)` sends exactly the decimal
representation of `i`: a `'-'` if and only if `i < 0`, then the decimal digits
of `|i|` without leading zeros (`"0"` for zero). The negations in
`ABS(i / 10)` and `ABS(i % 10)` stay in the range of `int`. -/
theorem uart1_printf_int (i : Int) (hlo : -2 ^ 31 ≤ i) (hhi : i < 2 ^ 31) (u : Uart) :
    uart1_printf [37, 105] [VArg.num (i % 2 ^ 32).toNat] u
        = some ⟨u.rx, u.pos, u.tx ++ (if i < 0 then [45] else []) ++ decimalOf i.natAbs⟩
      ∧ (-2 ^ 31 ≤ -(Int.tdiv i 10) ∧ -(Int.tdiv i 10) < 2 ^ 31)
      ∧ (-2 ^ 31 ≤ -(Int.tmod i 10) ∧ -(Int.tmod i 10) < 2 ^ 31) := by
  have hb := tdiv_tmod_bounds i hlo hhi
  refine ⟨?_, ⟨by omega, by omega⟩, ⟨by omega, by omega⟩⟩
  have hv : toInt32 (i % 2 ^ 32).toNat = i := wrapInt32_id i hlo hhi
  obtain ⟨a1, a2⟩ := ABS_tdiv i hlo hhi
  have hm : i.natAbs < 10 ^ 19 := by
    have : i.natAbs < 2 ^ 31 + 1 := by omega
    exact lt_of_lt_of_le this (by norm_num)
  have hl := print_int_loop_spec 19 i.natAbs [] (by norm_num) hm
  simp only [uart1_printf, hv, a1, a2, hl]
  by_cases hneg : i < 0
  · simp [hneg, uart1_puts_decimal, uart1_putc]
  · simp [hneg, uart1_puts_decimal]

/-- The most negative value: `-2147483648` is rendered as `"-2147483648"`. -/
theorem uart1_printf_int_witness :
    (uart1_printf [37, 105] [VArg.num ((-2147483648 : Int) % 2 ^ 32).toNat] ⟨fun _ => 0, 0, []⟩
        = some ⟨(⟨fun _ => 0, 0, []⟩ : Uart).rx, (⟨fun _ => 0, 0, []⟩ : Uart).pos,
            (⟨fun _ => 0, 0, []⟩ : Uart).tx
              ++ (if (-2147483648 : Int) < 0 then [45] else [])
              ++ decimalOf (-2147483648 : Int).natAbs⟩
      ∧ (-2 ^ 31 ≤ -(Int.tdiv (-2147483648) 10) ∧ -(Int.tdiv (-2147483648) 10) < 2 ^ 31)
      ∧ (-2 ^ 31 ≤ -(Int.tmod (-2147483648) 10) ∧ -(Int.tmod (-2147483648) 10) < 2 ^ 31))
    ∧ (uart1_printf [37, 105] [VArg.num ((-2147483648 : Int) % 2 ^ 32).toNat]
          ⟨fun _ => 0, 0, []⟩).map (fun u => u.tx)
        = some [45, 50, 49, 52, 55, 52, 56, 51, 54, 52, 56] :=
  ⟨uart1_printf_int (-2147483648) (by decide) (by decide) ⟨fun _ => 0, 0, []⟩, by decide⟩

/-! ## The formatter: plain text, `%s`, bad and missing markers -/

theorem crlf_append (a b : List Nat) : crlf (a ++ b) = crlf a ++ crlf b := by
  induction a with
  | nil => rfl
  | cons c cs ih => simp [crlf, ih]

theorem crlf_length (s : List Nat) : (crlf s).length = s.length + s.count 10 := by
  induction s with
  | nil => rfl
  | cons c cs ih =>
    by_cases hc : c = 10
    · subst hc
      simp [crlf, ih]
      omega
    · simp [crlf, hc, ih, List.count_cons]
      omega

theorem uart1_printf_cons_nul (s : List Nat) (ap : List VArg) (u : Uart) :
    uart1_printf (0 :: s) ap u = some u := by
  cases s <;> simp [uart1_printf]

theorem uart1_printf_cons_newline (s : List Nat) (ap : List VArg) (u : Uart) :
    uart1_printf (10 :: s) ap u = uart1_printf s ap (uart1_putc 10 (uart1_putc 13 u)) := by
  cases s <;> simp [uart1_printf]

theorem uart1_printf_cons_char (c : Nat) (s : List Nat) (ap : List VArg) (u : Uart)
    (h0 : c ≠ 0) (h10 : c ≠ 10) (h37 : c ≠ 37) :
    uart1_printf (c :: s) ap u = uart1_printf s ap (uart1_putc c u) := by
  cases s <;> simp [uart1_printf, h0, h10, h37]

/-- Plain text at the head of a format string is written as `uart1_puts` writes it. -/
theorem uart1_printf_plain (pre : List Nat) (h0 : 0 ∉ pre) (h37 : 37 ∉ pre) :
    ∀ (s : List Nat) (ap : List VArg) (u : Uart),
      uart1_printf (pre ++ s) ap u = uart1_printf s ap ⟨u.rx, u.pos, u.tx ++ crlf pre⟩ := by
  induction pre with
  | nil => intro s ap u; simp [crlf]
  | cons c cs ih =>
    intro s ap u
    have hc0 : c ≠ 0 := fun h => h0 (by simp [h])
    have hc37 : c ≠ 37 := fun h => h37 (by simp [h])
    have ih2 := ih (fun h => h0 (by simp [h])) (fun h => h37 (by simp [h]))
    rw [List.cons_append]
    by_cases h10 : c = 10
    · subst h10
      rw [uart1_printf_cons_newline, ih2]
      simp [uart1_putc, crlf]
    · rw [uart1_printf_cons_char c _ ap u hc0 h10 hc37, ih2]
      simp [uart1_putc, crlf, h10]

/-- Claim C13. For every format string `pre ++ "%" ++ X ++ post`, where
`pre` contains no `'%'` and `X` is a character other than NUL, `'%'`, `'s'`,
`'c'`, `'b'`, `'w'`, `'h'`, `'i'`, `uart1_printf` sends the rendering of `pre`,
then exactly `<BAD MARKER "X">`, and goes on with `post` and the same
arguments: no argument is consumed for `X`. -/
theorem uart1_printf_bad_marker (pre post : List Nat) (X : Nat) (ap : List VArg) (u : Uart)
    (h0 : 0 ∉ pre) (h37 : 37 ∉ pre)
    (hX : X ≠ 0 ∧ X ≠ 37 ∧ X ≠ 115 ∧ X ≠ 99 ∧ X ≠ 98 ∧ X ≠ 119 ∧ X ≠ 104 ∧ X ≠ 105) :
    uart1_printf (pre ++ 37 :: X :: post) ap u
      = uart1_printf post ap
          ⟨u.rx, u.pos, u.tx ++ crlf pre ++ str_bad_marker ++ [X] ++ [34, 62]⟩ := by
  obtain ⟨x0, x1, x2, x3, x4, x5, x6, x7⟩ := hX
  rw [uart1_printf_plain pre h0 h37, uart1_printf.eq_def]
  simp only []
  rw [if_pos trivial, if_neg x0, if_neg x1, if_neg x2, if_neg x3, if_neg x4, if_neg x5,
    if_neg x6, if_neg x7]
  simp [uart1_puts, uart1_putc, str_bad_marker]

/-- The format `"a\n%z%c"` with one argument. -/
theorem uart1_printf_bad_marker_witness :
    uart1_printf ([97, 10] ++ 37 :: 122 :: [37, 99]) [VArg.num 66] ⟨fun _ => 0, 0, []⟩
      = uart1_printf [37, 99] [VArg.num 66]
          ⟨(⟨fun _ => 0, 0, []⟩ : Uart).rx, (⟨fun _ => 0, 0, []⟩ : Uart).pos,
            (⟨fun _ => 0, 0, []⟩ : Uart).tx ++ crlf [97, 10] ++ str_bad_marker ++ [122]
              ++ [34, 62]⟩ :=
  uart1_printf_bad_marker [97, 10] [37, 99] 122 [VArg.num 66] ⟨fun _ => 0, 0, []⟩
    (by decide) (by decide) (by decide)

/-- Claim C15 as stated fails: for the string `"a\nb"` the call
`uart1_printf("%s", a)` sends `a`, `'\r'`, `'\n'`, `b`, which is not the
string unchanged. -/
theorem uart1_printf_string_counterexample :
    (uart1_printf [37, 115] [VArg.str [97, 10, 98]] ⟨fun _ => 0, 0, []⟩).map (fun u => u.tx)
        = some [97, 13, 10, 98]
      ∧ (uart1_printf [37, 115] [VArg.str [97, 10, 98]] ⟨fun _ => 0, 0, []⟩).map (fun u => u.tx)
        ≠ some [97, 10, 98] := by
  decide

/-- Claim C15, amended. For every NUL-terminated string argument `a`,
`uart1_printf("%s", a)` sends the bytes of `a` in order, a `'\r'` added before
each `'\n'` as `uart1_puts` does, and every other byte unchanged. -/
theorem uart1_printf_string (a : List Nat) (h0 : 0 ∉ a) (u : Uart) :
    uart1_printf [37, 115] [VArg.str a] u = some ⟨u.rx, u.pos, u.tx ++ crlf a⟩ := by
  have := uart1_puts_text a (fun _ hc h => h0 (h ▸ hc)) u
  simp [uart1_printf, this]

/-- The string `"hi\n"`. -/
theorem uart1_printf_string_witness :
    uart1_printf [37, 115] [VArg.str [104, 105, 10]] ⟨fun _ => 0, 0, [62]⟩
      = some ⟨(⟨fun _ => 0, 0, [62]⟩ : Uart).rx, (⟨fun _ => 0, 0, [62]⟩ : Uart).pos,
          (⟨fun _ => 0, 0, [62]⟩ : Uart).tx ++ crlf [104, 105, 10]⟩ :=
  uart1_printf_string [104, 105, 10] (by decide) ⟨fun _ => 0, 0, [62]⟩

theorem uart1_printf_no_directive (fmt : List Nat) (h37 : 37 ∉ fmt) :
    ∀ (ap : List VArg) (u : Uart), uart1_printf fmt ap u = some (uart1_puts fmt u) := by
  induction fmt with
  | nil => intro ap u; simp [uart1_printf, uart1_puts]
  | cons c cs ih =>
    intro ap u
    have hc37 : c ≠ 37 := fun h => h37 (by simp [h])
    have ih2 := ih (fun h => h37 (by simp [h]))
    rw [uart1_puts]
    by_cases hc0 : c = 0
    · subst hc0
      rw [uart1_printf_cons_nul]
      simp
    · by_cases h10 : c = 10
      · subst h10
        rw [uart1_printf_cons_newline, ih2]
        simp
      · rw [uart1_printf_cons_char c _ ap u hc0 h10 hc37, ih2]
        simp [hc0, h10]

/-- Claim C16. For every NUL-terminated string `s`, `uart1_puts(s)` sends
`s` with each `'\n'` replaced by `'\r' '\n'` and every other byte unchanged
and in order, so the output has the length of `s` plus the number of `'\n'` in
`s`; and for every format string `fmt` without `'%'`, `uart1_printf(fmt)` sends
exactly what `uart1_puts(fmt)` sends. -/
theorem uart1_puts_crlf (s fmt : List Nat) (ap : List VArg) (u : Uart)
    (h0 : 0 ∉ s) (h37 : 37 ∉ fmt) :
    uart1_puts s u = ⟨u.rx, u.pos, u.tx ++ crlf s⟩
      ∧ (crlf s).length = s.length + s.count 10
      ∧ uart1_printf fmt ap u = some (uart1_puts fmt u) :=
  ⟨uart1_puts_text s (fun _ hc h => h0 (h ▸ hc)) u, crlf_length s,
    uart1_printf_no_directive fmt h37 ap u⟩

/-- The string `"a\nb\n"` and the format `"> \n"`. -/
theorem uart1_puts_crlf_witness :
    uart1_puts [97, 10, 98, 10] ⟨fun _ => 0, 0, []⟩
        = ⟨(⟨fun _ => 0, 0, []⟩ : Uart).rx, (⟨fun _ => 0, 0, []⟩ : Uart).pos,
            (⟨fun _ => 0, 0, []⟩ : Uart).tx ++ crlf [97, 10, 98, 10]⟩
      ∧ (crlf [97, 10, 98, 10]).length = [97, 10, 98, 10].length + [97, 10, 98, 10].count 10
      ∧ uart1_printf [62, 32, 10] [] ⟨fun _ => 0, 0, []⟩
        = some (uart1_puts [62, 32, 10] ⟨fun _ => 0, 0, []⟩) :=
  uart1_puts_crlf [97, 10, 98, 10] [62, 32, 10] [] ⟨fun _ => 0, 0, []⟩ (by decide) (by decide)

/-- The effect of a directive does not depend on the rest of the format
string: it fails, or it leaves arguments and a UART state from which the scan
goes on. -/
theorem uart1_printf_directive (m : Nat) (ap : List VArg) (u : Uart) (hm : m ≠ 0) :
    ∃ r : Option (List VArg × Uart), ∀ s,
      uart1_printf (37 :: m :: s) ap u = r.bind (fun p => uart1_printf s p.1 p.2) := by
  by_cases h1 : m = 37
  · refine ⟨some (ap, uart1_putc m u), fun s => ?_⟩
    rw [uart1_printf.eq_def]
    simp only []
    rw [if_pos trivial, if_neg hm, if_pos h1]
    rfl
  by_cases h2 : m = 115
  · cases ap with
    | nil =>
      refine ⟨none, fun s => ?_⟩
      rw [uart1_printf.eq_def]
      simp only []
      rw [if_pos trivial, if_neg hm, if_neg h1, if_pos h2]
      rfl
    | cons a ap1 =>
      cases a with
      | str x =>
        refine ⟨some (ap1, uart1_puts x u), fun s => ?_⟩
        rw [uart1_printf.eq_def]
        simp only []
        rw [if_pos trivial, if_neg hm, if_neg h1, if_pos h2]
        rfl
      | num v =>
        refine ⟨none, fun s => ?_⟩
        rw [uart1_printf.eq_def]
        simp only []
        rw [if_pos trivial, if_neg hm, if_neg h1, if_pos h2]
        rfl
  by_cases h3 : m = 99
  · cases ap with
    | nil =>
      refine ⟨none, fun s => ?_⟩
      rw [uart1_printf.eq_def]
      simp only []
      rw [if_pos trivial, if_neg hm, if_neg h1, if_neg h2, if_pos h3]
      rfl
    | cons a ap1 =>
      cases a with
      | str x =>
        refine ⟨none, fun s => ?_⟩
        rw [uart1_printf.eq_def]
        simp only []
        rw [if_pos trivial, if_neg hm, if_neg h1, if_neg h2, if_pos h3]
        rfl
      | num v =>
        refine ⟨some (ap1, uart1_putc (v % 256) u), fun s => ?_⟩
        rw [uart1_printf.eq_def]
        simp only []
        rw [if_pos trivial, if_neg hm, if_neg h1, if_neg h2, if_pos h3]
        rfl
  by_cases h4 : m = 98
  · cases ap with
    | nil =>
      refine ⟨none, fun s => ?_⟩
      rw [uart1_printf.eq_def]
      simp only []
      rw [if_pos trivial, if_neg hm, if_neg h1, if_neg h2, if_neg h3, if_pos h4]
      rfl
    | cons a ap1 =>
      cases a with
      | str x =>
        refine ⟨none, fun s => ?_⟩
        rw [uart1_printf.eq_def]
        simp only []
        rw [if_pos trivial, if_neg hm, if_neg h1, if_neg h2, if_neg h3, if_pos h4]
        rfl
      | num v =>
        refine ⟨some (ap1, print_hex (v % 256) 2 u), fun s => ?_⟩
        rw [uart1_printf.eq_def]
        simp only []
        rw [if_pos trivial, if_neg hm, if_neg h1, if_neg h2, if_neg h3, if_pos h4]
        rfl
  by_cases h5 : m = 119
  · cases ap with
    | nil =>
      refine ⟨none, fun s => ?_⟩
      rw [uart1_printf.eq_def]
      simp only []
      rw [if_pos trivial, if_neg hm, if_neg h1, if_neg h2, if_neg h3, if_neg h4, if_pos h5]
      rfl
    | cons a ap1 =>
      cases a with
      | str x =>
        refine ⟨none, fun s => ?_⟩
        rw [uart1_printf.eq_def]
        simp only []
        rw [if_pos trivial, if_neg hm, if_neg h1, if_neg h2, if_neg h3, if_neg h4, if_pos h5]
        rfl
      | num v =>
        refine ⟨some (ap1, print_hex (v % 2 ^ 64) 16 u), fun s => ?_⟩
        rw [uart1_printf.eq_def]
        simp only []
        rw [if_pos trivial, if_neg hm, if_neg h1, if_neg h2, if_neg h3, if_neg h4, if_pos h5]
        rfl
  by_cases h6 : m = 104
  · cases ap with
    | nil =>
      refine ⟨none, fun s => ?_⟩
      rw [uart1_printf.eq_def]
      simp only []
      rw [if_pos trivial, if_neg hm, if_neg h1, if_neg h2, if_neg h3, if_neg h4, if_neg h5,
        if_pos h6]
      rfl
    | cons a ap1 =>
      cases a with
      | str x =>
        refine ⟨none, fun s => ?_⟩
        rw [uart1_printf.eq_def]
        simp only []
        rw [if_pos trivial, if_neg hm, if_neg h1, if_neg h2, if_neg h3, if_neg h4, if_neg h5,
          if_pos h6]
        rfl
      | num v =>
        refine ⟨some (ap1, print_hex (v % 2 ^ 32) 8 u), fun s => ?_⟩
        rw [uart1_printf.eq_def]
        simp only []
        rw [if_pos trivial, if_neg hm, if_neg h1, if_neg h2, if_neg h3, if_neg h4, if_neg h5,
          if_pos h6]
        rfl
  by_cases h7 : m = 105
  · cases ap with
    | nil =>
      refine ⟨none, fun s => ?_⟩
      rw [uart1_printf.eq_def]
      simp only []
      rw [if_pos trivial, if_neg hm, if_neg h1, if_neg h2, if_neg h3, if_neg h4, if_neg h5,
        if_neg h6, if_pos h7]
      rfl
    | cons a ap1 =>
      cases a with
      | str x =>
        refine ⟨none, fun s => ?_⟩
        rw [uart1_printf.eq_def]
        simp only []
        rw [if_pos trivial, if_neg hm, if_neg h1, if_neg h2, if_neg h3, if_neg h4, if_neg h5,
          if_neg h6, if_pos h7]
        rfl
      | num v =>
        refine ⟨(print_int_loop 19 (ABS (Int.tdiv (toInt32 v) 10))
            (ABS (Int.tmod (toInt32 v) 10)) []).map
          (fun buf => (ap1, uart1_puts buf (if toInt32 v < 0 then uart1_putc 45 u else u))),
          fun s => ?_⟩
        rw [uart1_printf.eq_def]
        simp only []
        rw [if_pos trivial, if_neg hm, if_neg h1, if_neg h2, if_neg h3, if_neg h4, if_neg h5,
          if_neg h6, if_pos h7]
        cases print_int_loop 19 (ABS (Int.tdiv (toInt32 v) 10))
          (ABS (Int.tmod (toInt32 v) 10)) [] <;> rfl
  · refine ⟨some (ap, uart1_puts [34, 62] (uart1_putc m
      (uart1_puts [60, 66, 65, 68, 32, 77, 65, 82, 75, 69, 82, 32, 34] u))), fun s => ?_⟩
    rw [uart1_printf.eq_def]
    simp only []
    rw [if_pos trivial, if_neg hm, if_neg h1, if_neg h2, if_neg h3, if_neg h4, if_neg h5,
      if_neg h6, if_neg h7]
    rfl

theorem uart1_printf_directive_step (m : Nat) (s1 s2 : List Nat) (g : Uart → Uart)
    (hm : m ≠ 0)
    (h : ∀ ap u, uart1_printf s2 ap u = (uart1_printf s1 ap u).map g) :
    ∀ ap u, uart1_printf (37 :: m :: s2) ap u = (uart1_printf (37 :: m :: s1) ap u).map g := by
  intro ap u
  obtain ⟨r, hr⟩ := uart1_printf_directive m ap u hm
  rw [hr s2, hr s1]
  cases r with
  | none => rfl
  | some p => exact h p.1 p.2

/-- A `'%'` at the end of a format string whose directives are complete: the
scan of the string before it, then the call `uart1_puts("<MISSING MARKER>")`. -/
theorem uart1_printf_percent_at_end (pre : List Nat) (ap : List VArg) (u : Uart)
    (h0 : 0 ∉ pre) (hc : directivesComplete pre = true) :
    uart1_printf (pre ++ [37]) ap u
      = (uart1_printf pre ap u).map (uart1_puts str_missing_marker) := by
  have key : ∀ (n : Nat) (pre : List Nat), pre.length ≤ n → 0 ∉ pre →
      directivesComplete pre = true → ∀ ap u,
      uart1_printf (pre ++ [37]) ap u
        = (uart1_printf pre ap u).map (uart1_puts str_missing_marker) := by
    intro n
    induction n with
    | zero =>
      intro pre hl _ _ ap u
      have : pre = [] := List.length_eq_zero.1 (by omega)
      subst this
      simp [uart1_printf, str_missing_marker]
    | succ n ih =>
      intro pre hl h0 hc ap u
      cases pre with
      | nil => simp [uart1_printf, str_missing_marker]
      | cons c s =>
        have hc0 : c ≠ 0 := fun h => h0 (by simp [h])
        have hs0 : 0 ∉ s := fun h => h0 (by simp [h])
        by_cases h37 : c = 37
        · subst h37
          cases s with
          | nil => simp [directivesComplete] at hc
          | cons m s1 =>
            have hm : m ≠ 0 := fun h => hs0 (by simp [h])
            have hs1 : 0 ∉ s1 := fun h => hs0 (by simp [h])
            have hc1 : directivesComplete s1 = true := by
              simpa [directivesComplete] using hc
            have hrec := ih s1 (by simp at hl; omega) hs1 hc1
            exact uart1_printf_directive_step m s1 (s1 ++ [37]) _ hm hrec ap u
        · have hcs : directivesComplete s = true := by
            cases s with
            | nil => rfl
            | cons m s1 => simpa [directivesComplete, h37] using hc
          have hrec := ih s (by simp at hl; omega) hs0 hcs
          rw [List.cons_append]
          by_cases h10 : c = 10
          · subst h10
            rw [uart1_printf_cons_newline, uart1_printf_cons_newline, hrec]
          · rw [uart1_printf_cons_char c _ ap u hc0 h10 h37,
              uart1_printf_cons_char c _ ap u hc0 h10 h37, hrec]
  exact key pre.length pre (le_refl _) h0 hc ap u

/-- Claim C14. For every format string that ends with a `'%'` introducing a
directive, that is `pre ++ "%"` where every `'%'` of `pre` has its directive
character, `uart1_printf` sends what it sends for `pre` and then exactly the 16
bytes of `<MISSING MARKER>`, and nothing after them: the state at the return is
the state after `pre` with these bytes added to the output. -/
theorem uart1_printf_missing_marker (pre : List Nat) (ap : List VArg) (u : Uart)
    (h0 : 0 ∉ pre) (hc : directivesComplete pre = true) :
    uart1_printf (pre ++ [37]) ap u
      = (uart1_printf pre ap u).map
          (fun u1 => ⟨u1.rx, u1.pos,
            u1.tx ++ [60, 77, 73, 83, 83, 73, 78, 71, 32, 77, 65, 82, 75, 69, 82, 62]⟩) := by
  have c : crlf str_missing_marker
      = [60, 77, 73, 83, 83, 73, 78, 71, 32, 77, 65, 82, 75, 69, 82, 62] := by decide
  have e : uart1_puts str_missing_marker
      = fun u1 => ⟨u1.rx, u1.pos,
          u1.tx ++ [60, 77, 73, 83, 83, 73, 78, 71, 32, 77, 65, 82, 75, 69, 82, 62]⟩ := by
    funext u1
    rw [uart1_puts_text str_missing_marker (by decide) u1, c]
  rw [uart1_printf_percent_at_end pre ap u h0 hc, e]

/-- The format `"a%%%c\n%"` with one argument: the bytes sent are `a%B`, the
line end and `<MISSING MARKER>`. -/
theorem uart1_printf_missing_marker_witness :
    uart1_printf ([97, 37, 37, 37, 99, 10] ++ [37]) [VArg.num 66] ⟨fun _ => 0, 0, []⟩
        = (uart1_printf [97, 37, 37, 37, 99, 10] [VArg.num 66] ⟨fun _ => 0, 0, []⟩).map
            (fun u1 => ⟨u1.rx, u1.pos,
              u1.tx ++ [60, 77, 73, 83, 83, 73, 78, 71, 32, 77, 65, 82, 75, 69, 82, 62]⟩)
      ∧ (uart1_printf ([97, 37, 37, 37, 99, 10] ++ [37]) [VArg.num 66]
            ⟨fun _ => 0, 0, []⟩).map (fun u => u.tx)
        = some [97, 37, 66, 13, 10,
            60, 77, 73, 83, 83, 73, 78, 71, 32, 77, 65, 82, 75, 69, 82, 62] :=
  ⟨uart1_printf_missing_marker [97, 37, 37, 37, 99, 10] [VArg.num 66] ⟨fun _ => 0, 0, []⟩
    (by decide) (by decide), by decide⟩

/-- The values `0xdeadbeef` (as `"%w"`), `0x12345` (as `"%h"`) and `0xA`
(as `"%b"`): the characters sent are `00000000deadbeef`, `00012345` and `0a`. -/
theorem uart1_printf_hex_witness :
    ((∃ ds, uart1_printf [37, 119] [VArg.num 0xdeadbeef] ⟨fun _ => 0, 0, []⟩
          = some ⟨(⟨fun _ => 0, 0, []⟩ : Uart).rx, (⟨fun _ => 0, 0, []⟩ : Uart).pos,
              (⟨fun _ => 0, 0, []⟩ : Uart).tx ++ ds⟩
        ∧ ds.length = 16 ∧ (∀ c ∈ ds, IsHexChar c) ∧ valueIn 16 ds = 0xdeadbeef)
      ∧ (∃ ds, uart1_printf [37, 104] [VArg.num 0x12345] ⟨fun _ => 0, 0, []⟩
          = some ⟨(⟨fun _ => 0, 0, []⟩ : Uart).rx, (⟨fun _ => 0, 0, []⟩ : Uart).pos,
              (⟨fun _ => 0, 0, []⟩ : Uart).tx ++ ds⟩
        ∧ ds.length = 8 ∧ (∀ c ∈ ds, IsHexChar c) ∧ valueIn 16 ds = 0x12345)
      ∧ (∃ ds, uart1_printf [37, 98] [VArg.num 0xA] ⟨fun _ => 0, 0, []⟩
          = some ⟨(⟨fun _ => 0, 0, []⟩ : Uart).rx, (⟨fun _ => 0, 0, []⟩ : Uart).pos,
              (⟨fun _ => 0, 0, []⟩ : Uart).tx ++ ds⟩
        ∧ ds.length = 2 ∧ (∀ c ∈ ds, IsHexChar c) ∧ valueIn 16 ds = 0xA % 256))
    ∧ (uart1_printf [37, 119] [VArg.num 0xdeadbeef] ⟨fun _ => 0, 0, []⟩).map (fun u => u.tx)
        = some [48, 48, 48, 48, 48, 48, 48, 48, 100, 101, 97, 100, 98, 101, 101, 102]
    ∧ (uart1_printf [37, 104] [VArg.num 0x12345] ⟨fun _ => 0, 0, []⟩).map (fun u => u.tx)
        = some [48, 48, 48, 49, 50, 51, 52, 53]
    ∧ (uart1_printf [37, 98] [VArg.num 0xA] ⟨fun _ => 0, 0, []⟩).map (fun u => u.tx)
        = some [48, 97] :=
  ⟨uart1_printf_hex 0xdeadbeef 0x12345 0xA (by decide) (by decide) ⟨fun _ => 0, 0, []⟩,
    by decide, by decide, by decide⟩

/-! ## The dispatcher and `help` -/

theorem strcmp_strings (a b : List Nat) (ha : 0 ∉ a) (hb : 0 ∉ b) :
    ∃ r, strcmp (litString a) (litString b) (a.length + 1) = Except.ok r ∧ (r = 0 ↔ a = b) :=
  strcmp_loop_spec (litString a) (litString b) a b 0 (a.length + 1)
    (fun _ hc h => ha (h ▸ hc)) (fun _ hc h => hb (h ▸ hc))
    (fun j _ => by simp [litString]) (fun j _ => by simp [litString]) (by omega)

theorem find_cmd_skip (argv0 : List Nat) (h0 : 0 ∉ argv0) (pre : List cmd_descr)
    (hpre : ∀ d ∈ pre, ∃ nm, d.name = some nm ∧ 0 ∉ nm ∧ nm ≠ argv0) (tail : List cmd_descr) :
    find_cmd argv0 (pre ++ tail) = find_cmd argv0 tail := by
  induction pre with
  | nil => rfl
  | cons d ds ih =>
    obtain ⟨nm, hn, hn0, hne⟩ := hpre d (by simp)
    obtain ⟨r, hr, hiff⟩ := strcmp_strings argv0 nm h0 hn0
    have hr0 : r ≠ 0 := fun h => hne (hiff.1 h).symm
    rw [List.cons_append, find_cmd]
    simp only [hn, hr, bind, Except.bind, hr0, if_false]
    exact ih (fun x hx => hpre x (by simp [hx]))

theorem find_cmd_hit (argv0 : List Nat) (h0 : 0 ∉ argv0) (e : cmd_descr)
    (he : e.name = some argv0) (tail : List cmd_descr) :
    find_cmd argv0 (e :: tail) = Except.ok e := by
  obtain ⟨r, hr, hiff⟩ := strcmp_strings argv0 argv0 h0 h0
  have hr0 : r = 0 := hiff.2 rfl
  rw [find_cmd]
  simp only [he, hr, bind, Except.bind, hr0, if_true]

theorem find_cmd_sentinel (argv0 : List Nat) (e : cmd_descr) (he : e.name = none)
    (tail : List cmd_descr) : find_cmd argv0 (e :: tail) = Except.ok e := by
  rw [find_cmd]
  simp only [he]

/-- A format string without directive: the bytes sent. -/
theorem uart1_printf_text (fmt : List Nat) (h0 : 0 ∉ fmt) (h37 : 37 ∉ fmt) (ap : List VArg)
    (u : Uart) : uart1_printf fmt ap u = some ⟨u.rx, u.pos, u.tx ++ crlf fmt⟩ := by
  rw [uart1_printf_no_directive fmt h37, uart1_puts_text fmt (fun _ hc h => h0 (h ▸ hc))]

/-- The directive `%s` at the head of a format string. -/
theorem uart1_printf_cons_str (a s : List Nat) (ap : List VArg) (u : Uart) (h0 : 0 ∉ a) :
    uart1_printf (37 :: 115 :: s) (VArg.str a :: ap) u
      = uart1_printf s ap ⟨u.rx, u.pos, u.tx ++ crlf a⟩ := by
  rw [uart1_printf.eq_def]
  simp only []
  rw [if_neg (show ¬ ((37 : Nat) = 0) by decide), if_neg (show ¬ ((37 : Nat) = 10) by decide),
    if_pos trivial,
    if_neg (show ¬ ((115 : Nat) = 0) by decide),
    if_neg (show ¬ ((115 : Nat) = 37) by decide),
    if_pos trivial, uart1_puts_text a (fun _ hc h => h0 (h ▸ hc))]

/-- The directive `%c` at the head of a format string. -/
theorem uart1_printf_cons_chr (v : Nat) (s : List Nat) (ap : List VArg) (u : Uart) :
    uart1_printf (37 :: 99 :: s) (VArg.num v :: ap) u
      = uart1_printf s ap ⟨u.rx, u.pos, u.tx ++ [v % 256]⟩ := by
  rw [uart1_printf.eq_def]
  simp only []
  rw [if_pos trivial,
    if_neg (show ¬ ((99 : Nat) = 0) by decide),
    if_neg (show ¬ ((99 : Nat) = 37) by decide),
    if_neg (show ¬ ((99 : Nat) = 115) by decide),
    if_pos trivial]
  rfl

/-- The directive `%b` at the head of a format string. -/
theorem uart1_printf_cons_b (v : Nat) (s : List Nat) (ap : List VArg) (u : Uart) :
    uart1_printf (37 :: 98 :: s) (VArg.num v :: ap) u
      = uart1_printf s ap ⟨u.rx, u.pos, u.tx ++ hexDigits (v % 256) 2⟩ := by
  rw [uart1_printf.eq_def]
  simp only []
  rw [if_neg (show ¬ ((37 : Nat) = 0) by decide), if_neg (show ¬ ((37 : Nat) = 10) by decide),
    if_pos trivial,
    if_neg (show ¬ ((98 : Nat) = 0) by decide),
    if_neg (show ¬ ((98 : Nat) = 37) by decide),
    if_neg (show ¬ ((98 : Nat) = 115) by decide),
    if_neg (show ¬ ((98 : Nat) = 99) by decide),
    if_pos trivial, print_hex_eq]

/-- The directive `%w` at the head of a format string. -/
theorem uart1_printf_cons_w (v : Nat) (s : List Nat) (ap : List VArg) (u : Uart) :
    uart1_printf (37 :: 119 :: s) (VArg.num v :: ap) u
      = uart1_printf s ap ⟨u.rx, u.pos, u.tx ++ hexDigits (v % 2 ^ 64) 16⟩ := by
  rw [uart1_printf.eq_def]
  simp only []
  rw [if_neg (show ¬ ((37 : Nat) = 0) by decide), if_neg (show ¬ ((37 : Nat) = 10) by decide),
    if_pos trivial,
    if_neg (show ¬ ((119 : Nat) = 0) by decide),
    if_neg (show ¬ ((119 : Nat) = 37) by decide),
    if_neg (show ¬ ((119 : Nat) = 115) by decide),
    if_neg (show ¬ ((119 : Nat) = 99) by decide),
    if_neg (show ¬ ((119 : Nat) = 98) by decide),
    if_pos trivial, print_hex_eq]

theorem printf_unknown (argv0 : List Nat) (h0 : 0 ∉ argv0) (u : Uart) :
    (printf_call fmt_unknown [VArg.str argv0] u).bind (printf_call fmt_use_help [])
      = Except.ok ⟨u.rx, u.pos, u.tx ++ msgUnknown argv0⟩ := by
  have e : fmt_unknown
      = [69, 114, 114, 111, 114, 58, 32, 117, 110, 107, 110, 111, 119, 110, 32, 99, 111, 109,
          109, 97, 110, 100, 32, 34] ++ 37 :: 115 :: [34, 46, 10] := rfl
  rw [printf_call, e, uart1_printf_plain _ (by decide) (by decide),
    uart1_printf_cons_str _ _ _ _ h0, uart1_printf_text _ (by decide) (by decide)]
  simp only [Except.bind]
  rw [printf_call, uart1_printf_text _ (by decide) (by decide)]
  simp only [List.append_assoc, msgUnknown]
  rfl

/-- Claim C17. For every command table and every argument vector with
first string `argv0`: if `e` is the first entry named `argv0` (the entries
before it have other names) and its function is `f`, the dispatch part of
`shell_main` calls `f` on `(argc, argv)`, and only `f`: its result is the
result of that call followed by the status report; and if no entry before the
sentinel (the first entry whose name is `NULL`) is named `argv0`, no function of
the table is called: the result is the state at entry with the two lines of the
unknown-command message, naming `argv0`, sent, and the loop goes on from there.
Names are compared byte for byte by `strcmp`. -/
theorem shell_dispatch_first_match (pre : List cmd_descr) (e : cmd_descr)
    (post : List cmd_descr) (f : CmdFunc) (named : List cmd_descr) (sentinel : cmd_descr)
    (rest : List cmd_descr) (argc : Nat) (argv0 : List Nat) (args : List (List Nat)) (u : Uart)
    (h0 : 0 ∉ argv0)
    (hpre : ∀ d ∈ pre, ∃ nm, d.name = some nm ∧ 0 ∉ nm ∧ nm ≠ argv0)
    (he : e.name = some argv0) (hf : e.func = some f)
    (hnamed : ∀ d ∈ named, ∃ nm, d.name = some nm ∧ 0 ∉ nm ∧ nm ≠ argv0)
    (hs : sentinel.name = none) :
    shell_dispatch (pre ++ e :: post) argc (argv0 :: args) u
        = (f argc (argv0 :: args) u).bind (fun r => report_status r.1 r.2)
      ∧ shell_dispatch (named ++ sentinel :: rest) argc (argv0 :: args) u
        = Except.ok ⟨u.rx, u.pos, u.tx ++ msgUnknown argv0⟩ := by
  constructor
  · have h1 := find_cmd_skip argv0 h0 pre hpre (e :: post)
    rw [find_cmd_hit argv0 h0 e he] at h1
    simp only [shell_dispatch, h1, bind, Except.bind, he, hf]
  · have h1 := find_cmd_skip argv0 h0 named hnamed (sentinel :: rest)
    rw [find_cmd_sentinel argv0 sentinel hs] at h1
    have h2 := printf_unknown argv0 h0 u
    simp only [shell_dispatch, h1, bind, Except.bind, hs] at h2 ⊢
    exact h2

/-- The table of step 07 and the line `echo hi`: the first entry, `help`, is
passed over and `echo` is called; over a table without `echo` the command is
unknown. -/
theorem shell_dispatch_first_match_witness :
    shell_dispatch
        ([⟨some [104, 101, 108, 112], some [108], some (help cmds_listing)⟩]
          ++ ⟨some [101, 99, 104, 111], some [112], some echo⟩
            :: [⟨some [104, 101, 120, 100, 117, 109, 112], some [100], some (hexdump (fun _ => none))⟩,
                ⟨none, none, none⟩])
        2 ([101, 99, 104, 111] :: [[104, 105]]) ⟨fun _ => 0, 0, []⟩
        = (echo 2 ([101, 99, 104, 111] :: [[104, 105]]) ⟨fun _ => 0, 0, []⟩).bind
            (fun r => report_status r.1 r.2)
      ∧ shell_dispatch
          ([⟨some [104, 101, 108, 112], some [108], some (help cmds_listing)⟩,
            ⟨some [104, 101, 120, 100, 117, 109, 112], some [100], some (hexdump (fun _ => none))⟩]
            ++ ⟨none, none, none⟩ :: [])
          2 ([101, 99, 104, 111] :: [[104, 105]]) ⟨fun _ => 0, 0, []⟩
        = Except.ok ⟨(⟨fun _ => 0, 0, []⟩ : Uart).rx, (⟨fun _ => 0, 0, []⟩ : Uart).pos,
            (⟨fun _ => 0, 0, []⟩ : Uart).tx ++ msgUnknown [101, 99, 104, 111]⟩ :=
  shell_dispatch_first_match _ _ _ echo _ _ _ 2 [101, 99, 104, 111] [[104, 105]] _ (by decide)
    (by
      intro d hd
      rw [List.mem_singleton] at hd
      subst hd
      exact ⟨_, rfl, by decide, by decide⟩)
    rfl rfl
    (by
      intro d hd
      rw [List.mem_cons, List.mem_singleton] at hd
      rcases hd with hd | hd
      · subst hd
        exact ⟨_, rfl, by decide, by decide⟩
      · subst hd
        exact ⟨_, rfl, by decide, by decide⟩)
    rfl

theorem printf_no_arguments (argv0 : List Nat) (h0 : 0 ∉ argv0) (u : Uart) :
    printf_call fmt_no_arguments [VArg.str argv0] u
      = Except.ok ⟨u.rx, u.pos, u.tx ++ msgNoArguments argv0⟩ := by
  have e : fmt_no_arguments
      = [69, 114, 114, 111, 114, 58, 32, 34] ++ 37 :: 115 ::
        [34, 32, 100, 111, 101, 115, 32, 110, 111, 116, 32, 101, 120, 112, 101, 99, 116, 32, 97,
          114, 103, 117, 109, 101, 110, 116, 115, 46, 10] := rfl
  rw [printf_call, e, uart1_printf_plain _ (by decide) (by decide),
    uart1_printf_cons_str _ _ _ _ h0, uart1_printf_text _ (by decide) (by decide)]
  simp only [List.append_assoc, msgNoArguments]
  rfl

theorem printf_list_entry (name doc : List Nat) (hn : 0 ∉ name) (hd : 0 ∉ doc) (u : Uart) :
    printf_call fmt_list_entry [VArg.str name, VArg.str doc] u
      = Except.ok ⟨u.rx, u.pos,
          u.tx ++ ([45, 32, 34] ++ crlf name ++ [34, 58, 32] ++ crlf doc ++ [46, 13, 10])⟩ := by
  have e : fmt_list_entry
      = [45, 32, 34] ++ 37 :: 115 :: ([34, 58, 32] ++ 37 :: 115 :: [46, 10]) := rfl
  rw [printf_call, e, uart1_printf_plain _ (by decide) (by decide),
    uart1_printf_cons_str _ _ _ _ hn, uart1_printf_plain _ (by decide) (by decide),
    uart1_printf_cons_str _ _ _ _ hd, uart1_printf_text _ (by decide) (by decide)]
  simp only [List.append_assoc]
  rfl

theorem help_loop_spec (entries : List (List Nat × List Nat))
    (h0 : ∀ p ∈ entries, 0 ∉ p.1 ∧ 0 ∉ p.2) (d : Option (List Nat))
    (rest : List (Option (List Nat) × Option (List Nat))) : ∀ u : Uart,
    help_loop (entries.map (fun p => (some p.1, some p.2)) ++ (none, d) :: rest) u
      = Except.ok ⟨u.rx, u.pos, u.tx ++ helpLines entries⟩ := by
  induction entries with
  | nil => intro u; simp [help_loop, helpLines]
  | cons p ps ih =>
    intro u
    obtain ⟨hn, hd⟩ := h0 p (by simp)
    rw [List.map_cons, List.cons_append, help_loop, printf_list_entry p.1 p.2 hn hd]
    simp only [bind, Except.bind]
    rw [ih (fun q hq => h0 q (by simp [hq]))]
    simp only [helpLines, List.append_assoc]

/-- Claim C18. For every `argv` with first string `argv0`: `help` called with
`argc > 1` returns the status 1 and its only output is the error line naming
`argv0`, so no command is listed; called with `argc <= 1` over a table whose
entries before the sentinel have the names and descriptions `entries`, it
returns 0 and sends the header line and then, for each entry in table order,
one line `- "name": description.`; nothing after the sentinel is listed. -/
theorem help_status_and_listing (entries : List (List Nat × List Nat)) (d : Option (List Nat))
    (rest : List (Option (List Nat) × Option (List Nat))) (argc : Nat) (argv0 : List Nat)
    (args : List (List Nat)) (u : Uart)
    (h0 : 0 ∉ argv0) (he : ∀ p ∈ entries, 0 ∉ p.1 ∧ 0 ∉ p.2) :
    help (entries.map (fun p => (some p.1, some p.2)) ++ (none, d) :: rest) argc (argv0 :: args) u
      = if argc > 1 then Except.ok (1, ⟨u.rx, u.pos, u.tx ++ msgNoArguments argv0⟩)
        else Except.ok (0, ⟨u.rx, u.pos, u.tx ++ msgListHeader ++ helpLines entries⟩) := by
  unfold help
  by_cases h : argc > 1
  · rw [if_pos h, if_pos h]
    simp only [printf_no_arguments argv0 h0, bind, Except.bind, pure, Except.pure]
  · rw [if_neg h, if_neg h]
    have e : printf_call fmt_list_header [] u
        = Except.ok ⟨u.rx, u.pos, u.tx ++ msgListHeader⟩ := by
      rw [printf_call, uart1_printf_text _ (by decide) (by decide)]
      rfl
    simp only [e, bind, Except.bind, pure, Except.pure, help_loop_spec entries he]

/-- The table of step 07: `help` alone lists the three commands, `help x`
sends the error line only. -/
theorem help_status_and_listing_witness :
    help cmds_listing 1 ([104, 101, 108, 112] :: []) ⟨fun _ => 0, 0, [62, 32]⟩
        = Except.ok (0, ⟨(⟨fun _ => 0, 0, [62, 32]⟩ : Uart).rx, (⟨fun _ => 0, 0, [62, 32]⟩ : Uart).pos,
            (⟨fun _ => 0, 0, [62, 32]⟩ : Uart).tx ++ msgListHeader
              ++ helpLines
                  [([104, 101, 108, 112],
                    [108, 105, 115, 116, 32, 116, 104, 101, 32, 97, 118, 97, 105, 108, 97, 98, 108,
                      101, 32, 99, 111, 109, 109, 97, 110, 100, 115]),
                   ([101, 99, 104, 111],
                    [112, 114, 105, 110, 116, 32, 101, 97, 99, 104, 32, 111, 102, 32, 105, 116, 115,
                      32, 97, 114, 103, 117, 109, 101, 110, 116, 115]),
                   ([104, 101, 120, 100, 117, 109, 112],
                    [100, 117, 109, 112, 32, 109, 101, 109, 111, 114, 121, 32, 115, 116, 97, 114,
                      116, 105, 110, 103, 32, 97, 116, 32, 65, 82, 71, 49, 32, 102, 111, 114, 32, 65,
                      82, 71, 50, 32, 98, 121, 116, 101, 115])]⟩)
      ∧ help cmds_listing 2 ([104, 101, 108, 112] :: [[120]]) ⟨fun _ => 0, 0, [62, 32]⟩
        = Except.ok (1, ⟨(⟨fun _ => 0, 0, [62, 32]⟩ : Uart).rx, (⟨fun _ => 0, 0, [62, 32]⟩ : Uart).pos,
            (⟨fun _ => 0, 0, [62, 32]⟩ : Uart).tx ++ msgNoArguments [104, 101, 108, 112]⟩) :=
  ⟨help_status_and_listing
      [([104, 101, 108, 112],
        [108, 105, 115, 116, 32, 116, 104, 101, 32, 97, 118, 97, 105, 108, 97, 98, 108,
          101, 32, 99, 111, 109, 109, 97, 110, 100, 115]),
       ([101, 99, 104, 111],
        [112, 114, 105, 110, 116, 32, 101, 97, 99, 104, 32, 111, 102, 32, 105, 116, 115,
          32, 97, 114, 103, 117, 109, 101, 110, 116, 115]),
       ([104, 101, 120, 100, 117, 109, 112],
        [100, 117, 109, 112, 32, 109, 101, 109, 111, 114, 121, 32, 115, 116, 97, 114,
          116, 105, 110, 103, 32, 97, 116, 32, 65, 82, 71, 49, 32, 102, 111, 114, 32, 65,
          82, 71, 50, 32, 98, 121, 116, 101, 115])]
      none [] 1 [104, 101, 108, 112] [] _ (by decide) (by decide),
    help_status_and_listing
      [([104, 101, 108, 112],
        [108, 105, 115, 116, 32, 116, 104, 101, 32, 97, 118, 97, 105, 108, 97, 98, 108,
          101, 32, 99, 111, 109, 109, 97, 110, 100, 115]),
       ([101, 99, 104, 111],
        [112, 114, 105, 110, 116, 32, 101, 97, 99, 104, 32, 111, 102, 32, 105, 116, 115,
          32, 97, 114, 103, 117, 109, 101, 110, 116, 115]),
       ([104, 101, 120, 100, 117, 109, 112],
        [100, 117, 109, 112, 32, 109, 101, 109, 111, 114, 121, 32, 115, 116, 97, 114,
          116, 105, 110, 103, 32, 97, 116, 32, 65, 82, 71, 49, 32, 102, 111, 114, 32, 65,
          82, 71, 50, 32, 98, 121, 116, 101, 115])]
      none [] 2 [104, 101, 108, 112] [[120]] _ (by decide) (by decide)⟩

/-! ## `hexdump`: the code at the failing inputs -/

section HexdumpRuns

set_option maxRecDepth 100000

/-- Claim C19, the code at the failing input. With the bytes `0x41`, `0x42` at
the addresses `0x40`, `0x41`, the command `hexdump 0x40 1` returns 0 and sends
one row, `0000000000000040: 4142 `, seven blank groups of five spaces, a space,
the gutter `A` and the line end: the hex area renders the byte at `0x41`, which
is outside the 1-byte region, next to the byte at `0x40`, so 14 and not 15 of
its 16 byte positions are blank. The gutter has one character. -/
theorem hexdump_one_byte_renders_two :
    (hexdump (blobMem 0x40 [0x41, 0x42]) 3
        [[104, 101, 120, 100, 117, 109, 112], [48, 120, 52, 48], [49]] ⟨fun _ => 0, 0, []⟩).map
      (fun r => (r.1, r.2.tx))
      = Except.ok (0,
          [48, 48, 48, 48, 48, 48, 48, 48, 48, 48, 48, 48, 48, 48, 52, 48, 58, 32,
           52, 49, 52, 50, 32,
           32, 32, 32, 32, 32, 32, 32, 32, 32, 32, 32, 32, 32, 32, 32, 32, 32, 32, 32, 32,
           32, 32, 32, 32, 32, 32, 32, 32, 32, 32, 32, 32, 32, 32, 32,
           32, 65, 13, 10]) := by
  rfl

/-- Claim C20, the code at the failing input. The command `hexdump 0xFF 0`,
whose address is `0x` followed by hexadecimal digits, returns the status 1
with the error line for ARG1, whereas `hexdump 0xff 0` returns 0: `strtou64`
stops at the uppercase `F` (its branch for uppercase letters tests the range
`'A'..'A'`). A size written in hexadecimal, as in `hexdump 0xff 0x10`, is
refused with the error line for ARG2 and the status 1. -/
theorem hexdump_uppercase_address_rejected :
    (hexdump (fun _ => none) 3
        [[104, 101, 120, 100, 117, 109, 112], [48, 120, 70, 70], [48]] ⟨fun _ => 0, 0, []⟩).map
      (fun r => (r.1, r.2.tx)) = Except.ok (1, crlf fmt_hexdump_arg1)
    ∧ (hexdump (fun _ => none) 3
        [[104, 101, 120, 100, 117, 109, 112], [48, 120, 102, 102], [48]] ⟨fun _ => 0, 0, []⟩).map
      (fun r => (r.1, r.2.tx)) = Except.ok (0, [])
    ∧ (hexdump (fun _ => none) 3
        [[104, 101, 120, 100, 117, 109, 112], [48, 120, 102, 102], [48, 120, 49, 48]]
        ⟨fun _ => 0, 0, []⟩).map
      (fun r => (r.1, r.2.tx)) = Except.ok (1, crlf fmt_hexdump_arg2) :=
  ⟨rfl, rfl, rfl⟩

end HexdumpRuns

/-! ## `strcmp` and the uppercase branch of `strtou64` -/

/-- Claim C22, the code at the failing input. `strcmp("a", "b")` returns 1, a
positive value, although `"a"` precedes `"b"`, and `strcmp("b", "a")` returns
-1: inside the loop the result is `c2 - c1`. After the loop the sign is the
standard one: `strcmp("a", "ab")` is -1 and `strcmp("ab", "a")` is 1. Equal
strings give 0. -/
theorem strcmp_sign_reversed :
    strcmp (litString [97]) (litString [98]) 2 = Except.ok 1
      ∧ strcmp (litString [98]) (litString [97]) 2 = Except.ok (-1)
      ∧ strcmp (litString [97]) (litString [97, 98]) 3 = Except.ok (-1)
      ∧ strcmp (litString [97, 98]) (litString [97]) 3 = Except.ok 1
      ∧ strcmp (litString [97, 98]) (litString [97, 98]) 3 = Except.ok 0 :=
  ⟨rfl, rfl, rfl, rfl, rfl⟩

/-- Claim C24. For every base `b` in `2..36` and every string that starts with
a block `digits` of decimal or lowercase digits of the base: an `'A'` after the
block is taken as the digit ten when `10 < b` (the string `digits ++ "A"` is
fully consumed and its value is that of `digits` times `b` plus 10), and is
the character at which parsing stops when `b <= 10`; every character `c` in
`'B'..'Z'` after the block is classified as no digit and parsing stops at it,
with the value of `digits` and the end pointer on `c` (value 0 and no
character consumed when the block is empty). -/
theorem strtou64_uppercase_only_A (b : Nat) (digits post : List Nat) (c : Nat)
    (hb : 2 ≤ b ∧ b ≤ 36) (hs : ∀ d ∈ digits, IsLowerDigit b d) (hc : 66 ≤ c ∧ c ≤ 90) :
    strtou64 (digits ++ [65]) (b : Int)
        = (if 10 < b then some ⟨(valueIn b digits * b + 10) % 2 ^ 64, none⟩
           else some ⟨valueIn b digits % 2 ^ 64, some digits.length⟩)
      ∧ strtou64_digit c = none
      ∧ strtou64 (digits ++ c :: post) (b : Int)
        = some ⟨valueIn b digits % 2 ^ 64, some digits.length⟩ := by
  have h1 : ¬ ((b : Int) < 2 ∨ (b : Int) > 36) := by omega
  have hcd : strtou64_digit c = none := by
    unfold strtou64_digit
    have c1 : ¬ (48 ≤ c ∧ c ≤ 57) := by omega
    have c2 : ¬ (97 ≤ c ∧ c ≤ 122) := by omega
    have c3 : ¬ (65 ≤ c ∧ c ≤ 65) := by omega
    rw [if_neg c1, if_neg c2, if_neg c3]
  have hAd : strtou64_digit 65 = some 10 := by decide
  have h0d : strtou64_digit 0 = none := by decide
  have hc0 : c ≠ 0 := by omega
  refine ⟨?_, hcd, ?_⟩
  · unfold strtou64
    simp only [h1, if_false, Int.toNat_ofNat]
    have key := strtou64_loop_digits b digits [65] hs [] 0 2
    simp only [List.nil_append, List.length_nil, Nat.zero_mod, Nat.zero_add] at key
    have e1 : (digits ++ [65]).length + 1 = 2 + digits.length := by
      simp only [List.length_append, List.length_cons, List.length_nil]; omega
    rw [e1, key, strtou64_loop]
    have e3 := charAt_append_mid digits [] 65
    simp only [e3, hAd]
    by_cases hlt : 10 < b
    · have hge : ¬ (10 ≥ b) := by omega
      rw [if_neg hge, if_pos hlt, strtou64_loop]
      have e4 : charAt (digits ++ [65]) (digits.length + 1) = 0 := by
        have := charAt_append_end (digits ++ [65])
        simpa using this
      simp only [e4, h0d]
      have hne : digits.length + 1 ≠ 0 := by omega
      rw [if_pos trivial]
      have e5 : (valueFrom b 0 digits % 2 ^ 64 * b + 10) % 2 ^ 64
          = (valueIn b digits * b + 10) % 2 ^ 64 := by
        unfold valueIn
        simp [Nat.add_mod, Nat.mul_mod]
      rw [e5, if_neg hne]
    · have hge : 10 ≥ b := by omega
      rw [if_pos hge, if_neg hlt]
      by_cases hl : digits.length = 0
      · have hd : digits = [] := List.length_eq_zero.mp hl
        subst hd
        simp [valueIn, valueFrom]
      · rw [if_neg hl]
        rfl
  · unfold strtou64
    simp only [h1, if_false, Int.toNat_ofNat]
    have key := strtou64_loop_digits b digits (c :: post) hs [] 0 (post.length + 2)
    simp only [List.nil_append, List.length_nil, Nat.zero_mod, Nat.zero_add] at key
    have e1 : (digits ++ c :: post).length + 1 = post.length + 2 + digits.length := by
      simp only [List.length_append, List.length_cons]; omega
    rw [e1, key, strtou64_loop]
    have e3 := charAt_append_mid digits post c
    simp only [e3, hcd]
    by_cases hl : digits.length = 0
    · have hd : digits = [] := List.length_eq_zero.mp hl
      subst hd
      simp [valueIn, valueFrom]
    · rw [if_neg hl, if_neg hc0]
      rfl

/-- Base 16: `"A"` gives 10 and `"1A"` gives 26, fully consumed; `"FF"` gives 0
with no character consumed and `"1F"` gives 1 and stops at `F`, whereas `"ff"`
gives 255. -/
theorem strtou64_uppercase_only_A_witness :
    (strtou64 ([49] ++ [65]) ((16 : Nat) : Int)
        = (if 10 < 16 then some ⟨(valueIn 16 [49] * 16 + 10) % 2 ^ 64, none⟩
           else some ⟨valueIn 16 [49] % 2 ^ 64, some [49].length⟩)
      ∧ strtou64_digit 70 = none
      ∧ strtou64 ([49] ++ 70 :: []) ((16 : Nat) : Int)
        = some ⟨valueIn 16 [49] % 2 ^ 64, some [49].length⟩)
    ∧ strtou64 [65] 16 = some ⟨10, none⟩
    ∧ strtou64 [49, 65] 16 = some ⟨26, none⟩
    ∧ strtou64 [70, 70] 16 = some ⟨0, some 0⟩
    ∧ strtou64 [49, 70] 16 = some ⟨1, some 1⟩
    ∧ strtou64 [102, 102] 16 = some ⟨255, none⟩ :=
  ⟨strtou64_uppercase_only_A 16 [49] [] 70 (by decide) (by decide) (by decide),
    by decide, by decide, by decide, by decide, by decide⟩

/-! ## The cursor of the device-tree walk -/

/-- Claim C25. The blob is loaded at a 4-byte aligned address `base`, the
cursor is at offset `p` and the 32-bit token there is `v`, followed by a node
name `name` and its NUL when `v` is `BEGIN_NODE` and by the big-endian fields
`len` and `nameoff` when `v` is `PROP`. Then `fdt_read_piece` returns the
cursor, the token and as next cursor: for `BEGIN_NODE` the offset
`roundup4 (p + 4 + k + 1)` with `k` the length of the name, for `END_NODE`
`roundup4 (p + 4)`, for `PROP` `roundup4 (p + 12 + len)`, and `NULL` for `END`
and every other token. `roundup4 x` is the least multiple of 4 that is at
least `x`. -/
theorem fdt_read_piece_next (mem : Mem) (base p n v len nameoff : Nat) (name rest : List Nat)
    (hbase : base % 4 = 0) (hv : v < 2 ^ 32) (hlen : len < 2 ^ 32) (hno : nameoff < 2 ^ 32)
    (hname : IsText name) (hn : name.length < n)
    (hw : base + p + 16 + name.length + len < 2 ^ 64)
    (hmem : Holds mem (base + p)
      (be32 v ++ (if v = 1 then name ++ [0] else if v = 3 then be32 len ++ be32 nameoff else [])
        ++ rest)) :
    fdt_read_piece mem n (base + p)
        = Except.ok ⟨base + p, v,
            if v = FDT_BEGIN_NODE then base + roundup4 (p + 4 + name.length + 1)
            else if v = FDT_END_NODE then base + roundup4 (p + 4)
            else if v = FDT_PROP then base + roundup4 (p + 12 + len)
            else 0⟩
      ∧ ∀ x, roundup4 x % 4 = 0 ∧ x ≤ roundup4 x ∧ ∀ m, m % 4 = 0 → x ≤ m → roundup4 x ≤ m := by
  refine ⟨?_, fun x => ⟨by unfold roundup4; omega, by unfold roundup4; omega,
    fun m h1 h2 => by unfold roundup4; omega⟩⟩
  have e4 : ∀ w, (be32 w).length = 4 := by intro w; simp [be32]
  by_cases c1 : v = 1
  · subst c1
    have h1 : Holds mem (base + p) (be32 1 ++ (name ++ 0 :: rest)) := by
      simpa using hmem
    have r1 := read_be_holds h1 (by norm_num) (by omega)
    have h2 := holds_append_right h1
    rw [e4] at h2
    have r2 := skip_name_holds name _ hname (base + p + 4) n h2 (by omega) hn
    have e5 : padd (base + p + 4 + name.length) 1 = base + p + 4 + name.length + 1 :=
      padd_eq _ _ (by omega)
    have e6 := FDT_ALIGN_eq (base + p + 4 + name.length + 1) (by omega)
    simp only [fdt_read_piece, r1, bind, Except.bind, if_true, padd_eq (base + p) 4 (by omega),
      r2, e5, e6, pure, Except.pure]
    congr 2
    unfold roundup4
    omega
  by_cases c2 : v = 2
  · subst c2
    have h1 : Holds mem (base + p) (be32 2 ++ rest) := by simpa using hmem
    have r1 := read_be_holds h1 (by norm_num) (by omega)
    have e6 := FDT_ALIGN_eq (base + p + 4) (by omega)
    simp only [fdt_read_piece, r1, bind, Except.bind, padd_eq (base + p) 4 (by omega), e6, pure,
      Except.pure]
    simp
    unfold roundup4
    omega
  by_cases c3 : v = 3
  · subst c3
    have h1 : Holds mem (base + p) (be32 3 ++ (be32 len ++ (be32 nameoff ++ rest))) := by
      simpa using hmem
    have r1 := read_be_holds h1 (by norm_num) (by omega)
    have h2 := holds_append_right h1
    rw [e4] at h2
    have r2 := read_be_holds h2 hlen (by omega)
    have h3 := holds_append_right h2
    rw [e4, Nat.add_assoc] at h3
    have r3 := read_be_holds h3 hno (by omega)
    have e5 : padd (padd (base + p) 12) len = base + p + 12 + len := by
      rw [padd_eq (base + p) 12 (by omega), padd_eq _ _ (by omega)]
    have e6 := FDT_ALIGN_eq (base + p + 12 + len) (by omega)
    have e8 : padd (base + p) 8 = base + p + (4 + 4) := padd_eq (base + p) 8 (by omega)
    simp only [fdt_read_piece, r1, bind, Except.bind, padd_eq (base + p) 4 (by omega), r2, e8, r3,
      e5, e6, pure, Except.pure]
    simp
    unfold roundup4
    omega
  · have h1 : Holds mem (base + p) (be32 v ++ rest) := by
      simpa [c1, c3] using hmem
    have r1 := read_be_holds h1 hv (by omega)
    simp only [fdt_read_piece, r1, bind, Except.bind, c1, c2, c3, if_false, pure, Except.pure,
      ite_self]

section CursorRuns

set_option maxRecDepth 100000

/-- The property token at offset 60 of `sampleBlobPlain`, loaded at address
64: its length field is 3 and the next cursor is at offset `roundup4 75`, that
is 76. -/
theorem fdt_read_piece_next_witness :
    (fdt_read_piece (blobMem 64 sampleBlobPlain) 100 (64 + 60)
        = Except.ok ⟨64 + 60, 3,
            if 3 = FDT_BEGIN_NODE then 64 + roundup4 (60 + 4 + ([] : List Nat).length + 1)
            else if 3 = FDT_END_NODE then 64 + roundup4 (60 + 4)
            else if 3 = FDT_PROP then 64 + roundup4 (60 + 12 + 3)
            else 0⟩
      ∧ ∀ x, roundup4 x % 4 = 0 ∧ x ≤ roundup4 x ∧ ∀ m, m % 4 = 0 → x ≤ m → roundup4 x ≤ m)
    ∧ fdt_read_piece (blobMem 64 sampleBlobPlain) 100 124 = Except.ok ⟨124, 3, 140⟩ :=
  ⟨fdt_read_piece_next (blobMem 64 sampleBlobPlain) 64 60 100 3 3 9 [] [] (by decide) (by decide)
    (by decide) (by decide) (by decide) (by decide) (by decide) (by decide), rfl⟩

/-- Claim C23, the code at the failing input. In the blob of `sampleToksNop`
the root node is followed by a `NOP` token and then by the node `chosen` with
the property `bootargs = "console=ttyS0"`. `fdt_read_piece` returns `NULL` as
next cursor at the `NOP` (offset 48) and `dtb_print_bootargs` returns there
without sending anything, whereas on the same blob without the `NOP` it sends
`cmdline = 'console=ttyS0'`. -/
theorem dtb_nop_stops_walk :
    fdt_read_piece (blobMem 64 (sampleBlobOf sampleToksNop)) 200 (64 + 48)
        = Except.ok ⟨112, FDT_NOP, 0⟩
      ∧ (dtb_print_bootargs (blobMem 64 (sampleBlobOf sampleToksNop)) 64 200
          ⟨fun _ => 0, 0, []⟩).map (fun u => u.tx) = Except.ok []
      ∧ (dtb_print_bootargs
          (blobMem 64 (sampleBlobOf
            [Tok.beginNode [], Tok.beginNode str_chosen, Tok.prop 0 (sampleValue ++ 0 :: []),
              Tok.endNode, Tok.endNode])) 64 200
          ⟨fun _ => 0, 0, []⟩).map (fun u => u.tx)
        = Except.ok ([99, 109, 100, 108, 105, 110, 101, 32, 61, 32, 39]
            ++ [99, 111, 110, 115, 111, 108, 101, 61, 116, 116, 121, 83, 48] ++ [39, 13, 10]) :=
  ⟨rfl, rfl, rfl⟩

end CursorRuns

/-! ## Progress and termination of the device-tree walk -/

theorem bind_ne_fuel {α β : Type} (x : Except Err α) (f : α → Except Err β)
    (hx : x ≠ Except.error Err.fuel) (hf : ∀ a, x = Except.ok a → f a ≠ Except.error Err.fuel) :
    (x >>= f) ≠ Except.error Err.fuel := by
  cases x with
  | error e =>
    intro h
    apply hx
    simpa [bind, Except.bind] using h
  | ok a => exact hf a rfl

theorem load_ne_fuel (mem : Mem) (a : Nat) : load mem a ≠ Except.error Err.fuel := by
  unfold load
  cases mem a <;> simp

theorem load_bound {mem : Mem} {M a c : Nat} (hM : ∀ a v, mem a = some v → a < M)
    (h : load mem a = Except.ok c) : a < M := by
  unfold load at h
  cases hm : mem a with
  | none => rw [hm] at h; simp at h
  | some v => exact hM a v hm

theorem read_be_ne_fuel (mem : Mem) (p : Nat) : read_be mem p ≠ Except.error Err.fuel := by
  unfold read_be
  refine bind_ne_fuel _ _ (load_ne_fuel _ _) (fun b0 _ => ?_)
  refine bind_ne_fuel _ _ (load_ne_fuel _ _) (fun b1 _ => ?_)
  refine bind_ne_fuel _ _ (load_ne_fuel _ _) (fun b2 _ => ?_)
  refine bind_ne_fuel _ _ (load_ne_fuel _ _) (fun b3 _ => ?_)
  simp [pure, Except.pure]

theorem read_be_bound {mem : Mem} {M p v : Nat} (hM : ∀ a v, mem a = some v → a < M)
    (h : read_be mem p = Except.ok v) : p < M ∧ v < 2 ^ 32 := by
  unfold read_be at h
  cases h0 : load mem p with
  | error e => rw [h0] at h; simp [bind, Except.bind] at h
  | ok b0 =>
    refine ⟨load_bound hM h0, ?_⟩
    rw [h0] at h
    cases h1 : load mem (padd p 1) with
    | error e => rw [h1] at h; simp [bind, Except.bind] at h
    | ok b1 =>
      rw [h1] at h
      cases h2 : load mem (padd p 2) with
      | error e => rw [h2] at h; simp [bind, Except.bind] at h
      | ok b2 =>
        rw [h2] at h
        cases h3 : load mem (padd p 3) with
        | error e => rw [h3] at h; simp [bind, Except.bind] at h
        | ok b3 =>
          rw [h3] at h
          simp only [bind, Except.bind, pure, Except.pure, Except.ok.injEq] at h
          rw [← h]
          exact Nat.mod_lt _ (by norm_num)

theorem skip_name_bound {mem : Mem} {M : Nat} (hM : ∀ a v, mem a = some v → a < M)
    (hMb : M < 2 ^ 64) : ∀ (fuel ps q : Nat), skip_name mem fuel ps = Except.ok q →
      ps ≤ q ∧ q < M := by
  intro fuel
  induction fuel with
  | zero => intro ps q h; simp [skip_name] at h
  | succ fuel ih =>
    intro ps q h
    rw [skip_name] at h
    cases h0 : load mem ps with
    | error e => rw [h0] at h; simp [bind, Except.bind] at h
    | ok c =>
      have hb := load_bound hM h0
      rw [h0] at h
      simp only [bind, Except.bind] at h
      by_cases hc : c ≠ 0
      · rw [if_pos hc, padd_eq ps 1 (by omega)] at h
        have := ih (ps + 1) q h
        omega
      · rw [if_neg hc] at h
        simp only [pure, Except.pure, Except.ok.injEq] at h
        omega

theorem skip_name_ne_fuel {mem : Mem} {M : Nat} (hM : ∀ a v, mem a = some v → a < M)
    (hMb : M < 2 ^ 64) : ∀ (fuel ps : Nat), M < fuel + ps → 0 < fuel →
      skip_name mem fuel ps ≠ Except.error Err.fuel := by
  intro fuel
  induction fuel with
  | zero => intro ps _ h; omega
  | succ fuel ih =>
    intro ps h1 _
    rw [skip_name]
    refine bind_ne_fuel _ _ (load_ne_fuel _ _) (fun c hc => ?_)
    have hb := load_bound hM hc
    by_cases h0 : c ≠ 0
    · rw [if_pos h0, padd_eq ps 1 (by omega)]
      exact ih (ps + 1) (by omega) (by omega)
    · rw [if_neg h0]
      simp [pure, Except.pure]

theorem read_cstr_ne_fuel {mem : Mem} {M : Nat} (hM : ∀ a v, mem a = some v → a < M)
    (hMb : M < 2 ^ 64) : ∀ (fuel p : Nat), M < fuel + p → 0 < fuel →
      read_cstr mem fuel p ≠ Except.error Err.fuel := by
  intro fuel
  induction fuel with
  | zero => intro p _ h; omega
  | succ fuel ih =>
    intro p h1 _
    rw [read_cstr]
    refine bind_ne_fuel _ _ (load_ne_fuel _ _) (fun c hc => ?_)
    have hb := load_bound hM hc
    by_cases h0 : c ≠ 0
    · rw [if_pos h0, padd_eq p 1 (by omega)]
      refine bind_ne_fuel _ _ (ih (p + 1) (by omega) (by omega)) (fun cs _ => ?_)
      simp [pure, Except.pure]
    · rw [if_neg h0]
      simp [pure, Except.pure]

theorem strcmp_loop_ne_fuel (s1 : Nat → Except Err Nat) (L : List Nat)
    (hs : ∀ i, s1 i ≠ Except.error Err.fuel) : ∀ (fuel i : Nat), L.length < fuel + i → 0 < fuel →
      strcmp_loop s1 (litString L) fuel i ≠ Except.error Err.fuel := by
  intro fuel
  induction fuel with
  | zero => intro i _ h; omega
  | succ fuel ih =>
    intro i h1 _
    rw [strcmp_loop]
    refine bind_ne_fuel _ _ (hs i) (fun c1 _ => ?_)
    simp only [litString, bind, Except.bind]
    by_cases hc : c1 ≠ 0 ∧ L.getD i 0 ≠ 0
    · rw [if_pos hc]
      have hi : i < L.length := by
        by_contra hge
        apply hc.2
        rw [List.getD_eq_getElem?_getD, List.getElem?_eq_none (by omega)]
        rfl
      split_ifs with hr
      · simp [pure, Except.pure]
      · exact ih (i + 1) (by omega) (by omega)
    · rw [if_neg hc]
      split_ifs <;> simp [pure, Except.pure]

theorem fdt_read_piece_ne_fuel {mem : Mem} {M : Nat} (hM : ∀ a v, mem a = some v → a < M)
    (hMb : M + 2 ^ 32 + 16 ≤ 2 ^ 64) (n p : Nat) (hn : M + 10 ≤ n) :
    fdt_read_piece mem n p ≠ Except.error Err.fuel := by
  unfold fdt_read_piece
  refine bind_ne_fuel _ _ (read_be_ne_fuel _ _) (fun token ht => ?_)
  split_ifs
  · refine bind_ne_fuel _ _ (skip_name_ne_fuel hM (by omega) n _ (by omega) (by omega))
      (fun ps _ => ?_)
    simp [pure, Except.pure]
  · simp [pure, Except.pure]
  · refine bind_ne_fuel _ _ (read_be_ne_fuel _ _) (fun _ _ => ?_)
    refine bind_ne_fuel _ _ (read_be_ne_fuel _ _) (fun _ _ => ?_)
    refine bind_ne_fuel _ _ (read_be_ne_fuel _ _) (fun _ _ => ?_)
    simp [pure, Except.pure]
  · simp [pure, Except.pure]
  · simp [pure, Except.pure]

theorem fdt_read_piece_progress {mem : Mem} {M : Nat} (hM : ∀ a v, mem a = some v → a < M)
    (hMb : M + 2 ^ 32 + 16 ≤ 2 ^ 64) (n p : Nat) (piece : fdt_structure_piece)
    (h : fdt_read_piece mem n p = Except.ok piece) :
    p < M ∧ ((piece.token = FDT_BEGIN_NODE ∨ piece.token = FDT_END_NODE ∨ piece.token = FDT_PROP) →
        piece.next % 4 = 0 ∧ p + 4 ≤ piece.next)
      ∧ (¬ (piece.token = FDT_BEGIN_NODE ∨ piece.token = FDT_END_NODE ∨ piece.token = FDT_PROP) →
        piece.next = 0) := by
  unfold fdt_read_piece at h
  cases ht : read_be mem p with
  | error e => rw [ht] at h; simp [bind, Except.bind] at h
  | ok token =>
    obtain ⟨hp, _⟩ := read_be_bound hM ht
    rw [ht] at h
    simp only [bind, Except.bind] at h
    refine ⟨hp, ?_⟩
    by_cases c1 : token = FDT_BEGIN_NODE
    · rw [if_pos c1] at h
      cases hs : skip_name mem n (padd p 4) with
      | error e => rw [hs] at h; simp at h
      | ok ps =>
        rw [hs] at h
        simp only [pure, Except.pure, Except.ok.injEq] at h
        rw [padd_eq p 4 (by omega)] at hs
        have hb := skip_name_bound hM (by omega) n (p + 4) ps hs
        have e : FDT_ALIGN (padd ps 1) = (ps + 1 + 3) / 4 * 4 := by
          rw [padd_eq ps 1 (by omega)]
          exact FDT_ALIGN_eq _ (by omega)
        subst h
        simp only [e]
        refine ⟨fun _ => by omega, fun hn => absurd (Or.inl c1) hn⟩
    · rw [if_neg c1] at h
      by_cases c2 : token = FDT_END_NODE
      · rw [if_pos c2] at h
        simp only [pure, Except.pure, Except.ok.injEq] at h
        have e : FDT_ALIGN (padd p 4) = (p + 4 + 3) / 4 * 4 := by
          rw [padd_eq p 4 (by omega)]
          exact FDT_ALIGN_eq _ (by omega)
        subst h
        simp only [e]
        refine ⟨fun _ => by omega, fun hn => absurd (Or.inr (Or.inl c2)) hn⟩
      · rw [if_neg c2] at h
        by_cases c3 : token = FDT_PROP
        · rw [if_pos c3] at h
          cases h2 : read_be mem (padd p 4) with
          | error e => rw [h2] at h; simp at h
          | ok len =>
            rw [h2] at h
            cases h3 : read_be mem (padd p 8) with
            | error e => rw [h3] at h; simp at h
            | ok v3 =>
              rw [h3] at h
              simp only [pure, Except.pure, Except.ok.injEq] at h
              obtain ⟨_, hl⟩ := read_be_bound hM h2
              have e0 : padd (padd p 12) len = p + 12 + len := by
                rw [padd_eq p 12 (by omega), padd_eq _ _ (by omega)]
              have e : FDT_ALIGN (padd (padd p 12) len) = (p + 12 + len + 3) / 4 * 4 := by
                rw [e0]
                exact FDT_ALIGN_eq _ (by omega)
              subst h
              simp only [e]
              refine ⟨fun _ => by omega, fun hn => absurd (Or.inr (Or.inr c3)) hn⟩
        · rw [if_neg c3] at h
          simp only [ite_self, pure, Except.pure, Except.ok.injEq] at h
          subst h
          refine ⟨fun hh => ?_, fun _ => rfl⟩
          rcases hh with hh | hh | hh
          · exact absurd hh c1
          · exact absurd hh c2
          · exact absurd hh c3

theorem dtb_walk_ne_fuel {mem : Mem} {M : Nat} (hM : ∀ a v, mem a = some v → a < M)
    (hMb : M + 2 ^ 32 + 16 ≤ 2 ^ 64) (dtb n : Nat) (hn : M + 10 ≤ n) :
    ∀ (fuel p : Nat) (cn : Option Nat) (u : Uart), M + 4 < 4 * fuel + p → 0 < fuel →
      dtb_walk mem dtb n fuel p cn u ≠ Except.error Err.fuel := by
  intro fuel
  induction fuel with
  | zero =>
    intro p cn u _ h
    omega
  | succ fuel ih =>
    intro p cn u hf _
    rw [dtb_walk]
    by_cases hp : p = 0
    · rw [if_pos hp]
      simp [pure, Except.pure]
    rw [if_neg hp]
    refine bind_ne_fuel _ _ (fdt_read_piece_ne_fuel hM hMb n p hn) (fun piece hpc => ?_)
    obtain ⟨hpM, hprog, _⟩ := fdt_read_piece_progress hM hMb n p piece hpc
    have hstr1 : ∀ q i, memString mem q i ≠ Except.error Err.fuel :=
      fun q i => load_ne_fuel _ _
    by_cases c1 : piece.token = FDT_BEGIN_NODE
    · rw [if_pos c1]
      have := hprog (Or.inl c1)
      exact ih _ _ _ (by omega) (by omega)
    rw [if_neg c1]
    by_cases c2 : piece.token = FDT_END_NODE
    · rw [if_pos c2]
      have := hprog (Or.inr (Or.inl c2))
      exact ih _ _ _ (by omega) (by omega)
    rw [if_neg c2]
    by_cases c3 : piece.token = FDT_PROP
    · rw [if_pos c3]
      have hnext := hprog (Or.inr (Or.inr c3))
      refine bind_ne_fuel _ _ (read_be_ne_fuel _ _) (fun nameoff _ => ?_)
      refine bind_ne_fuel _ _ ?_ (fun name _ => ?_)
      · unfold fdt_read_str
        refine bind_ne_fuel _ _ (read_be_ne_fuel _ _) (fun _ _ => ?_)
        simp [pure, Except.pure]
      cases cn with
      | none => simp
      | some node =>
        simp only []
        refine bind_ne_fuel _ _
          (strcmp_loop_ne_fuel _ str_chosen (hstr1 node) n 0
            (by simp [str_chosen]; omega) (by omega)) (fun r1 _ => ?_)
        by_cases hr1 : r1 = 0
        · rw [if_pos hr1]
          refine bind_ne_fuel _ _
            (strcmp_loop_ne_fuel _ str_bootargs (hstr1 name) n 0
              (by simp [str_bootargs]; omega) (by omega)) (fun r2 _ => ?_)
          by_cases hr2 : r2 = 0
          · rw [if_pos hr2]
            refine bind_ne_fuel _ _ (read_cstr_ne_fuel hM (by omega) n _ (by omega) (by omega))
              (fun bootargs _ => ?_)
            cases uart1_printf fmt_cmdline [VArg.str bootargs] u <;> simp [pure, Except.pure]
          · rw [if_neg hr2]
            exact ih _ _ _ (by omega) (by omega)
        · rw [if_neg hr1]
          exact ih _ _ _ (by omega) (by omega)
    rw [if_neg c3]
    split_ifs <;> simp [pure, Except.pure]

theorem blobMem_bound (base : Nat) (blob : List Nat) :
    ∀ a v, blobMem base blob a = some v → a < base + blob.length := by
  intro a v h
  unfold blobMem at h
  by_cases c : base ≤ a ∧ a < base + blob.length
  · exact c.2
  · rw [if_neg c] at h
    simp at h

/-- Claim C28. In a memory whose readable addresses all lie below `M`, with
`M + 2 ^ 32 + 16 <= 2 ^ 64` so that no address computed by the walk wraps:
whenever `fdt_read_piece` returns at a cursor `p` a next cursor that is not
`NULL` (the token is `BEGIN_NODE`, `END_NODE` or `PROP`), that cursor is a
multiple of 4 and at least `p + 4`; and `dtb_print_bootargs` ends within the
steps it is given as soon as these are at least `M + 10`: it returns or stops on
an unreadable address, and never runs out of steps. -/
theorem dtb_walk_progress_terminates (mem : Mem) (M : Nat)
    (hM : ∀ a v, mem a = some v → a < M) (hMb : M + 2 ^ 32 + 16 ≤ 2 ^ 64) :
    (∀ (n p : Nat) (piece : fdt_structure_piece), fdt_read_piece mem n p = Except.ok piece →
        piece.next ≠ 0 → piece.next % 4 = 0 ∧ p + 4 ≤ piece.next)
      ∧ ∀ (dtb fuel : Nat) (u : Uart), M + 10 ≤ fuel →
        dtb_print_bootargs mem dtb fuel u ≠ Except.error Err.fuel := by
  constructor
  · intro n p piece h hnext
    obtain ⟨_, h1, h2⟩ := fdt_read_piece_progress hM hMb n p piece h
    by_cases c : piece.token = FDT_BEGIN_NODE ∨ piece.token = FDT_END_NODE
        ∨ piece.token = FDT_PROP
    · exact h1 c
    · exact absurd (h2 c) hnext
  · intro dtb fuel u hf
    unfold dtb_print_bootargs
    refine bind_ne_fuel _ _ (read_be_ne_fuel _ _) (fun off _ => ?_)
    exact dtb_walk_ne_fuel hM hMb dtb fuel hf fuel _ none u (by omega) (by omega)

/-- The memory that holds `sampleBlobPlain` at address 64 and nothing else. -/
theorem dtb_walk_progress_terminates_witness :
    (∀ (n p : Nat) (piece : fdt_structure_piece),
        fdt_read_piece (blobMem 64 sampleBlobPlain) n p = Except.ok piece →
        piece.next ≠ 0 → piece.next % 4 = 0 ∧ p + 4 ≤ piece.next)
      ∧ ∀ (dtb fuel : Nat) (u : Uart), 64 + sampleBlobPlain.length + 10 ≤ fuel →
        dtb_print_bootargs (blobMem 64 sampleBlobPlain) dtb fuel u ≠ Except.error Err.fuel :=
  dtb_walk_progress_terminates (blobMem 64 sampleBlobPlain) (64 + sampleBlobPlain.length)
    (blobMem_bound 64 sampleBlobPlain) (by decide)

/-! ## `hexdump`: rows, hex area and gutter -/

theorem concatFrom_shift (f : Nat → List Nat) : ∀ (n k : Nat),
    concatFrom f n k = (List.range n).flatMap (fun i => f (k + i)) := by
  intro n
  induction n with
  | zero => intro k; rfl
  | succ n ih =>
    intro k
    rw [concatFrom, ih (k + 1), List.range_succ_eq_map, List.flatMap_cons, List.flatMap_map]
    have e : (fun i => f (k + 1 + i)) = (fun i => f (k + i)) ∘ Nat.succ := by
      funext i
      simp only [Function.comp]
      congr 1
      omega
    rw [e]
    rfl

theorem concatFrom_zero (f : Nat → List Nat) (n : Nat) :
    concatFrom f n 0 = (List.range n).flatMap f := by
  rw [concatFrom_shift]
  simp

theorem concatFrom_singles (g : Nat → Nat) (n : Nat) :
    concatFrom (fun j => [g j]) n 0 = (List.range n).map g := by
  rw [concatFrom_zero]
  induction (List.range n) with
  | nil => rfl
  | cons a l ih => simp [List.flatMap_cons, ih]

theorem printf_call_text (fmt : List Nat) (h0 : 0 ∉ fmt) (h37 : 37 ∉ fmt) (ap : List VArg)
    (u : Uart) : printf_call fmt ap u = Except.ok ⟨u.rx, u.pos, u.tx ++ crlf fmt⟩ := by
  rw [printf_call, uart1_printf_text fmt h0 h37]

theorem printf_call_chr (v : Nat) (u : Uart) :
    printf_call [37, 99] [VArg.num v] u = Except.ok ⟨u.rx, u.pos, u.tx ++ [v % 256]⟩ := by
  rw [printf_call, uart1_printf_cons_chr]
  rfl

theorem printf_call_pair (b0 b1 : Nat) (u : Uart) :
    printf_call [37, 98, 37, 98, 32] [VArg.num b0, VArg.num b1] u
      = Except.ok ⟨u.rx, u.pos, u.tx ++ (hexDigits (b0 % 256) 2 ++ hexDigits (b1 % 256) 2 ++ [32])⟩ := by
  rw [printf_call, uart1_printf_cons_b, uart1_printf_cons_b,
    uart1_printf_text [32] (by decide) (by decide)]
  simp only [List.append_assoc]
  rfl

theorem printf_call_w (w : Nat) (u : Uart) :
    printf_call [37, 119, 58, 32] [VArg.num w] u
      = Except.ok ⟨u.rx, u.pos, u.tx ++ (hexDigits (w % 2 ^ 64) 16 ++ [58, 32])⟩ := by
  rw [printf_call, uart1_printf_cons_w, uart1_printf_text [58, 32] (by decide) (by decide)]
  simp only [List.append_assoc]
  rfl

theorem load_total {mem : Mem} {byteAt : Nat → Nat} (hmem : ∀ a, mem a = some (byteAt a))
    (hb : ∀ a, byteAt a < 256) (a : Nat) : load mem a = Except.ok (byteAt a) := by
  unfold load
  rw [hmem a]
  simp only [Nat.mod_eq_of_lt (hb a)]

theorem gutterChar_lt (c : Nat) (hc : c < 256) : gutterChar c < 256 := by
  unfold gutterChar
  split_ifs <;> omega

theorem hexdump_pairs_spec {mem : Mem} {byteAt : Nat → Nat}
    (hmem : ∀ a, mem a = some (byteAt a)) (hb : ∀ a, byteAt a < 256)
    (addr size line : Nat) (hl : line * 16 + 15 < 2 ^ 64) :
    ∀ (fuel i : Nat) (u : Uart), i ≤ 8 → 8 - i < fuel →
      hexdump_pairs mem addr size line fuel (2 * i) u
        = Except.ok ⟨u.rx, u.pos,
            u.tx ++ concatFrom (hexGroupOf byteAt addr size line) (8 - i) i⟩ := by
  intro fuel
  induction fuel with
  | zero => intro i u _ h; omega
  | succ fuel ih =>
    intro i u hi hf
    rw [hexdump_pairs]
    by_cases hc : 2 * i < 16
    · rw [if_pos hc]
      have e1 : line * 16 % 2 ^ 64 = line * 16 := Nat.mod_eq_of_lt (by omega)
      have e2 : (line * 16 + 2 * i) % 2 ^ 64 = line * 16 + 2 * i := Nat.mod_eq_of_lt (by omega)
      have e3 : (2 * i + 2) % 2 ^ 64 = 2 * (i + 1) := by
        rw [Nat.mod_eq_of_lt (by omega)]
        omega
      have e4 : 8 - i = (8 - (i + 1)) + 1 := by omega
      have e5 : padd ((addr + line * 16 + 2 * i) % 2 ^ 64) 1
          = (addr + line * 16 + 2 * i + 1) % 2 ^ 64 := by
        unfold padd
        omega
      simp only [e1, e2, e3]
      rw [e4, concatFrom]
      by_cases hs : line * 16 + 2 * i < size
      · rw [if_pos hs]
        simp only [load_total hmem hb, e5, bind, Except.bind, printf_call_pair,
          Nat.mod_eq_of_lt (hb _)]
        rw [ih (i + 1) _ (by omega) (by omega)]
        simp only [hexGroupOf, if_pos hs, List.append_assoc]
      · rw [if_neg hs]
        have c1 : crlf [32, 32, 32, 32, 32] = [32, 32, 32, 32, 32] := rfl
        simp only [bind, Except.bind, c1,
          printf_call_text [32, 32, 32, 32, 32] (by decide) (by decide)]
        rw [ih (i + 1) _ (by omega) (by omega)]
        simp only [hexGroupOf, if_neg hs, List.append_assoc]
    · rw [if_neg hc]
      have e : 8 - i = 0 := by omega
      rw [e, concatFrom, List.append_nil]

theorem hexdump_gutter_spec {mem : Mem} {byteAt : Nat → Nat}
    (hmem : ∀ a, mem a = some (byteAt a)) (hb : ∀ a, byteAt a < 256)
    (addr size line : Nat) (hl : line * 16 + 15 < 2 ^ 64) :
    ∀ (fuel col : Nat) (u : Uart), col ≤ 16 → 16 - col < fuel →
      hexdump_gutter mem addr size line fuel col u
        = Except.ok ⟨u.rx, u.pos,
            u.tx ++ concatFrom
              (fun j => [gutterChar (byteAt ((addr + line * 16 + j) % 2 ^ 64))])
              (min 16 (size - line * 16) - col) col⟩ := by
  intro fuel
  induction fuel with
  | zero => intro col u _ h; omega
  | succ fuel ih =>
    intro col u hi hf
    rw [hexdump_gutter]
    by_cases hc : col < 16
    · rw [if_pos hc]
      have e1 : line * 16 % 2 ^ 64 = line * 16 := Nat.mod_eq_of_lt (by omega)
      have e2 : (line * 16 + col) % 2 ^ 64 = line * 16 + col := Nat.mod_eq_of_lt (by omega)
      have e3 : (col + 1) % 2 ^ 64 = col + 1 := Nat.mod_eq_of_lt (by omega)
      simp only [e1, e2, e3]
      by_cases hs : line * 16 + col ≥ size
      · rw [if_pos hs]
        have e : min 16 (size - line * 16) - col = 0 := by omega
        rw [e, concatFrom, List.append_nil]
      · rw [if_neg hs]
        have e4 : min 16 (size - line * 16) - col
            = (min 16 (size - line * 16) - (col + 1)) + 1 := by omega
        rw [e4, concatFrom]
        simp only [load_total hmem hb, bind, Except.bind, printf_call_chr]
        rw [ih (col + 1) _ (by omega) (by omega)]
        have e5 : (if byteAt ((addr + line * 16 + col) % 2 ^ 64) < 32
              ∨ byteAt ((addr + line * 16 + col) % 2 ^ 64) > 126 then 46
            else byteAt ((addr + line * 16 + col) % 2 ^ 64)) % 256
            = gutterChar (byteAt ((addr + line * 16 + col) % 2 ^ 64)) :=
          Nat.mod_eq_of_lt (gutterChar_lt _ (hb _))
        simp only [e5, List.append_assoc]
    · rw [if_neg hc]
      have e : min 16 (size - line * 16) - col = 0 := by omega
      rw [e, concatFrom, List.append_nil]

theorem except_ok_bind {α β : Type} (a : α) (f : α → Except Err β) :
    (Except.ok a >>= f) = f a := rfl

theorem dumpRow_eq (byteAt : Nat → Nat) (addr size k : Nat) :
    dumpRow byteAt addr size k
      = hexDigits ((addr + k * 16) % 2 ^ 64) 16 ++ [58, 32]
        ++ concatFrom (hexGroupOf byteAt addr size k) 8 0 ++ [32]
        ++ concatFrom (fun j => [gutterChar (byteAt ((addr + k * 16 + j) % 2 ^ 64))])
            (min 16 (size - k * 16)) 0
        ++ [13, 10] := by
  rw [concatFrom_zero, concatFrom_singles, dumpRow, gutterOf]

theorem hexdump_lines_spec {mem : Mem} {byteAt : Nat → Nat}
    (hmem : ∀ a, mem a = some (byteAt a)) (hb : ∀ a, byteAt a < 256)
    (addr size nb_lines : Nat) (hn : nb_lines * 16 ≤ 2 ^ 64) :
    ∀ (fuel line : Nat) (u : Uart), line ≤ nb_lines → nb_lines - line < fuel →
      hexdump_lines mem addr size nb_lines fuel line u
        = Except.ok ⟨u.rx, u.pos,
            u.tx ++ concatFrom (dumpRow byteAt addr size) (nb_lines - line) line⟩ := by
  intro fuel
  induction fuel with
  | zero => intro line u _ h; omega
  | succ fuel ih =>
    intro line u hi hf
    rw [hexdump_lines]
    by_cases hc : line < nb_lines
    · rw [if_pos hc]
      have hl : line * 16 + 15 < 2 ^ 64 := by omega
      have e1 : line * 16 % 2 ^ 64 = line * 16 := Nat.mod_eq_of_lt (by omega)
      have e3 : (line + 1) % 2 ^ 64 = line + 1 := Nat.mod_eq_of_lt (by omega)
      have e4 : nb_lines - line = (nb_lines - (line + 1)) + 1 := by omega
      have hp := hexdump_pairs_spec hmem hb addr size line hl 9 0
      have hg := hexdump_gutter_spec hmem hb addr size line hl 17 0
      simp only [Nat.mul_zero, Nat.sub_zero] at hp hg
      have er : concatFrom (dumpRow byteAt addr size) (nb_lines - line) line
          = dumpRow byteAt addr size line
            ++ concatFrom (dumpRow byteAt addr size) (nb_lines - (line + 1)) (line + 1) := by
        rw [e4, concatFrom]
      have c1 : crlf [32] = [32] := rfl
      have c2 : crlf [10] = [13, 10] := rfl
      rw [e1, printf_call_w, except_ok_bind, hp _ (by omega) (by omega), except_ok_bind,
        printf_call_text [32] (by decide) (by decide), except_ok_bind,
        hg _ (by omega) (by omega), except_ok_bind,
        printf_call_text [10] (by decide) (by decide), except_ok_bind, e3,
        ih (line + 1) _ (by omega) (by omega), er, dumpRow_eq, c1, c2, Nat.mod_mod]
      simp only [List.append_assoc]
    · rw [if_neg hc]
      have e : nb_lines - line = 0 := by omega
      rw [e, concatFrom, List.append_nil]

/-- Claim C27. Over a memory whose byte at address `a` is `byteAt a`, for
every `addr` and every `size` below `2 ^ 64`, the output loop of `hexdump`
returns 0 after sending the rows `0 .. (size + 15) / 16 - 1`, that is
`ceil (size / 16)` rows, each made of the address, `": "`, the hex area, a
space, the gutter and the line end; the gutter of row `k` has exactly
`min 16 (size - 16 k)` characters, the `j`-th being the byte at
`addr + 16 k + j` when that byte is in `0x20..0x7e` and `'.'` otherwise. -/
theorem hexdump_rows_and_gutter (mem : Mem) (byteAt : Nat → Nat)
    (hmem : ∀ a, mem a = some (byteAt a)) (hb : ∀ a, byteAt a < 256)
    (addr size : Nat) (hs : size < 2 ^ 64) (u : Uart) :
    hexdump_output mem addr size u
        = Except.ok (0, ⟨u.rx, u.pos,
            u.tx ++ (List.range ((size + 15) / 16)).flatMap (dumpRow byteAt addr size)⟩)
      ∧ ∀ k, (gutterOf byteAt addr size k).length = min 16 (size - k * 16)
        ∧ ∀ j, j < min 16 (size - k * 16) →
          (gutterOf byteAt addr size k)[j]?
            = some (if 32 ≤ byteAt ((addr + k * 16 + j) % 2 ^ 64)
                  ∧ byteAt ((addr + k * 16 + j) % 2 ^ 64) ≤ 126
                then byteAt ((addr + k * 16 + j) % 2 ^ 64) else 46) := by
  constructor
  · have enb : (size / 16 + (if size % 16 ≠ 0 then 1 else 0)) % 2 ^ 64 = (size + 15) / 16 := by
      split_ifs <;> omega
    unfold hexdump_output
    simp only [enb]
    rw [hexdump_lines_spec hmem hb addr size ((size + 15) / 16) (by omega)
      ((size + 15) / 16 + 1) 0 u (by omega) (by omega), except_ok_bind, Nat.sub_zero,
      concatFrom_zero]
    rfl
  · intro k
    refine ⟨by simp [gutterOf], fun j hj => ?_⟩
    unfold gutterOf
    rw [List.getElem?_map, List.getElem?_range hj]
    simp only [Option.map_some', gutterChar]
    by_cases c : byteAt ((addr + k * 16 + j) % 2 ^ 64) < 32
        ∨ byteAt ((addr + k * 16 + j) % 2 ^ 64) > 126
    · have c2 : ¬ (32 ≤ byteAt ((addr + k * 16 + j) % 2 ^ 64)
          ∧ byteAt ((addr + k * 16 + j) % 2 ^ 64) ≤ 126) := by omega
      rw [if_pos c, if_neg c2]
    · have c2 : 32 ≤ byteAt ((addr + k * 16 + j) % 2 ^ 64)
          ∧ byteAt ((addr + k * 16 + j) % 2 ^ 64) ≤ 126 := by omega
      rw [if_neg c, if_pos c2]

theorem strtou64_lower_digits (b : Nat) (s : List Nat) (hb : 2 ≤ b ∧ b ≤ 36) (hne : s ≠ [])
    (hs : ∀ c ∈ s, IsLowerDigit b c) :
    strtou64 s (b : Int) = some ⟨valueIn b s % 2 ^ 64, none⟩ := by
  unfold strtou64
  have h1 : ¬ ((b : Int) < 2 ∨ (b : Int) > 36) := by omega
  simp only [h1, if_false, Int.toNat_ofNat]
  have key := strtou64_loop_digits b s [] hs [] 0 1
  simp only [List.nil_append, List.append_nil, List.length_nil, Nat.zero_mod, Nat.zero_add] at key
  rw [Nat.add_comm, key, strtou64_loop]
  have hlen : s.length ≠ 0 := by simpa using hne
  simp [charAt_append_end, strtou64_digit, hlen, valueIn]

theorem strtou64_hexDigits (w : Nat) (hw : w < 2 ^ 64) :
    strtou64 (hexDigits w 16) 16 = some ⟨w, none⟩ := by
  have hne : hexDigits w 16 ≠ [] := by
    intro h
    have := hexDigits_length w 16
    rw [h] at this
    simp at this
  have hs : ∀ c ∈ hexDigits w 16, IsLowerDigit 16 c := by
    intro c hc
    have := hexDigits_chars w 16 c hc
    unfold IsHexChar at this
    unfold IsLowerDigit
    omega
  have h := strtou64_lower_digits 16 (hexDigits w 16) (by decide) hne hs
  have hv : valueIn 16 (hexDigits w 16) = w := hexDigits_valueIn w 16 (by norm_num; omega)
  rw [hv, Nat.mod_eq_of_lt hw] at h
  exact h

theorem strtou64_call_ok {nptr : List Nat} {base : Int} {r : ParseResult}
    (h : strtou64 nptr base = some r) : strtou64_call nptr base = Except.ok r := by
  unfold strtou64_call
  rw [h]

/-- Claim C29. For every 64-bit value `w`, the 16 characters `out` sent by
`uart1_printf("%w", w)` are parsed by `strtou64` in base 16 to exactly `w`,
fully consumed (end pointer `NULL`); and `hexdump` called with the address
argument `"0x"` followed by `out` and a decimal size argument `ds` accepts both
and dumps from the address `w`. -/
theorem printf_w_strtou64_roundtrip (w : Nat) (hw : w < 2 ^ 64) (mem : Mem) (argv0 ds : List Nat)
    (hne : ds ≠ []) (hds : ∀ c ∈ ds, IsLowerDigit 10 c) (u : Uart) :
    ∃ out : List Nat,
      uart1_printf [37, 119] [VArg.num w] u = some ⟨u.rx, u.pos, u.tx ++ out⟩
        ∧ out.length = 16
        ∧ strtou64 out 16 = some ⟨w, none⟩
        ∧ hexdump mem 3 [argv0, 48 :: 120 :: out, ds] u
          = hexdump_output mem w (valueIn 10 ds % 2 ^ 64) u := by
  refine ⟨hexDigits w 16, ?_, hexDigits_length w 16, strtou64_hexDigits w hw, ?_⟩
  · rw [uart1_printf_cons_w, Nat.mod_eq_of_lt hw]
    rfl
  · have h1 := strtou64_call_ok (strtou64_hexDigits w hw)
    have h2 : strtou64_call ds (10 : Int)
        = Except.ok ⟨valueIn 10 ds % 2 ^ 64, none⟩ :=
      strtou64_call_ok (strtou64_lower_digits 10 ds (by decide) hne hds)
    have e3 : ¬ ((3 : Nat) ≠ 3) := by decide
    have e4 : charAt (48 :: 120 :: hexDigits w 16) 0 = 48
        ∧ charAt (48 :: 120 :: hexDigits w 16) 1 = 120 := ⟨rfl, rfl⟩
    have e5 : (48 :: 120 :: hexDigits w 16).drop 2 = hexDigits w 16 := rfl
    unfold hexdump
    simp only [e3, if_false, e4, and_self, if_true, e5]
    rw [h1, except_ok_bind]
    simp only [ne_eq, not_true_eq_false, if_false]
    rw [h2, except_ok_bind]
    simp only [ne_eq, not_true_eq_false, if_false]

/-- The value `0xdeadbeef`: it is printed as `00000000deadbeef`, which parses
back to `0xdeadbeef`, and `hexdump 0x00000000deadbeef 0` is accepted. -/
theorem printf_w_strtou64_roundtrip_witness :
    (∃ out : List Nat,
      uart1_printf [37, 119] [VArg.num 0xdeadbeef] ⟨fun _ => 0, 0, []⟩
          = some ⟨(⟨fun _ => 0, 0, []⟩ : Uart).rx, (⟨fun _ => 0, 0, []⟩ : Uart).pos,
              (⟨fun _ => 0, 0, []⟩ : Uart).tx ++ out⟩
        ∧ out.length = 16
        ∧ strtou64 out 16 = some ⟨0xdeadbeef, none⟩
        ∧ hexdump (fun _ => none) 3 [[104, 101, 120, 100, 117, 109, 112], 48 :: 120 :: out, [48]]
            ⟨fun _ => 0, 0, []⟩
          = hexdump_output (fun _ => none) 0xdeadbeef (valueIn 10 [48] % 2 ^ 64)
              ⟨fun _ => 0, 0, []⟩)
    ∧ strtou64 [48, 48, 48, 48, 48, 48, 48, 48, 100, 101, 97, 100, 98, 101, 101, 102] 16
        = some ⟨0xdeadbeef, none⟩ :=
  ⟨printf_w_strtou64_roundtrip 0xdeadbeef (by decide) (fun _ => none)
      [104, 101, 120, 100, 117, 109, 112] [48] (by decide) (by decide) ⟨fun _ => 0, 0, []⟩,
    by decide⟩

/-- The memory whose byte at address `a` is `a % 256`, dumped for 18 bytes
from `0x7a`: two rows, with the gutters `z{|}~...........` and `..`. -/
theorem hexdump_rows_and_gutter_witness :
    hexdump_output (fun a => some (a % 256)) 0x7a 18 ⟨fun _ => 0, 0, []⟩
        = Except.ok (0, ⟨(⟨fun _ => 0, 0, []⟩ : Uart).rx, (⟨fun _ => 0, 0, []⟩ : Uart).pos,
            (⟨fun _ => 0, 0, []⟩ : Uart).tx
              ++ (List.range ((18 + 15) / 16)).flatMap (dumpRow (fun a => a % 256) 0x7a 18)⟩)
      ∧ ∀ k, (gutterOf (fun a => a % 256) 0x7a 18 k).length = min 16 (18 - k * 16)
        ∧ ∀ j, j < min 16 (18 - k * 16) →
          (gutterOf (fun a => a % 256) 0x7a 18 k)[j]?
            = some (if 32 ≤ (fun a => a % 256) ((0x7a + k * 16 + j) % 2 ^ 64)
                  ∧ (fun a => a % 256) ((0x7a + k * 16 + j) % 2 ^ 64) ≤ 126
                then (fun a => a % 256) ((0x7a + k * 16 + j) % 2 ^ 64) else 46) :=
  hexdump_rows_and_gutter (fun a => some (a % 256)) (fun a => a % 256) (fun _ => rfl)
    (fun a => Nat.mod_lt a (by decide)) 0x7a 18 (by decide) ⟨fun _ => 0, 0, []⟩

section HexdumpRegion

set_option maxRecDepth 100000

/-- Claim C26, the code at the failing input. With the bytes `0x41 .. 0x44` at
the addresses `0x40 .. 0x43`, the command `hexdump 0x40 3` sends the row
`0000000000000040: 4142 4344 ` followed by six blank groups and the gutter
`ABC`: the hex area renders four bytes, the last of which, at `0x43`, is
outside the region of 3 bytes. When only the 3 bytes of the region are readable
the command stops on a fault at address `0x43` (67). -/
theorem hexdump_reads_past_region :
    (hexdump (blobMem 0x40 [0x41, 0x42, 0x43, 0x44]) 3
        [[104, 101, 120, 100, 117, 109, 112], [48, 120, 52, 48], [51]] ⟨fun _ => 0, 0, []⟩).map
      (fun r => (r.1, r.2.tx))
      = Except.ok (0,
          [48, 48, 48, 48, 48, 48, 48, 48, 48, 48, 48, 48, 48, 48, 52, 48, 58, 32,
           52, 49, 52, 50, 32, 52, 51, 52, 52, 32,
           32, 32, 32, 32, 32, 32, 32, 32, 32, 32, 32, 32, 32, 32, 32, 32, 32, 32, 32, 32,
           32, 32, 32, 32, 32, 32, 32, 32, 32, 32,
           32, 65, 66, 67, 13, 10])
    ∧ (hexdump (blobMem 0x40 [0x41, 0x42, 0x43]) 3
        [[104, 101, 120, 100, 117, 109, 112], [48, 120, 52, 48], [51]] ⟨fun _ => 0, 0, []⟩).map
      (fun r => (r.1, r.2.tx))
      = Except.error (Err.fault 67) :=
  ⟨rfl, rfl⟩

end HexdumpRegion

/-! ## The shell: overlong lines -/

/-- The directive `%i` at the head of a format string. -/
theorem uart1_printf_cons_int (v : Nat) (s : List Nat) (ap : List VArg) (u : Uart) :
    uart1_printf (37 :: 105 :: s) (VArg.num v :: ap) u
      = uart1_printf s ap ⟨u.rx, u.pos, u.tx ++ intText (toInt32 v)⟩ := by
  obtain ⟨hlo, hhi⟩ := toInt32_range v
  obtain ⟨a1, a2⟩ := ABS_tdiv (toInt32 v) hlo hhi
  have hm : (toInt32 v).natAbs < 10 ^ 19 := by
    have : (toInt32 v).natAbs < 2 ^ 31 + 1 := by omega
    exact lt_of_lt_of_le this (by norm_num)
  have hl := print_int_loop_spec 19 (toInt32 v).natAbs [] (by norm_num) hm
  rw [uart1_printf.eq_def]
  simp only []
  rw [if_neg (show ¬ ((37 : Nat) = 0) by decide), if_neg (show ¬ ((37 : Nat) = 10) by decide),
    if_pos trivial,
    if_neg (show ¬ ((105 : Nat) = 0) by decide),
    if_neg (show ¬ ((105 : Nat) = 37) by decide),
    if_neg (show ¬ ((105 : Nat) = 115) by decide),
    if_neg (show ¬ ((105 : Nat) = 99) by decide),
    if_neg (show ¬ ((105 : Nat) = 98) by decide),
    if_neg (show ¬ ((105 : Nat) = 119) by decide),
    if_neg (show ¬ ((105 : Nat) = 104) by decide),
    if_pos trivial]
  simp only [a1, a2, hl, List.append_nil, uart1_puts_decimal, intText]
  by_cases hneg : toInt32 v < 0
  · simp only [if_pos hneg, uart1_putc, List.append_assoc]
  · simp only [if_neg hneg, List.nil_append]

theorem toInt32_small (k : Nat) (hk : k < 2 ^ 31) : toInt32 k = (k : Int) := by
  unfold toInt32
  have e : k % 2 ^ 32 = k := Nat.mod_eq_of_lt (by omega)
  rw [e, if_pos hk]

theorem intText_nat (k : Nat) : intText (k : Int) = decimalOf k := by
  unfold intText
  have h : ¬ ((k : Int) < 0) := by omega
  rw [if_neg h, List.nil_append, Int.natAbs_ofNat]

theorem received_succ (rx : Nat → Nat) (pos n : Nat) :
    received rx pos (n + 1) = foldCR (rx pos) :: received rx (pos + 1) n := by
  unfold received
  rw [List.range_succ_eq_map, List.map_cons, List.map_map]
  simp only [Nat.add_zero, List.cons.injEq, true_and]
  apply List.map_congr_left
  intro i _
  simp only [Function.comp]
  congr 2
  omega

theorem received_append (rx : Nat → Nat) (pos a b : Nat) :
    received rx pos (a + b) = received rx pos a ++ received rx (pos + a) b := by
  induction a generalizing pos with
  | zero => simp [received]
  | succ a ih =>
    have e : a + 1 + b = (a + b) + 1 := by omega
    rw [e, received_succ, received_succ, ih (pos + 1)]
    have e2 : pos + 1 + a = pos + (a + 1) := by omega
    rw [e2]
    rfl

theorem uart1_getline_loop_tx (lim : Nat) (hlim : lim < 2 ^ 64) :
    ∀ (fuel k : Nat) (b : LineBuf) (u : Uart) (r : Nat) (b1 : LineBuf) (u1 : Uart), k ≤ lim →
      uart1_getline_loop lim fuel k b u = some (r, b1, u1) →
      k ≤ r ∧ u1.tx = u.tx ++ received u.rx u.pos (r - k) := by
  intro fuel
  induction fuel with
  | zero => intro k b u r b1 u1 _ h; simp [uart1_getline_loop] at h
  | succ fuel ih =>
    intro k b u r b1 u1 hk h
    rw [uart1_getline_loop] at h
    by_cases hlt : k < lim
    · simp only [hlt, if_true, uart1_getc, uart1_putc] at h
      have hmod : (k + 1) % 2 ^ 64 = k + 1 := Nat.mod_eq_of_lt (by omega)
      rw [hmod] at h
      have hc : (if u.rx u.pos % 256 = 13 then 10 else u.rx u.pos % 256) = foldCR (u.rx u.pos) :=
        rfl
      rw [hc] at h
      by_cases h10 : foldCR (u.rx u.pos) = 10
      · simp only [h10, if_true, Option.some.injEq, Prod.mk.injEq] at h
        obtain ⟨h1, _, h3⟩ := h
        subst h1
        subst h3
        refine ⟨by omega, ?_⟩
        have e : k + 1 - k = 0 + 1 := by omega
        rw [e, received_succ]
        simp [received, h10]
      · simp only [h10, if_false] at h
        obtain ⟨h1, h2⟩ := ih (k + 1) _ _ r b1 u1 (by omega) h
        refine ⟨by omega, ?_⟩
        have e : r - k = (r - (k + 1)) + 1 := by omega
        rw [h2, e, received_succ]
        simp
    · simp only [hlt, if_false, Option.some.injEq, Prod.mk.injEq] at h
      obtain ⟨h1, _, h3⟩ := h
      subst h1
      subst h3
      simp [received]

/-- A call of `uart1_getline` on a stream whose next `m` bytes are no newline
and are followed by a newline: it reads `min (n - 1) (m + 1)` bytes. -/
theorem uart1_getline_chunk (n : Nat) (h2 : 2 ≤ n) (hn : n < 2 ^ 64) (u : Uart)
    (cmd : Nat → Nat) (m : Nat) (hpre : ∀ i, i < m → foldCR (u.rx (u.pos + i)) ≠ 10)
    (hnl : foldCR (u.rx (u.pos + m)) = 10) :
    ∃ b : LineBuf,
      uart1_getline u cmd n
          = some (min (n - 1) (m + 1), b,
              ⟨u.rx, u.pos + min (n - 1) (m + 1),
                u.tx ++ received u.rx u.pos (min (n - 1) (m + 1))⟩)
        ∧ (∀ i, i < min (n - 1) (m + 1) → b.mem i = foldCR (u.rx (u.pos + i)))
        ∧ b.mem (min (n - 1) (m + 1)) = 0 := by
  have hl : size_pred n = n - 1 := size_pred_eq n (by omega) hn
  obtain ⟨r, b1, u1, he, h1, h2', h3, h4, h5, h6, h7, h8, h9⟩ :=
    uart1_getline_loop_spec (size_pred n) (by rw [hl]; omega) (size_pred n + 1) 0 ⟨cmd, []⟩ u
      (Nat.zero_le _) (by omega)
  obtain ⟨_, htx⟩ := uart1_getline_loop_tx (size_pred n) (by rw [hl]; omega) (size_pred n + 1) 0
    ⟨cmd, []⟩ u r b1 u1 (Nat.zero_le _) he
  rw [hl] at h2' h9
  simp only [Nat.sub_zero] at h4 h7 h8 htx
  have hr : r = min (n - 1) (m + 1) := by
    by_cases hm : n - 1 ≤ m
    · have : r = n - 1 := by
        rcases h9 with h9 | ⟨h9a, h9b⟩
        · exact h9
        · exfalso
          have := h7 (r - 1) (Nat.zero_le _) (by omega)
          rw [h9b] at this
          exact hpre (r - 1) (by omega) this.symm
      omega
    · have hm' : m + 1 ≤ n - 1 := by omega
      have hle : r ≤ m + 1 := by
        by_contra hgt
        have e1 := h7 m (Nat.zero_le _) (by omega)
        have e2 := h8 m (Nat.zero_le _) (by omega)
        rw [e1] at e2
        exact e2 hnl
      have hge : m + 1 ≤ r := by
        rcases h9 with h9 | ⟨h9a, h9b⟩
        · omega
        · by_contra hlt
          have := h7 (r - 1) (Nat.zero_le _) (by omega)
          rw [h9b] at this
          exact hpre (r - 1) (by omega) this.symm
      omega
  refine ⟨b1.store r 0, ?_, ?_, ?_⟩
  · show uart1_getline_end
        (uart1_getline_loop (size_pred n) (size_pred n + 1) 0 ⟨cmd, []⟩ u) = _
    rw [he, ← hr]
    have eu : u1 = ⟨u.rx, u.pos + r, u.tx ++ received u.rx u.pos r⟩ := by
      cases u1
      simp only at h3 h4 htx
      rw [h3, h4, htx]
    rw [← eu]
    rfl
  · intro i hi
    rw [← hr] at hi
    simp only [LineBuf.store]
    rw [Function.update_noteq (by omega), h7 i (Nat.zero_le _) hi]
  · rw [← hr]
    simp [LineBuf.store]

theorem getline_chunk_full (u : Uart) (cmd : Nat → Nat) (m : Nat) (hm : 79 ≤ m)
    (hpre : ∀ i, i < m → foldCR (u.rx (u.pos + i)) ≠ 10)
    (hnl : foldCR (u.rx (u.pos + m)) = 10) :
    ∃ b : LineBuf,
      uart1_getline u cmd CMD_BUF_SIZE
          = some (79, b, ⟨u.rx, u.pos + 79, u.tx ++ received u.rx u.pos 79⟩)
        ∧ b.mem 78 ≠ 10 := by
  obtain ⟨b, h1, h2, _⟩ :=
    uart1_getline_chunk CMD_BUF_SIZE (by decide) (by decide) u cmd m hpre hnl
  have e : min (CMD_BUF_SIZE - 1) (m + 1) = 79 := by
    have : CMD_BUF_SIZE - 1 = 79 := rfl
    omega
  rw [e] at h1 h2
  refine ⟨b, h1, ?_⟩
  rw [h2 78 (by omega)]
  exact hpre 78 (by omega)

theorem getline_chunk_last (u : Uart) (cmd : Nat → Nat) (m : Nat) (hm : m ≤ 78)
    (hpre : ∀ i, i < m → foldCR (u.rx (u.pos + i)) ≠ 10)
    (hnl : foldCR (u.rx (u.pos + m)) = 10) :
    ∃ b : LineBuf,
      uart1_getline u cmd CMD_BUF_SIZE
          = some (m + 1, b, ⟨u.rx, u.pos + (m + 1), u.tx ++ received u.rx u.pos (m + 1)⟩)
        ∧ (∀ i, i < m + 1 → b.mem i = foldCR (u.rx (u.pos + i)))
        ∧ b.mem (m + 1) = 0 := by
  obtain ⟨b, h1, h2, h3⟩ :=
    uart1_getline_chunk CMD_BUF_SIZE (by decide) (by decide) u cmd m hpre hnl
  have e : min (CMD_BUF_SIZE - 1) (m + 1) = m + 1 := by
    have : CMD_BUF_SIZE - 1 = 79 := rfl
    omega
  rw [e] at h1 h2 h3
  exact ⟨b, h1, h2, h3⟩

theorem shell_overlong_loop_spec : ∀ (fuel m : Nat) (cmd : Nat → Nat) (total : Nat) (u : Uart),
    (∀ i, i < m → foldCR (u.rx (u.pos + i)) ≠ 10) → foldCR (u.rx (u.pos + m)) = 10 →
    m < fuel → total + m + 1 < 2 ^ 64 →
    ∃ cmd1 : Nat → Nat,
      shell_overlong_loop fuel cmd total u
        = Except.ok (total + m + 1, cmd1,
            ⟨u.rx, u.pos + (m + 1), u.tx ++ received u.rx u.pos (m + 1)⟩) := by
  intro fuel
  induction fuel with
  | zero => intro m cmd total u _ _ h; omega
  | succ fuel ih =>
    intro m cmd total u hpre hnl hf ht
    rw [shell_overlong_loop]
    by_cases hm : 79 ≤ m
    · obtain ⟨b, h1, h2⟩ := getline_chunk_full u cmd m hm hpre hnl
      rw [h1]
      simp only []
      have e0 : ¬ ((79 : Nat) = 0) := by decide
      have e1 : (79 : Nat) - 1 = 78 := rfl
      rw [if_neg e0, e1, if_pos h2, Nat.mod_eq_of_lt (by omega)]
      obtain ⟨cmd1, h3⟩ := ih (m - 79) b.mem (total + 79)
        ⟨u.rx, u.pos + 79, u.tx ++ received u.rx u.pos 79⟩
        (fun i hi => by
          have := hpre (79 + i) (by omega)
          rw [← Nat.add_assoc] at this
          exact this)
        (by
          have e : u.pos + 79 + (m - 79) = u.pos + m := by omega
          show foldCR (u.rx (u.pos + 79 + (m - 79))) = 10
          rw [e]
          exact hnl)
        (by omega) (by omega)
      refine ⟨cmd1, ?_⟩
      rw [h3]
      have e2 : total + 79 + (m - 79) + 1 = total + m + 1 := by omega
      have e3 : u.pos + 79 + (m - 79 + 1) = u.pos + (m + 1) := by omega
      have e4 : received u.rx u.pos (m + 1)
          = received u.rx u.pos 79 ++ received u.rx (u.pos + 79) (m - 79 + 1) := by
        rw [← received_append]
        congr 1
        omega
      simp only [e2, e3, e4, List.append_assoc]
    · obtain ⟨b, h1, h2, _⟩ := getline_chunk_last u cmd m (by omega) hpre hnl
      rw [h1]
      simp only []
      have e0 : ¬ (m + 1 = 0) := by omega
      have e1 : m + 1 - 1 = m := by omega
      have e2 : ¬ (b.mem m ≠ 10) := by
        rw [h2 m (by omega)]
        exact fun h => h hnl
      rw [if_neg e0, e1, if_neg e2, Nat.mod_eq_of_lt (by omega)]
      exact ⟨b.mem, by rw [Nat.add_assoc]⟩

theorem printf_too_long (v : Nat) (u : Uart) :
    (printf_call fmt_too_long [VArg.num v] u).bind
        (printf_call fmt_limit [VArg.num (CMD_BUF_SIZE - 2)])
      = Except.ok ⟨u.rx, u.pos, u.tx ++ msgTooLong (intText (toInt32 v))⟩ := by
  have e1 : fmt_too_long
      = [69, 114, 114, 111, 114, 58, 32, 99, 111, 109, 109, 97, 110, 100, 32, 108, 105, 110, 101,
          32, 102, 111, 114, 109, 101, 100, 32, 111, 102, 32] ++ 37 :: 105 ::
        [32, 99, 104, 97, 114, 97, 99, 116, 101, 114, 115, 46, 10] := rfl
  have e2 : fmt_limit
      = [89, 111, 117, 32, 99, 97, 110, 110, 111, 116, 32, 117, 115, 101, 32, 109, 111, 114, 101,
          32, 116, 104, 97, 110, 32] ++ 37 :: 105 :: [46, 10] := rfl
  have e3 : intText (toInt32 (CMD_BUF_SIZE - 2)) = [55, 56] := by
    have e : CMD_BUF_SIZE - 2 = 78 := rfl
    rw [e, toInt32_small 78 (by norm_num), intText_nat]
    norm_num [decimalOf]
  have c1 : crlf [69, 114, 114, 111, 114, 58, 32, 99, 111, 109, 109, 97, 110, 100, 32, 108, 105,
      110, 101, 32, 102, 111, 114, 109, 101, 100, 32, 111, 102, 32]
      = [69, 114, 114, 111, 114, 58, 32, 99, 111, 109, 109, 97, 110, 100, 32, 108, 105,
      110, 101, 32, 102, 111, 114, 109, 101, 100, 32, 111, 102, 32] := rfl
  have c2 : crlf [32, 99, 104, 97, 114, 97, 99, 116, 101, 114, 115, 46, 10]
      = [32, 99, 104, 97, 114, 97, 99, 116, 101, 114, 115, 46, 13, 10] := rfl
  have c3 : crlf [89, 111, 117, 32, 99, 97, 110, 110, 111, 116, 32, 117, 115, 101, 32, 109, 111,
      114, 101, 32, 116, 104, 97, 110, 32]
      = [89, 111, 117, 32, 99, 97, 110, 110, 111, 116, 32, 117, 115, 101, 32, 109, 111,
      114, 101, 32, 116, 104, 97, 110, 32] := rfl
  have c4 : crlf [46, 10] = [46, 13, 10] := rfl
  rw [printf_call, e1, uart1_printf_plain _ (by decide) (by decide), uart1_printf_cons_int,
    uart1_printf_text _ (by decide) (by decide)]
  simp only [Except.bind]
  rw [printf_call, e2, uart1_printf_plain _ (by decide) (by decide), uart1_printf_cons_int,
    uart1_printf_text _ (by decide) (by decide), e3, c1, c2, c3, c4]
  simp only [List.append_assoc, msgTooLong, List.cons_append, List.nil_append]

/-- An iteration of `shell_main` on a line of `k >= 79` characters: the error
message shows the count as `%i` prints it. -/
theorem shell_iteration_overlong (table : List cmd_descr) (fuel : Nat) (cmd argv : Nat → Nat)
    (u : Uart) (k : Nat) (hk : 79 ≤ k) (hk2 : k + 1 < 2 ^ 64)
    (hpre : ∀ i, i < k → foldCR (u.rx (u.pos + i)) ≠ 10)
    (hnl : foldCR (u.rx (u.pos + k)) = 10) (hf : k < fuel) :
    shell_iteration table fuel cmd argv u
      = Except.ok ⟨u.rx, u.pos + (k + 1),
          u.tx ++ PROMPT ++ received u.rx u.pos (k + 1) ++ msgTooLong (intText (toInt32 k))⟩ := by
  unfold shell_iteration
  have c0 : crlf PROMPT = PROMPT := rfl
  rw [printf_call_text PROMPT (by decide) (by decide), except_ok_bind, c0]
  obtain ⟨b, h1, h2⟩ := getline_chunk_full ⟨u.rx, u.pos, u.tx ++ PROMPT⟩ cmd k hk hpre hnl
  rw [h1, shell_after_getline]
  have e0 : ¬ ((79 : Nat) = 0) := by decide
  have e1 : (79 : Nat) - 1 = 78 := rfl
  rw [if_neg e0, e1, if_pos h2]
  obtain ⟨cmd1, h3⟩ := shell_overlong_loop_spec fuel (k - 79) b.mem 79
    ⟨u.rx, u.pos + 79, u.tx ++ PROMPT ++ received u.rx u.pos 79⟩
    (fun i hi => by
      have := hpre (79 + i) (by omega)
      rw [← Nat.add_assoc] at this
      exact this)
    (by
      have e : u.pos + 79 + (k - 79) = u.pos + k := by omega
      show foldCR (u.rx (u.pos + 79 + (k - 79))) = 10
      rw [e]
      exact hnl)
    (by omega) (by omega)
  rw [h3, except_ok_bind]
  simp only []
  have e2 : (79 + (k - 79) + 1 + 2 ^ 64 - 1) % 2 ^ 64 = k := by omega
  have e3 : u.pos + 79 + (k - 79 + 1) = u.pos + (k + 1) := by omega
  have e4 : received u.rx u.pos (k + 1)
      = received u.rx u.pos 79 ++ received u.rx (u.pos + 79) (k - 79 + 1) := by
    have e : k + 1 = 79 + (k - 79 + 1) := by omega
    rw [e, received_append]
  have h4 := printf_too_long k
    ⟨u.rx, u.pos + (k + 1), u.tx ++ PROMPT ++ received u.rx u.pos (k + 1)⟩
  rw [e2, e3, List.append_assoc (u.tx ++ PROMPT), ← e4]
  exact h4

/-- An iteration of `shell_main` on a line of `k <= 78` characters. -/
theorem shell_iteration_short (table : List cmd_descr) (fuel : Nat) (cmd argv : Nat → Nat)
    (u : Uart) (k : Nat) (hk : k ≤ 78)
    (hpre : ∀ i, i < k → foldCR (u.rx (u.pos + i)) ≠ 10)
    (hnl : foldCR (u.rx (u.pos + k)) = 10) :
    ∃ b : Nat → Nat, (∀ i, i ≤ k → b i = foldCR (u.rx (u.pos + i))) ∧ b (k + 1) = 0
      ∧ shell_iteration table fuel cmd argv u
        = shell_run_line table b argv
            ⟨u.rx, u.pos + (k + 1), u.tx ++ PROMPT ++ received u.rx u.pos (k + 1)⟩ := by
  obtain ⟨b, h1, h2, h3⟩ := getline_chunk_last ⟨u.rx, u.pos, u.tx ++ PROMPT⟩ cmd k hk hpre hnl
  refine ⟨b.mem, fun i hi => h2 i (by omega), h3, ?_⟩
  unfold shell_iteration
  have c0 : crlf PROMPT = PROMPT := rfl
  rw [printf_call_text PROMPT (by decide) (by decide), except_ok_bind, c0, h1,
    shell_after_getline]
  have e0 : ¬ (k + 1 = 0) := by omega
  have e1 : k + 1 - 1 = k := by omega
  have e2 : ¬ (b.mem k ≠ 10) := by
    rw [h2 k (by omega)]
    exact fun h => h hnl
  rw [if_neg e0, e1, if_neg e2]

/-- Claim C21 as stated fails for counts that `%i` cannot show: on a line of
`2 ^ 31` characters `'a'` followed by a newline, typed at the prompt, the shell
reads up to the newline and reports
`Error: command line formed of -2147483648 characters.`, not the count
2147483648. -/
theorem shell_overlong_count_counterexample :
    shell_iteration [] (2 ^ 31 + 1) (fun _ => 0) (fun _ => 0)
        ⟨fun i => if i < 2 ^ 31 then 97 else 10, 0, []⟩
      = Except.ok ⟨(⟨fun i => if i < 2 ^ 31 then 97 else 10, 0, []⟩ : Uart).rx,
          (⟨fun i => if i < 2 ^ 31 then 97 else 10, 0, []⟩ : Uart).pos + (2 ^ 31 + 1),
          (⟨fun i => if i < 2 ^ 31 then 97 else 10, 0, []⟩ : Uart).tx ++ PROMPT
            ++ received (⟨fun i => if i < 2 ^ 31 then 97 else 10, 0, []⟩ : Uart).rx
                (⟨fun i => if i < 2 ^ 31 then 97 else 10, 0, []⟩ : Uart).pos (2 ^ 31 + 1)
            ++ msgTooLong [45, 50, 49, 52, 55, 52, 56, 51, 54, 52, 56]⟩ := by
  have h := shell_iteration_overlong [] (2 ^ 31 + 1) (fun _ => 0) (fun _ => 0)
    ⟨fun i => if i < 2 ^ 31 then 97 else 10, 0, []⟩ (2 ^ 31) (by norm_num) (by norm_num)
    (fun i hi => by
      show foldCR (if 0 + i < 2 ^ 31 then 97 else 10) ≠ 10
      rw [Nat.zero_add, if_pos hi]
      decide)
    (by
      show foldCR (if 0 + 2 ^ 31 < 2 ^ 31 then 97 else 10) = 10
      rw [Nat.zero_add, if_neg (Nat.lt_irrefl _)]
      decide)
    (by omega)
  have e : intText (toInt32 (2 ^ 31)) = [45, 50, 49, 52, 55, 52, 56, 51, 54, 52, 56] := by
    have e1 : toInt32 (2 ^ 31) = -2147483648 := by decide
    rw [e1]
    unfold intText
    norm_num [decimalOf]
  rw [e] at h
  exact h

/-- Claim C21, amended. The input at the prompt is `k` characters, none of
which is a newline (`'\n'`, or `'\r'`, which `uart1_getc` hands over as a
newline), followed by a newline, and `k < 2 ^ 31`. If `k <= 78` the iteration
of `shell_main` sends the prompt, reads the `k + 1` characters (echoing them)
and goes on to tokenize the buffer, which holds the line, its newline and the
terminator: no length error is raised. If `k >= 79` it reads up to and
including the newline and sends the two lines of the error message with the
count `k` and the limit 78; that is the whole effect of the iteration, whatever
the command table: no command is dispatched and the next iteration starts at
the prompt. -/
theorem shell_line_length (table : List cmd_descr) (fuel : Nat) (cmd argv : Nat → Nat)
    (u : Uart) (k : Nat)
    (hpre : ∀ i, i < k → foldCR (u.rx (u.pos + i)) ≠ 10)
    (hnl : foldCR (u.rx (u.pos + k)) = 10) (hk : k < 2 ^ 31) (hf : k < fuel) :
    (k ≤ 78 → ∃ b : Nat → Nat, (∀ i, i ≤ k → b i = foldCR (u.rx (u.pos + i))) ∧ b (k + 1) = 0
        ∧ shell_iteration table fuel cmd argv u
          = shell_run_line table b argv
              ⟨u.rx, u.pos + (k + 1), u.tx ++ PROMPT ++ received u.rx u.pos (k + 1)⟩)
      ∧ (79 ≤ k → shell_iteration table fuel cmd argv u
          = Except.ok ⟨u.rx, u.pos + (k + 1),
              u.tx ++ PROMPT ++ received u.rx u.pos (k + 1) ++ msgTooLong (decimalOf k)⟩) := by
  constructor
  · intro h78
    exact shell_iteration_short table fuel cmd argv u k h78 hpre hnl
  · intro h79
    have h := shell_iteration_overlong table fuel cmd argv u k h79 (by omega) hpre hnl hf
    rw [toInt32_small k hk, intText_nat] at h
    exact h

/-- The line `hi` ended by a carriage return is tokenized; a line of 80
characters `'a'` is refused with the count 80. -/
theorem shell_line_length_witness :
    ((2 ≤ 78 → ∃ b : Nat → Nat,
          (∀ i, i ≤ 2 → b i
            = foldCR ((⟨fun i => [104, 105, 13].getD i 0, 0, []⟩ : Uart).rx
                ((⟨fun i => [104, 105, 13].getD i 0, 0, []⟩ : Uart).pos + i)))
          ∧ b (2 + 1) = 0
          ∧ shell_iteration (cmds (fun _ => none)) 3 (fun _ => 0) (fun _ => 0)
              ⟨fun i => [104, 105, 13].getD i 0, 0, []⟩
            = shell_run_line (cmds (fun _ => none)) b (fun _ => 0)
                ⟨(⟨fun i => [104, 105, 13].getD i 0, 0, []⟩ : Uart).rx,
                  (⟨fun i => [104, 105, 13].getD i 0, 0, []⟩ : Uart).pos + (2 + 1),
                  (⟨fun i => [104, 105, 13].getD i 0, 0, []⟩ : Uart).tx ++ PROMPT
                    ++ received (⟨fun i => [104, 105, 13].getD i 0, 0, []⟩ : Uart).rx
                        (⟨fun i => [104, 105, 13].getD i 0, 0, []⟩ : Uart).pos (2 + 1)⟩)
        ∧ (79 ≤ 2 → shell_iteration (cmds (fun _ => none)) 3 (fun _ => 0) (fun _ => 0)
              ⟨fun i => [104, 105, 13].getD i 0, 0, []⟩
            = Except.ok ⟨(⟨fun i => [104, 105, 13].getD i 0, 0, []⟩ : Uart).rx,
                (⟨fun i => [104, 105, 13].getD i 0, 0, []⟩ : Uart).pos + (2 + 1),
                (⟨fun i => [104, 105, 13].getD i 0, 0, []⟩ : Uart).tx ++ PROMPT
                  ++ received (⟨fun i => [104, 105, 13].getD i 0, 0, []⟩ : Uart).rx
                      (⟨fun i => [104, 105, 13].getD i 0, 0, []⟩ : Uart).pos (2 + 1)
                  ++ msgTooLong (decimalOf 2)⟩))
    ∧ ((80 ≤ 78 → ∃ b : Nat → Nat,
          (∀ i, i ≤ 80 → b i
            = foldCR ((⟨fun i => if i < 80 then 97 else 10, 0, []⟩ : Uart).rx
                ((⟨fun i => if i < 80 then 97 else 10, 0, []⟩ : Uart).pos + i)))
          ∧ b (80 + 1) = 0
          ∧ shell_iteration (cmds (fun _ => none)) 81 (fun _ => 0) (fun _ => 0)
              ⟨fun i => if i < 80 then 97 else 10, 0, []⟩
            = shell_run_line (cmds (fun _ => none)) b (fun _ => 0)
                ⟨(⟨fun i => if i < 80 then 97 else 10, 0, []⟩ : Uart).rx,
                  (⟨fun i => if i < 80 then 97 else 10, 0, []⟩ : Uart).pos + (80 + 1),
                  (⟨fun i => if i < 80 then 97 else 10, 0, []⟩ : Uart).tx ++ PROMPT
                    ++ received (⟨fun i => if i < 80 then 97 else 10, 0, []⟩ : Uart).rx
                        (⟨fun i => if i < 80 then 97 else 10, 0, []⟩ : Uart).pos (80 + 1)⟩)
        ∧ (79 ≤ 80 → shell_iteration (cmds (fun _ => none)) 81 (fun _ => 0) (fun _ => 0)
              ⟨fun i => if i < 80 then 97 else 10, 0, []⟩
            = Except.ok ⟨(⟨fun i => if i < 80 then 97 else 10, 0, []⟩ : Uart).rx,
                (⟨fun i => if i < 80 then 97 else 10, 0, []⟩ : Uart).pos + (80 + 1),
                (⟨fun i => if i < 80 then 97 else 10, 0, []⟩ : Uart).tx ++ PROMPT
                  ++ received (⟨fun i => if i < 80 then 97 else 10, 0, []⟩ : Uart).rx
                      (⟨fun i => if i < 80 then 97 else 10, 0, []⟩ : Uart).pos (80 + 1)
                  ++ msgTooLong (decimalOf 80)⟩)) :=
  ⟨shell_line_length (cmds (fun _ => none)) 3 (fun _ => 0) (fun _ => 0)
      ⟨fun i => [104, 105, 13].getD i 0, 0, []⟩ 2 (by decide) (by decide) (by norm_num)
      (by decide),
    shell_line_length (cmds (fun _ => none)) 81 (fun _ => 0) (fun _ => 0)
      ⟨fun i => if i < 80 then 97 else 10, 0, []⟩ 80
      (fun i hi => by
        show foldCR (if 0 + i < 80 then 97 else 10) ≠ 10
        rw [Nat.zero_add, if_pos hi]
        decide)
      (by decide) (by norm_num) (by decide)⟩

end BareMetal
